import Mathlib

/-!
# rgbabitmap: a shallow embedding of `rgbabitmap.h`

The C++ header declares two classes, `bitmap` (an RGBA byte store) and `canvas`
(a rasterizer drawing on a `bitmap` it holds by reference).  Both are embedded
here as Lean structures whose fields carry the names of the C++ members, and
every member function becomes a Lean function of the same name that takes the
object as its first argument and returns the updated object.

Conventions of the embedding:

* `unsigned int` is a `Nat` reduced modulo `2^32` after every operation;
* `int` is an `Int`; signed arithmetic is reduced to the two's complement
  range by `i32` (what the usual targets do on signed overflow);
* `unsigned char` is a `Nat`, reduced modulo `256` where a wider value is
  assigned to it;
* an access outside the byte store (undefined behaviour in C++) is the fault
  `Fault.outOfBounds`; a loop that does not finish within the given fuel is
  `Fault.outOfFuel`;
* `float` is IEEE-754 binary32 with round-to-nearest-even, modelled exactly on
  unnormalised fractions.
-/

namespace rgbabitmap

/-- The ways a run of the embedded program can fail to produce a state. -/
inductive Fault where
  | outOfBounds
  | outOfFuel
  | divByZero
  | floatToInt
  | uninitialised
deriving DecidableEq, Repr

deriving instance DecidableEq for Except

/-- Conversion of an integer value to `unsigned int`. -/
def u32 (z : Int) : Nat := (z % 4294967296).toNat

/-- Reduction of a signed result to the range of `int`. -/
def i32 (z : Int) : Int := (z + 2147483648) % 4294967296 - 2147483648

/-! ## class bitmap -/

/-- The members of `class bitmap`. -/
structure bitmap where
  m_width : Nat
  m_height : Nat
  m_row_increment : Nat
  m_bytes_per_pixel : Nat
  m_bitmap : List Nat
deriving DecidableEq, Repr

/-- The effect of `std::vector::resize(n)` on a vector of bytes. -/
def vector_resize (v : List Nat) (n : Nat) : List Nat :=
  v.take n ++ List.replicate (n - v.length) 0

/-- Four consecutive byte writes `*(pixel + 0) = r; ... *(pixel + 3) = a`. -/
def store4 (v : List Nat) (off r g b a : Nat) : List Nat :=
  List.set (List.set (List.set (List.set v off r) (off + 1) g) (off + 2) b) (off + 3) a

namespace bitmap

/-- Member `create_bitmap`: the row increment and the store size are computed
in `unsigned int`. -/
def create_bitmap (b : bitmap) : bitmap :=
  let row := (b.m_width * b.m_bytes_per_pixel) % 4294967296
  { b with m_row_increment := row,
           m_bitmap := vector_resize b.m_bitmap ((b.m_height * row) % 4294967296) }

/-- Constructor `bitmap(unsigned int width, unsigned int height)`. -/
def new (width height : Nat) : bitmap :=
  create_bitmap
    { m_width := width % 4294967296, m_height := height % 4294967296,
      m_row_increment := 0, m_bytes_per_pixel := 4, m_bitmap := [] }

/-- Member `clear(value)`: `memset` over the whole store. -/
def clear (b : bitmap) (value : Nat) : bitmap :=
  { b with m_bitmap := List.replicate b.m_bitmap.length (value % 256) }

/-- The byte offset both pixel accessors compute, in `unsigned int`. -/
def pixel_offset (b : bitmap) (x y : Nat) : Nat :=
  let y_offset := (y * b.m_row_increment) % 4294967296
  let x_offset := (x * b.m_bytes_per_pixel) % 4294967296
  (y_offset + x_offset) % 4294967296

/-- Member `set_pixel`: four byte writes at the pixel offset. -/
def set_pixel (b : bitmap) (x y red green blue alpha : Nat) : Except Fault bitmap :=
  let off := b.pixel_offset x y
  if off + 3 < b.m_bitmap.length then
    .ok { b with m_bitmap := store4 b.m_bitmap off red green blue alpha }
  else .error .outOfBounds

/-- Member `get_pixel`: four byte reads at the pixel offset. -/
def get_pixel (b : bitmap) (x y : Nat) : Except Fault (Nat × Nat × Nat × Nat) :=
  let off := b.pixel_offset x y
  if off + 3 < b.m_bitmap.length then
    .ok (b.m_bitmap.getD off 0, b.m_bitmap.getD (off + 1) 0,
         b.m_bitmap.getD (off + 2) 0, b.m_bitmap.getD (off + 3) 0)
  else .error .outOfBounds

/-- Member `width`. -/
def width (b : bitmap) : Nat := b.m_width

/-- Member `height`. -/
def height (b : bitmap) : Nat := b.m_height

/-- The representation invariant of a bitmap whose store size did not wrap. -/
def wf (b : bitmap) : Prop :=
  b.m_bytes_per_pixel = 4 ∧ b.m_row_increment = b.m_width * 4 ∧
    b.m_bitmap.length = b.m_height * (b.m_width * 4) ∧
    b.m_height * (b.m_width * 4) < 4294967296

end bitmap


/-! ## binary32 arithmetic

A finite `float` value is kept as a fraction `num / den` that is not reduced.
Every arithmetic operation computes the exact result and rounds it to 24
significant bits, ties to even.  The exponent range is not modelled: every
value the program forms from 32-bit integers lies well inside it. -/

/-- A finite binary32 value, as an unreduced fraction. -/
structure Frac where
  num : Int
  den : Nat
deriving DecidableEq, Repr

/-- Worker of `ilog2`. -/
def ilog2Aux : Nat → Nat → Nat
  | 0, _ => 0
  | fuel + 1, n => if n < 2 then 0 else ilog2Aux fuel (n / 2) + 1

/-- The position of the leading bit of `n` (0 for `n ≤ 1`). -/
def ilog2 (n : Nat) : Nat := ilog2Aux n n

/-- Round the positive fraction `n / d` to 24 significant bits, ties to even. -/
def roundPos (n d : Nat) : Frac :=
  let e0 : Int := (ilog2 n : Int) - (ilog2 d : Int)
  let ge : Bool := if 0 ≤ e0 then d * 2 ^ e0.toNat ≤ n else d ≤ n * 2 ^ (-e0).toNat
  let e : Int := if ge then e0 else e0 - 1
  let t : Int := e - 23
  let N : Nat := if 0 ≤ t then n else n * 2 ^ (-t).toNat
  let D : Nat := if 0 ≤ t then d * 2 ^ t.toNat else d
  let q := N / D
  let r := N % D
  let m := if 2 * r < D then q else if D < 2 * r then q + 1 else if q % 2 = 0 then q else q + 1
  if 0 ≤ t then ⟨((m * 2 ^ t.toNat : Nat) : Int), 1⟩ else ⟨(m : Int), 2 ^ (-t).toNat⟩

/-- Round a fraction with positive denominator to binary32. -/
def f32round (a : Frac) : Frac :=
  if a.num = 0 then ⟨0, 1⟩
  else if 0 < a.num then roundPos a.num.toNat a.den
  else let r := roundPos (-a.num).toNat a.den; ⟨-r.num, r.den⟩

namespace Frac

/-- Conversion `(float) z` of an integer. -/
def ofInt (z : Int) : Frac := f32round ⟨z, 1⟩

/-- Operation `a / b` in `float`, for `b` nonzero. -/
def fdiv (a b : Frac) : Frac :=
  f32round ⟨a.num * (b.den : Int) * Int.sign b.num, a.den * b.num.natAbs⟩

/-- Operation `a + b` in `float`. -/
def fadd (a b : Frac) : Frac :=
  f32round ⟨a.num * (b.den : Int) + b.num * (a.den : Int), a.den * b.den⟩

/-- Operation `a * b` in `float`. -/
def fmul (a b : Frac) : Frac := f32round ⟨a.num * b.num, a.den * b.den⟩

/-- Comparison `a <= b` in `float`. -/
def fle (a b : Frac) : Bool := decide (a.num * (b.den : Int) ≤ b.num * (a.den : Int))

/-- Conversion `(int) a`: truncation toward zero, undefined outside `int`. -/
def toInt (a : Frac) : Except Fault Int :=
  let z := Int.tdiv a.num (a.den : Int)
  if -2147483648 ≤ z ∧ z < 2147483648 then .ok z else .error .floatToInt

end Frac

/-- The literal `0.8f`. -/
def c08 : Frac := ⟨13421773, 16777216⟩

/-! ## class canvas -/

/-- The members of `class canvas`.  The referenced bitmap is carried in the
state.  Field `trace` is a history variable that is not in the C++ class: it
lists, in order, the coordinates of every pixel `plot_pixel` has written. -/
structure canvas where
  m_bitmap : bitmap
  m_pen_width : Nat
  m_pen_red : Nat
  m_pen_green : Nat
  m_pen_blue : Nat
  m_pen_alpha : Nat
  m_clip_minx : Nat
  m_clip_miny : Nat
  m_clip_maxx : Nat
  m_clip_maxy : Nat
  m_clipped : Bool
  trace : List (Nat × Nat)
deriving DecidableEq, Repr

/-- Constant `INSIDE`. -/
def INSIDE : Nat := 0
/-- Constant `LEFT`. -/
def LEFT : Nat := 1
/-- Constant `RIGHT`. -/
def RIGHT : Nat := 2
/-- Constant `BOTTOM`. -/
def BOTTOM : Nat := 4
/-- Constant `TOP`. -/
def TOP : Nat := 8

/-- The expression `p0 + (p1 - p0) * (bound - q0) / (float)(q1 - q0)` of
`ClipLine`, assigned to an `int`.  The product is formed in `unsigned int`
(`bound` is unsigned), converted to `float` and divided in `float`. -/
def intersect (p0 q0 p1 q1 : Int) (bound : Nat) : Except Fault Int :=
  let prod : Nat := (u32 (i32 (p1 - p0)) * u32 ((bound : Int) - q0)) % 4294967296
  let divisor : Frac := Frac.ofInt (i32 (q1 - q0))
  if divisor.num = 0 then .error .divByZero
  else Frac.toInt (Frac.fadd (Frac.ofInt p0) (Frac.fdiv (Frac.ofInt (prod : Int)) divisor))

/-- The inner loop `while (e >= 0) { y1 += sy; e -= (dx << 1); }` of
`line_segment`; returns the new `y1` and `e`. -/
def bresenham_while : Nat → Int → Int → Int → Int → Except Fault (Int × Int)
  | 0, _, _, y1, e => if e ≥ 0 then .error .outOfFuel else .ok (y1, e)
  | fuel + 1, dx, sy, y1, e =>
    if e ≥ 0 then bresenham_while fuel dx sy (i32 (y1 + sy)) (i32 (e - i32 (2 * dx)))
    else .ok (y1, e)

namespace canvas

/-- Constructor `canvas(bitmap &bitmap)`. -/
def new (b : bitmap) : canvas :=
  { m_bitmap := b, m_pen_width := 1, m_pen_red := 255, m_pen_green := 255,
    m_pen_blue := 255, m_pen_alpha := 255, m_clip_minx := 0, m_clip_miny := 0,
    m_clip_maxx := b.width, m_clip_maxy := b.height, m_clipped := false, trace := [] }

/-- Member `setclip`: the `int` arguments are stored in `unsigned int` members. -/
def setclip (c : canvas) (minx miny maxx maxy : Int) : canvas :=
  { c with m_clip_minx := u32 minx, m_clip_miny := u32 miny,
           m_clip_maxx := u32 maxx, m_clip_maxy := u32 maxy }

/-- Member `pen_color`. -/
def pen_color (c : canvas) (red green blue alpha : Nat) : canvas :=
  { c with m_pen_red := red % 256, m_pen_green := green % 256,
           m_pen_blue := blue % 256, m_pen_alpha := alpha % 256 }

/-- Member `pen_width(const unsigned int &width)`. -/
def pen_width (c : canvas) (width : Nat) : canvas :=
  if width > 0 ∧ width < 4 then { c with m_pen_width := width } else c

/-- Member `plot_pixel`: clip test, read, blend, write. -/
def plot_pixel (c : canvas) (x y : Nat) : Except Fault canvas :=
  if !c.m_clipped &&
      (decide (x < c.m_clip_minx) || decide (x > c.m_clip_maxx) ||
       decide (y < c.m_clip_miny) || decide (y > c.m_clip_maxy)) then
    .ok c
  else
    match c.m_bitmap.get_pixel x y with
    | .error f => .error f
    | .ok (sr, sg, sb, _) =>
      let red := ((c.m_pen_red * c.m_pen_alpha + sr * (255 - c.m_pen_alpha)) >>> 8) % 256
      let green := ((c.m_pen_green * c.m_pen_alpha + sg * (255 - c.m_pen_alpha)) >>> 8) % 256
      let blue := ((c.m_pen_blue * c.m_pen_alpha + sb * (255 - c.m_pen_alpha)) >>> 8) % 256
      let alpha := c.m_pen_alpha
      match c.m_bitmap.set_pixel x y red green blue alpha with
      | .error f => .error f
      | .ok b => .ok { c with m_bitmap := b, trace := c.trace ++ [(x, y)] }

/-- Member `plot_pen_pixel`: the footprint of the pen, in `unsigned int`
coordinates. -/
def plot_pen_pixel (c : canvas) (x y : Nat) : Except Fault canvas :=
  let xp := (x + 1) % 4294967296
  let yp := (y + 1) % 4294967296
  let xm := (x + 4294967295) % 4294967296
  let ym := (y + 4294967295) % 4294967296
  match c.m_pen_width with
  | 1 => c.plot_pixel x y
  | 2 => do
    let c ← c.plot_pixel x y
    let c ← c.plot_pixel xp y
    let c ← c.plot_pixel xp yp
    c.plot_pixel x yp
  | 3 => do
    let c ← c.plot_pixel x ym
    let c ← c.plot_pixel xm ym
    let c ← c.plot_pixel xp ym
    let c ← c.plot_pixel x y
    let c ← c.plot_pixel xm y
    let c ← c.plot_pixel xp y
    let c ← c.plot_pixel x yp
    let c ← c.plot_pixel xm yp
    c.plot_pixel xp yp
  | _ => c.plot_pixel x y

/-- Member `ComputeOutCode`: the `int` coordinates are compared with the
`unsigned int` clip members, hence converted to `unsigned int`. -/
def ComputeOutCode (c : canvas) (x y : Int) : Nat :=
  let code := INSIDE
  let code :=
    if u32 x < c.m_clip_minx then code ||| LEFT
    else if u32 x > c.m_clip_maxx then code ||| RIGHT
    else code
  let code :=
    if u32 y < c.m_clip_miny then code ||| BOTTOM
    else if u32 y > c.m_clip_maxy then code ||| TOP
    else code
  code

/-- The block of `ClipLine` that computes the intersection `(x, y)` of the
segment with the boundary named by the first set bit of `outcode`, tested in
the order TOP, BOTTOM, RIGHT, LEFT. -/
def ClipLine_point (c : canvas) (outcode : Nat) (x0 y0 x1 y1 : Int) : Except Fault (Int × Int) :=
  if outcode &&& TOP ≠ 0 then
    (intersect x0 y0 x1 y1 c.m_clip_maxy).map fun x => (x, i32 c.m_clip_maxy)
  else if outcode &&& BOTTOM ≠ 0 then
    (intersect x0 y0 x1 y1 c.m_clip_miny).map fun x => (x, i32 c.m_clip_miny)
  else if outcode &&& RIGHT ≠ 0 then
    (intersect y0 x0 y1 x1 c.m_clip_maxx).map fun y => (i32 c.m_clip_maxx, y)
  else if outcode &&& LEFT ≠ 0 then
    (intersect y0 x0 y1 x1 c.m_clip_minx).map fun y => (i32 c.m_clip_minx, y)
  else .error .uninitialised

/-- The `while (true)` loop of `ClipLine`; returns `accept` and the four
coordinates. -/
def ClipLine_loop (c : canvas) :
    Nat → Int → Int → Int → Int → Nat → Nat → Except Fault (Bool × Int × Int × Int × Int)
  | 0, _, _, _, _, _, _ => .error .outOfFuel
  | fuel + 1, x0, y0, x1, y1, outcode0, outcode1 =>
    if (outcode0 ||| outcode1) = 0 then .ok (true, x0, y0, x1, y1)
    else if (outcode0 &&& outcode1) ≠ 0 then .ok (false, x0, y0, x1, y1)
    else
      let outcode := if outcode0 ≠ 0 then outcode0 else outcode1
      match c.ClipLine_point outcode x0 y0 x1 y1 with
      | .error f => .error f
      | .ok (x, y) =>
        if outcode = outcode0 then
          ClipLine_loop c fuel x y x1 y1 (c.ComputeOutCode x y) outcode1
        else
          ClipLine_loop c fuel x0 y0 x y outcode0 (c.ComputeOutCode x y)

/-- Member `ClipLine` (Cohen-Sutherland); the reference parameters are returned. -/
def ClipLine (c : canvas) (fuel : Nat) (x0 y0 x1 y1 : Int) :
    Except Fault (Bool × Int × Int × Int × Int) :=
  ClipLine_loop c fuel x0 y0 x1 y1 (c.ComputeOutCode x0 y0) (c.ComputeOutCode x1 y1)

/-- The `for (int i = 0; i < dx; ++i)` loop of `line_segment`, run for the
remaining number of iterations; the state is the canvas with `x1`, `y1`, `e`. -/
def bresenham_for (fuel : Nat) (steep : Bool) (dx dy sx sy : Int) :
    Nat → canvas → Int → Int → Int → Except Fault (canvas × Int × Int × Int)
  | 0, c, x1, y1, e => .ok (c, x1, y1, e)
  | n + 1, c, x1, y1, e =>
    match (if steep then c.plot_pen_pixel (u32 y1) (u32 x1)
           else c.plot_pen_pixel (u32 x1) (u32 y1)) with
    | .error f => .error f
    | .ok c =>
      match bresenham_while fuel dx sy y1 e with
      | .error f => .error f
      | .ok (y1, e) =>
        bresenham_for fuel steep dx dy sx sy n c (i32 (x1 + sx)) y1 (i32 (e + i32 (2 * dy)))

/-- Member `line_segment`.  `fuel` bounds the iterations of each `while` loop. -/
def line_segment (c : canvas) (fuel : Nat) (x1 y1 x2 y2 : Int) : Except Fault canvas :=
  let clipped : Except Fault (canvas × Int × Int × Int × Int) :=
    if !c.m_clipped then
      match c.ClipLine fuel x1 y1 x2 y2 with
      | .error f => .error f
      | .ok (accept, a1, b1, a2, b2) => .ok ({ c with m_clipped := accept }, a1, b1, a2, b2)
    else .ok (c, x1, y1, x2, y2)
  match clipped with
  | .error f => .error f
  | .ok (c, x1, y1, x2, y2) =>
    if !c.m_clipped then .ok c
    else
      let sx : Int := if i32 (x2 - x1) > 0 then 1 else -1
      let sy : Int := if i32 (y2 - y1) > 0 then 1 else -1
      let dx : Int := i32 |i32 (x2 - x1)|
      let dy : Int := i32 |i32 (y2 - y1)|
      let steep : Bool := decide (dy > dx)
      let (x1, y1) := if steep then (y1, x1) else (x1, y1)
      let (dx, dy) := if steep then (dy, dx) else (dx, dy)
      let (sx, sy) := if steep then (sy, sx) else (sx, sy)
      let e : Int := i32 (i32 (2 * dy) - dx)
      match bresenham_for fuel steep dx dy sx sy dx.toNat c x1 y1 e with
      | .error f => .error f
      | .ok (c, _, _, _) =>
        match c.plot_pen_pixel (u32 x2) (u32 y2) with
        | .error f => .error f
        | .ok c => .ok { c with m_clipped := false }

/-- The inner loop `for (int x = -radius; x <= radius; x++)` of `fill_circle`,
run for the remaining number of iterations starting at `x`. -/
def fill_circle_row (centerx centery : Int) (r2 : Int) (r2_delta : Frac) (y : Int) :
    Nat → Int → canvas → Except Fault canvas
  | 0, _, c => .ok c
  | n + 1, x, c =>
    let c2 : Except Fault canvas :=
      if Frac.fle (Frac.ofInt (i32 (i32 (x * x) + i32 (y * y))))
          (Frac.fadd (Frac.ofInt r2) r2_delta) then
        c.plot_pen_pixel (u32 (i32 (centerx + x))) (u32 (i32 (centery + y)))
      else .ok c
    match c2 with
    | .error f => .error f
    | .ok c => fill_circle_row centerx centery r2 r2_delta y n (i32 (x + 1)) c

/-- The outer loop `for (int y = -radius; y <= radius; y++)` of `fill_circle`. -/
def fill_circle_rows (centerx centery radius : Int) (r2 : Int) (r2_delta : Frac) :
    Nat → Int → canvas → Except Fault canvas
  | 0, _, c => .ok c
  | n + 1, y, c =>
    match fill_circle_row centerx centery r2 r2_delta y
        (radius - i32 (-radius) + 1).toNat (i32 (-radius)) c with
    | .error f => .error f
    | .ok c => fill_circle_rows centerx centery radius r2 r2_delta n (i32 (y + 1)) c

/-- Member `fill_circle`.  With `radius = INT_MAX` the loop condition
`y <= radius` never fails. -/
def fill_circle (c : canvas) (centerx centery radius : Int) : Except Fault canvas :=
  let r2 : Int := i32 (radius * radius)
  let r2_delta : Frac := Frac.fmul (Frac.ofInt radius) c08
  if radius = 2147483647 then .error .outOfFuel
  else
    fill_circle_rows centerx centery radius r2 r2_delta
      (radius - i32 (-radius) + 1).toNat (i32 (-radius)) c

/-- The inner loop `for (int x = srcx; x < srcx + width; x++)` of `blit`. -/
def blit_row (src : bitmap) (dstx dsty : Int) (y : Int) :
    Nat → Int → canvas → Except Fault canvas
  | 0, _, c => .ok c
  | n + 1, x, c =>
    match src.get_pixel (u32 x) (u32 y) with
    | .error f => .error f
    | .ok (r, g, b, a) =>
      let c := { c with m_pen_red := r, m_pen_green := g, m_pen_blue := b, m_pen_alpha := a }
      match c.plot_pixel (u32 (i32 (dstx + x))) (u32 (i32 (dsty + y))) with
      | .error f => .error f
      | .ok c => blit_row src dstx dsty y n (i32 (x + 1)) c

/-- The outer loop `for (int y = srcy; y < srcy + height; y++)` of `blit`. -/
def blit_rows (src : bitmap) (srcx dstx dsty width : Int) :
    Nat → Int → canvas → Except Fault canvas
  | 0, _, c => .ok c
  | n + 1, y, c =>
    match blit_row src dstx dsty y (i32 (srcx + width) - srcx).toNat srcx c with
    | .error f => .error f
    | .ok c => blit_rows src srcx dstx dsty width n (i32 (y + 1)) c

/-- Member `blit`. -/
def blit (c : canvas) (src : bitmap) (srcx srcy dstx dsty width height : Int) :
    Except Fault canvas :=
  let width : Int :=
    if u32 (i32 (srcx + width)) > src.width then i32 ((src.width : Int) - srcx)
    else if u32 (i32 (dstx + width)) > c.m_bitmap.width then
      i32 ((c.m_bitmap.width : Int) - dstx)
    else width
  let height : Int :=
    if u32 (i32 (srcy + height)) > src.height then i32 ((src.height : Int) - srcy)
    else if u32 (i32 (dsty + height)) > c.m_bitmap.height then
      i32 ((c.m_bitmap.height : Int) - dsty)
    else height
  let old_pen_red := c.m_pen_red
  let old_pen_green := c.m_pen_green
  let old_pen_blue := c.m_pen_blue
  let old_pen_alpha := c.m_pen_alpha
  match blit_rows src srcx dstx dsty width (i32 (srcy + height) - srcy).toNat srcy c with
  | .error f => .error f
  | .ok c =>
    .ok { c with m_pen_red := old_pen_red, m_pen_green := old_pen_green,
                 m_pen_blue := old_pen_blue, m_pen_alpha := old_pen_alpha }

/-! ### Predicates used in the statements -/

/-- The clip test of `plot_pixel` lets the point through. -/
def passes (c : canvas) (x y : Nat) : Prop :=
  c.m_clipped = true ∨
    (c.m_clip_minx ≤ x ∧ x ≤ c.m_clip_maxx ∧ c.m_clip_miny ≤ y ∧ y ≤ c.m_clip_maxy)

/-- Everything but the pixel contents and the trace agrees. -/
def same (c c2 : canvas) : Prop :=
  c2.m_bitmap.m_width = c.m_bitmap.m_width ∧ c2.m_bitmap.m_height = c.m_bitmap.m_height ∧
  c2.m_pen_width = c.m_pen_width ∧ c2.m_pen_red = c.m_pen_red ∧
  c2.m_pen_green = c.m_pen_green ∧ c2.m_pen_blue = c.m_pen_blue ∧
  c2.m_pen_alpha = c.m_pen_alpha ∧ c2.m_clip_minx = c.m_clip_minx ∧
  c2.m_clip_miny = c.m_clip_miny ∧ c2.m_clip_maxx = c.m_clip_maxx ∧
  c2.m_clip_maxy = c.m_clip_maxy ∧ c2.m_clipped = c.m_clipped

/-- Pen width, clip rectangle and clip flag agree. -/
def sameFrame (c c2 : canvas) : Prop :=
  c2.m_pen_width = c.m_pen_width ∧ c2.m_clip_minx = c.m_clip_minx ∧
  c2.m_clip_miny = c.m_clip_miny ∧ c2.m_clip_maxx = c.m_clip_maxx ∧
  c2.m_clip_maxy = c.m_clip_maxy ∧ c2.m_clipped = c.m_clipped

/-- The pixel `plot_pixel` writes over an existing pixel `s`. -/
def blend (c : canvas) (s : Nat × Nat × Nat × Nat) : Nat × Nat × Nat × Nat :=
  (((c.m_pen_red * c.m_pen_alpha + s.1 * (255 - c.m_pen_alpha)) >>> 8) % 256,
   ((c.m_pen_green * c.m_pen_alpha + s.2.1 * (255 - c.m_pen_alpha)) >>> 8) % 256,
   ((c.m_pen_blue * c.m_pen_alpha + s.2.2.1 * (255 - c.m_pen_alpha)) >>> 8) % 256,
   c.m_pen_alpha)

/-- One `plot_pixel` call per point of a list, in order. -/
def plot_points (c : canvas) : List (Nat × Nat) → Except Fault canvas
  | [] => .ok c
  | p :: ps =>
    match c.plot_pixel p.1 p.2 with
    | .error f => .error f
    | .ok c => plot_points c ps

/-- The coordinates the `for` loop of `line_segment` hands to `plot_pen_pixel`,
computed without a canvas (same arguments as `bresenham_for`). -/
def bresenham_points (fuel : Nat) (steep : Bool) (dx dy sx sy : Int) :
    Nat → Int → Int → Int → Except Fault (List (Nat × Nat))
  | 0, _, _, _ => .ok []
  | n + 1, x1, y1, e =>
    match bresenham_while fuel dx sy y1 e with
    | .error f => .error f
    | .ok (y1n, en) =>
      match bresenham_points fuel steep dx dy sx sy n (i32 (x1 + sx)) y1n
          (i32 (en + i32 (2 * dy))) with
      | .error f => .error f
      | .ok l => .ok ((if steep then (u32 y1, u32 x1) else (u32 x1, u32 y1)) :: l)

/-- The coordinates `line_segment` hands to `plot_pen_pixel` once the segment
`(x1,y1)-(x2,y2)` has passed clipping: the loop points, then the end point. -/
def segment_points (fuel : Nat) (x1 y1 x2 y2 : Int) : Except Fault (List (Nat × Nat)) :=
  let sx : Int := if i32 (x2 - x1) > 0 then 1 else -1
  let sy : Int := if i32 (y2 - y1) > 0 then 1 else -1
  let dx : Int := i32 |i32 (x2 - x1)|
  let dy : Int := i32 |i32 (y2 - y1)|
  let steep : Bool := decide (dy > dx)
  let (x1, y1) := if steep then (y1, x1) else (x1, y1)
  let (dx, dy) := if steep then (dy, dx) else (dx, dy)
  let (sx, sy) := if steep then (sy, sx) else (sx, sy)
  let e : Int := i32 (i32 (2 * dy) - dx)
  match bresenham_points fuel steep dx dy sx sy dx.toNat x1 y1 e with
  | .error f => .error f
  | .ok l => .ok (l ++ [(u32 x2, u32 y2)])

/-- The coordinates one row of `fill_circle` hands to `plot_pen_pixel`
(same arguments as `fill_circle_row`). -/
def fill_circle_row_points (centerx centery : Int) (r2 : Int) (r2_delta : Frac) (y : Int) :
    Nat → Int → List (Nat × Nat)
  | 0, _ => []
  | n + 1, x =>
    (if Frac.fle (Frac.ofInt (i32 (i32 (x * x) + i32 (y * y))))
        (Frac.fadd (Frac.ofInt r2) r2_delta) then
      [(u32 (i32 (centerx + x)), u32 (i32 (centery + y)))]
    else []) ++ fill_circle_row_points centerx centery r2 r2_delta y n (i32 (x + 1))

/-- The coordinates the rows of `fill_circle` hand to `plot_pen_pixel`
(same arguments as `fill_circle_rows`). -/
def fill_circle_rows_points (centerx centery radius : Int) (r2 : Int) (r2_delta : Frac) :
    Nat → Int → List (Nat × Nat)
  | 0, _ => []
  | n + 1, y =>
    fill_circle_row_points centerx centery r2 r2_delta y
        (radius - i32 (-radius) + 1).toNat (i32 (-radius)) ++
      fill_circle_rows_points centerx centery radius r2 r2_delta n (i32 (y + 1))

/-! ### Further members -/

/-- Member `int pen_width(void) const`: the stored width, read as `int`. -/
def pen_width_get (c : canvas) : Int := i32 (c.m_pen_width : Int)

/-- Member `rectangle`. -/
def rectangle (c : canvas) (fuel : Nat) (x1 y1 x2 y2 : Int) : Except Fault canvas := do
  let c ← c.line_segment fuel x1 y1 x2 y1
  let c ← c.line_segment fuel x2 y1 x2 y2
  let c ← c.line_segment fuel x2 y2 x1 y2
  c.line_segment fuel x1 y2 x1 y1

/-- Member `triangle`. -/
def triangle (c : canvas) (fuel : Nat) (x1 y1 x2 y2 x3 y3 : Int) : Except Fault canvas := do
  let c ← c.line_segment fuel x1 y1 x2 y2
  let c ← c.line_segment fuel x2 y2 x3 y3
  c.line_segment fuel x3 y3 x1 y1

/-- Member `quadix`. -/
def quadix (c : canvas) (fuel : Nat) (x1 y1 x2 y2 x3 y3 x4 y4 : Int) : Except Fault canvas := do
  let c ← c.line_segment fuel x1 y1 x2 y2
  let c ← c.line_segment fuel x2 y2 x3 y3
  let c ← c.line_segment fuel x3 y3 x4 y4
  c.line_segment fuel x4 y4 x1 y1

/-- The loop `for (int y = y1; y < y2; y++)` of `fill_rectangle`, run for the
remaining number of iterations starting at `y`. -/
def fill_rectangle_rows (fuel : Nat) (x1 x2 : Int) : Nat → Int → canvas → Except Fault canvas
  | 0, _, c => .ok c
  | n + 1, y, c =>
    match c.line_segment fuel x1 y x2 y with
    | .error f => .error f
    | .ok c => fill_rectangle_rows fuel x1 x2 n (i32 (y + 1)) c

/-- Member `fill_rectangle`. -/
def fill_rectangle (c : canvas) (fuel : Nat) (x1 y1 x2 y2 : Int) : Except Fault canvas :=
  fill_rectangle_rows fuel x1 x2 (y2 - y1).toNat y1 c

/-- The four `plot_pen_pixel` calls of one iteration of `circle`. -/
def circle_plot (c : canvas) (centerx centery x radius : Int) : Except Fault canvas := do
  let c ← c.plot_pen_pixel (u32 (i32 (centerx + x))) (u32 (i32 (centery + radius)))
  let c ← c.plot_pen_pixel (u32 (i32 (centerx + x))) (u32 (i32 (centery - radius)))
  let c ← c.plot_pen_pixel (u32 (i32 (centerx - x))) (u32 (i32 (centery + radius)))
  c.plot_pen_pixel (u32 (i32 (centerx - x))) (u32 (i32 (centery - radius)))

/-- The update of `(x, d, radius)` at the end of one iteration of `circle`:
`if ((d + radius) > 0) d -= ((--radius) << 1) - 1;` then
`if (x > d) d += ((++x) << 1) + 1;`, in wrapping `int` arithmetic. -/
def circle_step (x d radius : Int) : Int × Int × Int :=
  let (d, radius) :=
    if i32 (d + radius) > 0 then
      (i32 (d - i32 (i32 (2 * i32 (radius - 1)) - 1)), i32 (radius - 1))
    else (d, radius)
  let (d, x) :=
    if x > d then (i32 (d + i32 (i32 (2 * i32 (x + 1)) + 1)), i32 (x + 1))
    else (d, x)
  (x, d, radius)

/-- The loop `while (radius >= 0)` of `circle`. -/
def circle_loop (centerx centery : Int) : Nat → canvas → Int → Int → Int → Except Fault canvas
  | 0, c, _, _, radius => if radius ≥ 0 then .error .outOfFuel else .ok c
  | fuel + 1, c, x, d, radius =>
    if radius ≥ 0 then
      match c.circle_plot centerx centery x radius with
      | .error f => .error f
      | .ok c =>
        circle_loop centerx centery fuel c (circle_step x d radius).1
          (circle_step x d radius).2.1 (circle_step x d radius).2.2
    else .ok c

/-- Member `circle`.  `fuel` bounds the iterations of the `while` loop. -/
def circle (c : canvas) (fuel : Nat) (centerx centery radius : Int) : Except Fault canvas :=
  circle_loop centerx centery fuel c 0 (i32 (2 * i32 (1 - radius))) radius

/-- The canvas states that the members modelled here produce, starting from a
newly constructed canvas. -/
inductive Reachable : canvas → Prop
  | new (b : bitmap) : Reachable (canvas.new b)
  | setclip {c : canvas} (minx miny maxx maxy : Int) :
      Reachable c → Reachable (c.setclip minx miny maxx maxy)
  | pen_color {c : canvas} (r g b a : Nat) : Reachable c → Reachable (c.pen_color r g b a)
  | pen_width {c : canvas} (w : Nat) : Reachable c → Reachable (c.pen_width w)
  | plot_pixel {c c2 : canvas} (x y : Nat) :
      Reachable c → c.plot_pixel x y = .ok c2 → Reachable c2
  | plot_pen_pixel {c c2 : canvas} (x y : Nat) :
      Reachable c → c.plot_pen_pixel x y = .ok c2 → Reachable c2
  | line_segment {c c2 : canvas} (fuel : Nat) (x1 y1 x2 y2 : Int) :
      Reachable c → c.line_segment fuel x1 y1 x2 y2 = .ok c2 → Reachable c2
  | rectangle {c c2 : canvas} (fuel : Nat) (x1 y1 x2 y2 : Int) :
      Reachable c → c.rectangle fuel x1 y1 x2 y2 = .ok c2 → Reachable c2
  | triangle {c c2 : canvas} (fuel : Nat) (x1 y1 x2 y2 x3 y3 : Int) :
      Reachable c → c.triangle fuel x1 y1 x2 y2 x3 y3 = .ok c2 → Reachable c2
  | quadix {c c2 : canvas} (fuel : Nat) (x1 y1 x2 y2 x3 y3 x4 y4 : Int) :
      Reachable c → c.quadix fuel x1 y1 x2 y2 x3 y3 x4 y4 = .ok c2 → Reachable c2
  | circle {c c2 : canvas} (fuel : Nat) (centerx centery radius : Int) :
      Reachable c → c.circle fuel centerx centery radius = .ok c2 → Reachable c2
  | fill_rectangle {c c2 : canvas} (fuel : Nat) (x1 y1 x2 y2 : Int) :
      Reachable c → c.fill_rectangle fuel x1 y1 x2 y2 = .ok c2 → Reachable c2
  | fill_circle {c c2 : canvas} (centerx centery radius : Int) :
      Reachable c → c.fill_circle centerx centery radius = .ok c2 → Reachable c2
  | blit {c c2 : canvas} (src : bitmap) (srcx srcy dstx dsty width height : Int) :
      Reachable c → c.blit src srcx srcy dstx dsty width height = .ok c2 → Reachable c2

end canvas

/-! ## Helpers for evaluating the binary32 threshold of `fill_circle` -/

/-- Evaluate `n` before handing it to `f` (same value as `f n`). -/
def forceNat {α : Type} (n : Nat) (f : Nat → α) : α :=
  match n with
  | 0 => f 0
  | k + 1 => f (Nat.succ k)

/-- Evaluate `z` before handing it to `f` (same value as `f z`). -/
def forceInt {α : Type} (z : Int) (f : Int → α) : α :=
  match z with
  | Int.ofNat n => forceNat n fun k => f (Int.ofNat k)
  | Int.negSucc n => forceNat n fun k => f (Int.negSucc k)

/-- Evaluate `b` before handing it to `f` (same value as `f b`). -/
def forceBool {α : Type} (b : Bool) (f : Bool → α) : α :=
  match b with
  | true => f true
  | false => f false

/-- A candidate for `ilog2 n` found by bisection, right for `n < 2^64`. -/
def guessLog (n : Nat) : Nat :=
  forceNat (if n < 4294967296 then 0 else 32) fun s5 => forceNat (n / 2 ^ s5) fun n5 =>
  forceNat (if n5 < 65536 then 0 else 16) fun s4 => forceNat (n5 / 2 ^ s4) fun n4 =>
  forceNat (if n4 < 256 then 0 else 8) fun s3 => forceNat (n4 / 2 ^ s3) fun n3 =>
  forceNat (if n3 < 16 then 0 else 4) fun s2 => forceNat (n3 / 2 ^ s2) fun n2 =>
  forceNat (if n2 < 4 then 0 else 2) fun s1 => forceNat (n2 / 2 ^ s1) fun n1 =>
  forceNat (if n1 < 2 then 0 else 1) fun s0 => s5 + s4 + s3 + s2 + s1 + s0

/-- The value of `ilog2 n`, through `guessLog` when the candidate checks out. -/
def fastLog (n : Nat) : Nat :=
  forceNat (guessLog n) fun k => if 2 ^ k ≤ n ∧ n < 2 ^ (k + 1) then k else ilog2 n

/-- The function `roundPos`, with every intermediate value evaluated once. -/
def roundPosF (n d : Nat) : Frac :=
  forceNat (fastLog n) fun ln => forceNat (fastLog d) fun ld =>
  forceInt ((ln : Int) - (ld : Int)) fun e0 =>
  forceBool (if 0 ≤ e0 then decide (d * 2 ^ e0.toNat ≤ n) else decide (d ≤ n * 2 ^ (-e0).toNat)) fun ge =>
  forceInt ((if ge then e0 else e0 - 1) - 23) fun t =>
  forceNat (if 0 ≤ t then n else n * 2 ^ (-t).toNat) fun N =>
  forceNat (if 0 ≤ t then d * 2 ^ t.toNat else d) fun D =>
  forceNat (N / D) fun q => forceNat (N % D) fun r =>
  forceNat (if 2 * r < D then q else if D < 2 * r then q + 1 else if q % 2 = 0 then q else q + 1) fun m =>
  if 0 ≤ t then ⟨((m * 2 ^ t.toNat : Nat) : Int), 1⟩ else ⟨(m : Int), 2 ^ (-t).toNat⟩

/-- The function `f32round`, on `roundPosF`. -/
def f32roundF (num : Int) (den : Nat) : Frac :=
  if num = 0 then ⟨0, 1⟩
  else if 0 < num then roundPosF num.toNat den
  else let r := roundPosF (-num).toNat den; ⟨-r.num, r.den⟩

/-- Evaluate both parts of a fraction before handing them to `f`. -/
def forceFrac {α : Type} (a : Frac) (f : Int → Nat → α) : α :=
  match a with
  | ⟨n, d⟩ => forceInt n fun n => forceNat d fun d => f n d

/-- The threshold `r2 + r2_delta` of `fill_circle` for radius `r`. -/
def thr (r : Nat) : Frac :=
  Frac.fadd (Frac.ofInt ((r : Int) * (r : Int))) (Frac.fmul (Frac.ofInt (r : Int)) c08)

/-- For radius `r` the threshold lies in `[r*r, r*r + 4*r/5 + 1)`. -/
def thrOK (r : Nat) : Bool :=
  decide (0 < (thr r).den) && decide (((r * r : Nat) : Int) * ((thr r).den : Int) ≤ (thr r).num) &&
  decide ((thr r).num < ((r * r + 4 * r / 5 + 1 : Nat) : Int) * ((thr r).den : Int))

/-- The threshold `thr r`, computed stage by stage and handed to `f`. -/
def thrF {α : Type} (r : Nat) (f : Int → Nat → α) : α :=
  forceFrac (f32roundF (r : Int) 1) fun an ad =>
  forceFrac (f32roundF (an * 13421773) (ad * 16777216)) fun dn dd =>
  forceFrac (f32roundF ((r : Int) * (r : Int)) 1) fun sn sd =>
  forceFrac (f32roundF (sn * (dd : Int) + dn * (sd : Int)) (sd * dd)) f

/-- The check `thrOK`, on `thrF`. -/
def thrOKF (r : Nat) : Bool :=
  thrF r fun tn td =>
  decide (0 < td) && decide (((r * r : Nat) : Int) * (td : Int) ≤ tn) &&
  decide (tn < ((r * r + 4 * r / 5 + 1 : Nat) : Int) * (td : Int))

/-- The predicate `f` holds for every number below the bound. -/
def allBelow (f : Nat → Bool) : Nat → Bool
  | 0 => true
  | n + 1 => f n && allBelow f n

/-- The representation invariant can be checked. -/
instance (b : bitmap) : Decidable b.wf := by
  unfold bitmap.wf; infer_instance

/-! ## Facts about the byte store -/

theorem vector_resize_length (v : List Nat) (n : Nat) : (vector_resize v n).length = n := by
  simp only [vector_resize, List.length_append, List.length_take, List.length_replicate]
  omega

theorem store4_length (v : List Nat) (off r g b a : Nat) :
    (store4 v off r g b a).length = v.length := by
  simp [store4]

theorem store4_get (v : List Nat) (off r g b a j : Nat) (h : off + 3 < v.length) :
    (store4 v off r g b a).getD j 0 =
      if j = off then r else if j = off + 1 then g else if j = off + 2 then b
      else if j = off + 3 then a else v.getD j 0 := by
  simp only [store4, List.getD_eq_getElem?_getD, List.getElem?_set, List.length_set]
  have l0 : off < v.length := by omega
  have l1 : off + 1 < v.length := by omega
  have l2 : off + 2 < v.length := by omega
  by_cases h0 : j = off
  · subst h0; simp [l0]
  by_cases h1 : j = off + 1
  · subst h1; simp [l1]
  by_cases h2 : j = off + 2
  · subst h2; simp [l2]
  by_cases h3 : j = off + 3
  · subst h3; simp [h]
  have e0 : ¬ off = j := fun e => h0 e.symm
  have e1 : ¬ off + 1 = j := fun e => h1 e.symm
  have e2 : ¬ off + 2 = j := fun e => h2 e.symm
  have e3 : ¬ off + 3 = j := fun e => h3 e.symm
  simp [h0, h1, h2, h3, e0, e1, e2, e3]

theorem bitmap.new_wf (w h : Nat) (hw : 0 < w) (hh : 0 < h) (hsz : 4 * w * h < 4294967296) :
    (bitmap.new w h).wf ∧ (bitmap.new w h).m_width = w ∧ (bitmap.new w h).m_height = h := by
  have hw2 : w < 4294967296 := by nlinarith
  have hh2 : h < 4294967296 := by nlinarith
  have e1 : w % 4294967296 = w := Nat.mod_eq_of_lt hw2
  have e2 : h % 4294967296 = h := Nat.mod_eq_of_lt hh2
  have e3 : (w * 4) % 4294967296 = w * 4 := Nat.mod_eq_of_lt (by nlinarith)
  have e4 : h * (w * 4) < 4294967296 := by nlinarith
  simp only [bitmap.wf, bitmap.new, bitmap.create_bitmap, vector_resize_length, e1, e2, e3,
    Nat.mod_eq_of_lt e4]
  simp [e4]

theorem bitmap.pixel_offset_wf (b : bitmap) (hb : b.wf) (x y : Nat) (hx : x < b.m_width)
    (hy : y < b.m_height) :
    b.pixel_offset x y = 4 * (y * b.m_width + x) ∧
      4 * (y * b.m_width + x) + 3 < b.m_bitmap.length := by
  obtain ⟨h1, h2, h3, h4⟩ := hb
  have hyw : y * b.m_width + x < b.m_height * b.m_width := by
    have : (y + 1) * b.m_width ≤ b.m_height * b.m_width := Nat.mul_le_mul_right _ hy
    nlinarith
  have hlen : b.m_bitmap.length = 4 * (b.m_height * b.m_width) := by rw [h3]; ring
  have hlt : 4 * (b.m_height * b.m_width) < 4294967296 := by rw [← hlen, h3]; exact h4
  have hyw2 : y * b.m_width ≤ y * b.m_width + x := Nat.le_add_right _ _
  refine ⟨?_, by omega⟩
  simp only [bitmap.pixel_offset, h1, h2]
  have a1 : y * (b.m_width * 4) = 4 * (y * b.m_width) := by ring
  have a2 : x * 4 = 4 * x := by ring
  rw [a1, a2]
  omega

theorem bitmap.offset_inj (w x y x2 y2 : Nat) (hx : x < w) (hx2 : x2 < w)
    (he : y * w + x = y2 * w + x2) : x2 = x ∧ y2 = y := by
  have hy : y2 = y := by
    by_contra hc
    rcases Nat.lt_or_gt_of_ne hc with h | h
    · have : (y2 + 1) * w ≤ y * w := Nat.mul_le_mul_right _ h
      nlinarith
    · have : (y + 1) * w ≤ y2 * w := Nat.mul_le_mul_right _ h
      nlinarith
  subst hy
  exact ⟨by omega, rfl⟩

theorem bitmap.set_pixel_wf (b : bitmap) (hb : b.wf) (x y r g bl a : Nat)
    (hx : x < b.m_width) (hy : y < b.m_height) :
    ∃ b2, b.set_pixel x y r g bl a = .ok b2 ∧ b2.wf ∧ b2.m_width = b.m_width ∧
      b2.m_height = b.m_height ∧ b2.get_pixel x y = .ok (r, g, bl, a) ∧
      ∀ x2 y2, x2 < b.m_width → y2 < b.m_height → (x2, y2) ≠ (x, y) →
        b2.get_pixel x2 y2 = b.get_pixel x2 y2 := by
  obtain ⟨ho, hl⟩ := bitmap.pixel_offset_wf b hb x y hx hy
  have hset : b.set_pixel x y r g bl a = .ok { b with
      m_bitmap := (store4 b.m_bitmap (4 * (y * b.m_width + x)) r g bl a) } := by
    simp only [bitmap.set_pixel, ho, hl, if_true]
  refine ⟨_, hset, ?_, rfl, rfl, ?_, ?_⟩
  · obtain ⟨h1, h2, h3, h4⟩ := hb
    exact ⟨h1, h2, by simpa [store4_length] using h3, h4⟩
  · have ho2 : bitmap.pixel_offset { b with
        m_bitmap := (store4 b.m_bitmap (4 * (y * b.m_width + x)) r g bl a) } x y
        = 4 * (y * b.m_width + x) := ho
    simp only [bitmap.get_pixel, ho2, store4_length, hl, if_true, store4_get _ _ _ _ _ _ _ hl]
    simp
  · intro x2 y2 hx2 hy2 hne
    obtain ⟨ho3, hl3⟩ := bitmap.pixel_offset_wf b hb x2 y2 hx2 hy2
    have ho2 : bitmap.pixel_offset { b with
        m_bitmap := (store4 b.m_bitmap (4 * (y * b.m_width + x)) r g bl a) } x2 y2
        = 4 * (y2 * b.m_width + x2) := ho3
    have hd : y * b.m_width + x ≠ y2 * b.m_width + x2 := by
      intro he
      obtain ⟨h1, h2⟩ := bitmap.offset_inj b.m_width x y x2 y2 hx hx2 he
      exact hne (by rw [h1, h2])
    simp only [bitmap.get_pixel, ho2, ho3, store4_length, hl3, if_true,
      store4_get _ _ _ _ _ _ _ hl]
    have n1 : ∀ i j : Nat, i < 4 → j < 4 →
        4 * (y2 * b.m_width + x2) + j ≠ 4 * (y * b.m_width + x) + i := by
      intro i j hi hj; omega
    have := n1 0 0; have := n1 0 1; have := n1 0 2; have := n1 0 3
    have := n1 1 0; have := n1 1 1; have := n1 1 2; have := n1 1 3
    have := n1 2 0; have := n1 2 1; have := n1 2 2; have := n1 2 3
    have := n1 3 0; have := n1 3 1; have := n1 3 2; have := n1 3 3
    simp_all

theorem bitmap.get_pixel_wf (b : bitmap) (hb : b.wf) (x y : Nat) (hx : x < b.m_width)
    (hy : y < b.m_height) : ∃ s, b.get_pixel x y = .ok s := by
  obtain ⟨ho, hl⟩ := bitmap.pixel_offset_wf b hb x y hx hy
  simp only [bitmap.get_pixel, ho, hl, if_true]
  exact ⟨_, rfl⟩

theorem bitmap.clear_wf (b : bitmap) (hb : b.wf) (v : Nat) :
    (b.clear v).wf ∧ (b.clear v).m_width = b.m_width ∧ (b.clear v).m_height = b.m_height ∧
      ∀ x y, x < b.m_width → y < b.m_height →
        (b.clear v).get_pixel x y = .ok (v % 256, v % 256, v % 256, v % 256) := by
  refine ⟨?_, rfl, rfl, ?_⟩
  · obtain ⟨h1, h2, h3, h4⟩ := hb
    exact ⟨h1, h2, by simpa [bitmap.clear] using h3, h4⟩
  · intro x y hx hy
    obtain ⟨ho, hl⟩ := bitmap.pixel_offset_wf b hb x y hx hy
    have ho2 : (b.clear v).pixel_offset x y = 4 * (y * b.m_width + x) := ho
    have hl2 : (b.clear v).m_bitmap.length = b.m_bitmap.length := by simp [bitmap.clear]
    simp only [bitmap.get_pixel, ho2, hl2, hl, if_true]
    have g : ∀ j, j < b.m_bitmap.length → (b.clear v).m_bitmap.getD j 0 = v % 256 := by
      intro j hj
      simp [bitmap.clear, List.getD_eq_getElem?_getD, List.getElem?_replicate, hj]
    rw [g _ (by omega), g _ (by omega), g _ (by omega), g _ hl]

theorem canvas.plot_pixel_spec (c : canvas) (hb : c.m_bitmap.wf) (x y : Nat)
    (hx : x < c.m_bitmap.m_width) (hy : y < c.m_bitmap.m_height) (hp : c.passes x y) :
    ∃ c2 sr sg sb sa, c.plot_pixel x y = .ok c2 ∧ c2.m_bitmap.wf ∧ c.same c2 ∧
      c2.trace = c.trace ++ [(x, y)] ∧
      c.m_bitmap.get_pixel x y = .ok (sr, sg, sb, sa) ∧
      c2.m_bitmap.get_pixel x y = .ok
        (((c.m_pen_red * c.m_pen_alpha + sr * (255 - c.m_pen_alpha)) >>> 8) % 256,
         ((c.m_pen_green * c.m_pen_alpha + sg * (255 - c.m_pen_alpha)) >>> 8) % 256,
         ((c.m_pen_blue * c.m_pen_alpha + sb * (255 - c.m_pen_alpha)) >>> 8) % 256,
         c.m_pen_alpha) ∧
      ∀ x2 y2, x2 < c.m_bitmap.m_width → y2 < c.m_bitmap.m_height → (x2, y2) ≠ (x, y) →
        c2.m_bitmap.get_pixel x2 y2 = c.m_bitmap.get_pixel x2 y2 := by
  obtain ⟨⟨sr, sg, sb, sa⟩, hg⟩ := bitmap.get_pixel_wf c.m_bitmap hb x y hx hy
  obtain ⟨b2, hs, hwf2, hw2, hh2, hget, hfr⟩ := bitmap.set_pixel_wf c.m_bitmap hb x y
    (((c.m_pen_red * c.m_pen_alpha + sr * (255 - c.m_pen_alpha)) >>> 8) % 256)
    (((c.m_pen_green * c.m_pen_alpha + sg * (255 - c.m_pen_alpha)) >>> 8) % 256)
    (((c.m_pen_blue * c.m_pen_alpha + sb * (255 - c.m_pen_alpha)) >>> 8) % 256)
    c.m_pen_alpha hx hy
  have hcond : (!c.m_clipped &&
      (decide (x < c.m_clip_minx) || decide (x > c.m_clip_maxx) ||
       decide (y < c.m_clip_miny) || decide (y > c.m_clip_maxy))) = false := by
    rcases hp with h | ⟨h1, h2, h3, h4⟩
    · simp [h]
    · simp; intro _; omega
  refine ⟨{ c with m_bitmap := b2, trace := c.trace ++ [(x, y)] }, sr, sg, sb, sa, ?_, hwf2,
    ⟨hw2, hh2, rfl, rfl, rfl, rfl, rfl, rfl, rfl, rfl, rfl, rfl⟩, rfl, hg, hget, hfr⟩
  simp only [canvas.plot_pixel, hcond, hg, hs]
  simp

theorem shift8_eq (n : Nat) : n >>> 8 = n / 256 := by
  rw [Nat.shiftRight_eq_div_pow]

theorem blend_div (s : Nat) (hs : s < 256) : s * 255 / 256 = s - 1 := by
  rcases Nat.eq_zero_or_pos s with h | h
  · subst h; rfl
  · apply Nat.div_eq_of_lt_le <;> omega

theorem shift8_full (s : Nat) (hs : s < 256) : ((s * 255 + 0) >>> 8) % 256 = s - 1 := by
  rw [shift8_eq, Nat.add_zero, blend_div s hs]
  omega

/-- C1 (as stated) fails: a bitmap created with width 2^30 and height 1 has a
row increment that wraps to 0 and an empty store, so `set_pixel(0,0,..)` is an
access outside the store. -/
theorem set_get_pixel_wrapped_store :
    (0 < 1073741824 ∧ 0 < 1) ∧ (bitmap.new 1073741824 1).m_bitmap = [] ∧
    ((bitmap.new 1073741824 1).set_pixel 0 0 1 2 3 4 >>= fun b2 => b2.get_pixel 0 0)
      = Except.error Fault.outOfBounds := by decide

/-- C1 (amended): for every bitmap whose store holds all its pixels, that is
whose size `4*w*h` did not wrap when it was created (`4*w*h < 2^32`), whatever
its pixels hold, every `x < w`, `y < h` and every quadruple `(r,g,b,a)`:
`set_pixel(x,y,r,g,b,a)` returns, leaves a bitmap of the same kind, and
`get_pixel(x,y)` immediately after it returns exactly `(r,g,b,a)`. -/
theorem set_pixel_get_pixel_roundtrip (b : bitmap) (x y r g bl a : Nat) (hb : b.wf)
    (hx : x < b.width) (hy : y < b.height) :
    (b.set_pixel x y r g bl a >>= fun b2 => b2.get_pixel x y) = Except.ok (r, g, bl, a) ∧
    ∃ b2, b.set_pixel x y r g bl a = Except.ok b2 ∧ b2.wf ∧
      b2.width = b.width ∧ b2.height = b.height ∧
      b2.get_pixel x y = Except.ok (r, g, bl, a) := by
  obtain ⟨b2, h1, h2, h3, h4, h5, -⟩ := bitmap.set_pixel_wf b hb x y r g bl a hx hy
  refine ⟨?_, b2, h1, h2, h3, h4, h5⟩
  rw [h1]
  exact h5

theorem set_pixel_get_pixel_roundtrip_witness :
    (((bitmap.new 3 2).clear 200).set_pixel 2 1 10 20 30 40 >>= fun b2 => b2.get_pixel 2 1)
      = Except.ok (10, 20, 30, 40) ∧
    ∃ b2, ((bitmap.new 3 2).clear 200).set_pixel 2 1 10 20 30 40 = Except.ok b2 ∧ b2.wf ∧
      b2.width = ((bitmap.new 3 2).clear 200).width ∧
      b2.height = ((bitmap.new 3 2).clear 200).height ∧
      b2.get_pixel 2 1 = Except.ok (10, 20, 30, 40) :=
  set_pixel_get_pixel_roundtrip ((bitmap.new 3 2).clear 200) 2 1 10 20 30 40 (by decide)
    (by decide) (by decide)

/-- C2 (as stated) fails: on the bitmap of width 2^30 and height 1 the store is
empty, `clear(7)` writes nothing and `get_pixel(0,0)` reads outside the store. -/
theorem clear_get_pixel_wrapped_store :
    (0 < 1073741824 ∧ 0 < 1) ∧
    ((bitmap.new 1073741824 1).clear 7).get_pixel 0 0 = Except.error Fault.outOfBounds := by
  decide

/-- C2 (amended): for every bitmap of width `w` and height `h` whose store
holds all its pixels (its size did not wrap, `4*w*h < 2^32`), whatever its
pixels hold, every byte `v` and every `x < w`, `y < h`: after `clear(v)`,
`get_pixel(x,y)` returns `(v,v,v,v)`, and the bitmap is of the same kind. -/
theorem clear_get_pixel (b : bitmap) (x y v : Nat) (hb : b.wf) (hv : v < 256)
    (hx : x < b.width) (hy : y < b.height) :
    (b.clear v).get_pixel x y = Except.ok (v, v, v, v) ∧ (b.clear v).wf ∧
      (b.clear v).width = b.width ∧ (b.clear v).height = b.height := by
  obtain ⟨h1, h2, h3, hget⟩ := bitmap.clear_wf b hb v
  refine ⟨?_, h1, h2, h3⟩
  rw [hget x y hx hy, Nat.mod_eq_of_lt hv]

theorem clear_get_pixel_witness :
    (((bitmap.new 3 2).clear 7).clear 9).get_pixel 2 1 = Except.ok (9, 9, 9, 9) ∧
      (((bitmap.new 3 2).clear 7).clear 9).wf ∧
      (((bitmap.new 3 2).clear 7).clear 9).width = ((bitmap.new 3 2).clear 7).width ∧
      (((bitmap.new 3 2).clear 7).clear 9).height = ((bitmap.new 3 2).clear 7).height :=
  clear_get_pixel ((bitmap.new 3 2).clear 7) 2 1 9 (by decide) (by decide) (by decide)
    (by decide)

/-- C3 (as stated) fails: with the pen at (255,255,255,255) a plotted pixel
becomes (254,254,254,255), because `255 * 255 >> 8 = 254`. -/
theorem plot_pixel_opaque_white :
    (canvas.new (bitmap.new 1 1)).m_pen_alpha = 255 ∧
    (canvas.new (bitmap.new 1 1)).m_pen_red = 255 ∧
    ((canvas.new (bitmap.new 1 1)).plot_pixel 0 0 >>= fun c2 => c2.m_bitmap.get_pixel 0 0)
      = Except.ok (254, 254, 254, 255) := by decide

/-- C3 (amended): for every pen colour `(R,G,B)` with pen alpha 255 and every
existing pixel value, `plot_pixel` at a point inside the clip rectangle and the
buffer leaves that pixel equal to `((255*R) >> 8, (255*G) >> 8, (255*B) >> 8, 255)`,
that is each colour channel is the pen's reduced by one (0 stays 0). -/
theorem plot_pixel_alpha_255 (c : canvas) (x y : Nat) (hb : c.m_bitmap.wf)
    (hx : x < c.m_bitmap.m_width) (hy : y < c.m_bitmap.m_height)
    (hclip : c.m_clip_minx ≤ x ∧ x ≤ c.m_clip_maxx ∧ c.m_clip_miny ≤ y ∧ y ≤ c.m_clip_maxy)
    (ha : c.m_pen_alpha = 255) (hr : c.m_pen_red < 256) (hg : c.m_pen_green < 256)
    (hbl : c.m_pen_blue < 256) :
    (c.plot_pixel x y >>= fun c2 => c2.m_bitmap.get_pixel x y)
      = Except.ok (c.m_pen_red - 1, c.m_pen_green - 1, c.m_pen_blue - 1, 255) := by
  obtain ⟨c2, sr, sg, sb, sa, h1, -, -, -, -, h2, -⟩ :=
    canvas.plot_pixel_spec c hb x y hx hy (Or.inr hclip)
  rw [h1]
  show c2.m_bitmap.get_pixel x y = _
  rw [h2, ha]
  simp only [Nat.sub_self, Nat.mul_zero, shift8_full _ hr, shift8_full _ hg, shift8_full _ hbl]

theorem plot_pixel_alpha_255_witness :
    ((canvas.new ((bitmap.new 2 2).clear 9)).plot_pixel 1 1 >>=
        fun c2 => c2.m_bitmap.get_pixel 1 1)
      = Except.ok (255 - 1, 255 - 1, 255 - 1, 255) :=
  plot_pixel_alpha_255 (canvas.new ((bitmap.new 2 2).clear 9)) 1 1 (by decide) (by decide)
    (by decide) (by decide) (by decide) (by decide) (by decide) (by decide)

/-- C4 (as stated) fails: with pen alpha 0 over the pixel (200,200,200,200) the
colour channels do not stay 200, they become 199 (`200 * 255 >> 8`). -/
theorem plot_pixel_transparent_changes_rgb :
    ((canvas.new ((bitmap.new 1 1).clear 200)).pen_color 10 20 30 0).m_pen_alpha = 0 ∧
    ((bitmap.new 1 1).clear 200).get_pixel 0 0 = Except.ok (200, 200, 200, 200) ∧
    (((canvas.new ((bitmap.new 1 1).clear 200)).pen_color 10 20 30 0).plot_pixel 0 0 >>=
        fun c2 => c2.m_bitmap.get_pixel 0 0)
      = Except.ok (199, 199, 199, 0) := by decide

/-- C4 (amended): for every pen colour with pen alpha 0 and every existing
pixel `(r,g,b,a)`, `plot_pixel` at a point inside the clip rectangle and the
buffer sets the pixel to `((255*r) >> 8, (255*g) >> 8, (255*b) >> 8, 0)`: each
colour channel is reduced by one (0 stays 0) and alpha becomes 0. -/
theorem plot_pixel_alpha_0 (c : canvas) (x y r g b a : Nat) (hb : c.m_bitmap.wf)
    (hx : x < c.m_bitmap.m_width) (hy : y < c.m_bitmap.m_height)
    (hclip : c.m_clip_minx ≤ x ∧ x ≤ c.m_clip_maxx ∧ c.m_clip_miny ≤ y ∧ y ≤ c.m_clip_maxy)
    (ha : c.m_pen_alpha = 0) (hpix : c.m_bitmap.get_pixel x y = Except.ok (r, g, b, a))
    (hr : r < 256) (hg : g < 256) (hbl : b < 256) :
    (c.plot_pixel x y >>= fun c2 => c2.m_bitmap.get_pixel x y)
      = Except.ok (r - 1, g - 1, b - 1, 0) := by
  obtain ⟨c2, sr, sg, sb, sa, h1, -, -, -, h0, h2, -⟩ :=
    canvas.plot_pixel_spec c hb x y hx hy (Or.inr hclip)
  rw [hpix] at h0
  injection h0 with h0
  injection h0 with e1 h0
  injection h0 with e2 h0
  injection h0 with e3 e4
  subst e1 e2 e3 e4
  rw [h1]
  show c2.m_bitmap.get_pixel x y = _
  rw [h2, ha]
  have k : ∀ s, s < 256 → ((0 + s * (255 - 0)) >>> 8) % 256 = s - 1 := by
    intro s hs
    rw [shift8_eq, Nat.zero_add, Nat.sub_zero, blend_div s hs]
    omega
  simp only [Nat.mul_zero, k _ hr, k _ hg, k _ hbl]

theorem plot_pixel_alpha_0_witness :
    (((canvas.new ((bitmap.new 2 2).clear 9)).pen_color 1 2 3 0).plot_pixel 1 1 >>=
        fun c2 => c2.m_bitmap.get_pixel 1 1)
      = Except.ok (9 - 1, 9 - 1, 9 - 1, 0) :=
  plot_pixel_alpha_0 ((canvas.new ((bitmap.new 2 2).clear 9)).pen_color 1 2 3 0) 1 1 9 9 9 9
    (by decide) (by decide) (by decide) (by decide) (by decide) (by decide) (by decide)
    (by decide) (by decide)

theorem i32_eq (z : Int) (h1 : -2147483648 ≤ z) (h2 : z < 2147483648) : i32 z = z := by
  unfold i32; omega

theorem u32_eq (z : Int) (h1 : 0 ≤ z) (h2 : z < 4294967296) : u32 z = z.toNat := by
  unfold u32; rw [Int.emod_eq_of_lt h1 h2]

theorem u32_natCast (n : Nat) (h : n < 4294967296) : u32 (n : Int) = n := by
  rw [u32_eq _ (by omega) (by omega)]; simp

theorem canvas.plot_pen_pixel_one (c : canvas) (x y : Nat) (h : c.m_pen_width = 1) :
    c.plot_pen_pixel x y = c.plot_pixel x y := by
  simp only [canvas.plot_pen_pixel, h]

theorem bresenham_while_neg (fuel : Nat) (dx sy y1 e : Int) (he : e < 0) :
    bresenham_while fuel dx sy y1 e = .ok (y1, e) := by
  cases fuel with
  | zero => simp [bresenham_while]; omega
  | succ n => simp [bresenham_while]; omega

theorem bresenham_while_once (fuel : Nat) (dx sy y1 e : Int) (he : 0 ≤ e) (he2 : e < 2 * dx)
    (hdx : dx < 1073741824) (hsy : sy = 1 ∨ sy = -1)
    (hy : -1073741824 ≤ y1 ∧ y1 < 1073741824) :
    bresenham_while (fuel + 1) dx sy y1 e = .ok (y1 + sy, e - 2 * dx) := by
  have a1 : i32 (2 * dx) = 2 * dx := i32_eq _ (by omega) (by omega)
  have a2 : i32 (e - 2 * dx) = e - 2 * dx := i32_eq _ (by omega) (by omega)
  have a3 : i32 (y1 + sy) = y1 + sy := i32_eq _ (by omega) (by omega)
  simp only [bresenham_while, ge_iff_le, he, if_true, a1, a2, a3]
  exact bresenham_while_neg _ _ _ _ _ (by omega)
theorem canvas.same_refl (c : canvas) : c.same c :=
  ⟨rfl, rfl, rfl, rfl, rfl, rfl, rfl, rfl, rfl, rfl, rfl, rfl⟩

theorem canvas.same_trans {a b c : canvas} (h1 : a.same b) (h2 : b.same c) : a.same c := by
  obtain ⟨p1, p2, p3, p4, p5, p6, p7, p8, p9, p10, p11, p12⟩ := h1
  obtain ⟨q1, q2, q3, q4, q5, q6, q7, q8, q9, q10, q11, q12⟩ := h2
  exact ⟨q1.trans p1, q2.trans p2, q3.trans p3, q4.trans p4, q5.trans p5, q6.trans p6,
    q7.trans p7, q8.trans p8, q9.trans p9, q10.trans p10, q11.trans p11, q12.trans p12⟩

/-- One pen-pixel of width 1 at an in-range point, with the clip flag set. -/
theorem canvas.plot_pen_pixel_int (c : canvas) (hb : c.m_bitmap.wf) (hw1 : c.m_pen_width = 1)
    (x y : Int) (hx : 0 ≤ x ∧ x < c.m_bitmap.m_width) (hy : 0 ≤ y ∧ y < c.m_bitmap.m_height)
    (hp : c.passes x.toNat y.toNat) :
    ∃ c2, c.plot_pen_pixel (u32 x) (u32 y) = .ok c2 ∧ c2.m_bitmap.wf ∧ c.same c2 ∧
      c2.trace = c.trace ++ [(x.toNat, y.toNat)] := by
  obtain ⟨h1, h2, h3, h4⟩ := hb
  have hwpos : 0 < c.m_bitmap.m_width := by omega
  have hhpos : 0 < c.m_bitmap.m_height := by omega
  have hwb : c.m_bitmap.m_width < 4294967296 := by nlinarith
  have hhb : c.m_bitmap.m_height < 4294967296 := by nlinarith
  have ux : u32 x = x.toNat := u32_eq _ hx.1 (by omega)
  have uy : u32 y = y.toNat := u32_eq _ hy.1 (by omega)
  obtain ⟨c2, sr, sg, sb, sa, e1, e2, e3, e4, -⟩ :=
    canvas.plot_pixel_spec c ⟨h1, h2, h3, h4⟩ x.toNat y.toNat (by omega) (by omega) hp
  exact ⟨c2, by rw [canvas.plot_pen_pixel_one _ _ _ hw1, ux, uy, e1], e2, e3, e4⟩
/-- The stepper of `line_segment`, started inside the buffer with the clip flag
set and pen width 1, finishes without a fault; every pixel it touches lies
between the current point and the end point. -/
theorem canvas.bresenham_for_spec (fuel : Nat) (steep : Bool) (dx dy sx sy : Int)
    (xend yend W H : Int)
    (hdy0 : 0 ≤ dy) (hdyx : dy ≤ dx) (hdx : dx < 1073741824)
    (hsx : sx = 1 ∨ sx = -1) (hsy : sy = 1 ∨ sy = -1)
    (hW : W < 1073741824) (hH : H < 1073741824)
    (hxe : 0 ≤ xend ∧ xend < W) (hye : 0 ≤ yend ∧ yend < H) :
    ∀ (n : Nat) (c : canvas) (x y e m : Int),
      c.m_bitmap.wf → c.m_clipped = true → c.m_pen_width = 1 →
      (if steep then (W = c.m_bitmap.m_height ∧ H = c.m_bitmap.m_width)
        else (W = c.m_bitmap.m_width ∧ H = c.m_bitmap.m_height)) →
      (n : Int) ≤ dx →
      (0 ≤ x ∧ x < W) → (0 ≤ y ∧ y < H) →
      x + n * sx = xend → 0 ≤ m → y + m * sy = yend →
      (1 ≤ n → e = 2 * (dx * m) - 2 * (dy * ((n : Int) - 1)) - dx ∧
        2 * dy - 2 * dx ≤ e ∧ e < 2 * dy) →
      ∃ c2 x2 y2 e2,
        canvas.bresenham_for (fuel + 1) steep dx dy sx sy n c x y e = .ok (c2, x2, y2, e2) ∧
        c2.m_bitmap.wf ∧ c.same c2 ∧
        ∃ l, c2.trace = c.trace ++ l ∧
          (1 ≤ n → (if steep then (y.toNat, x.toNat) else (x.toNat, y.toNat)) ∈ l) := by
  intro n
  induction n with
  | zero =>
    intro c x y e m hb _ _ _ _ _ _ _ _ _ _
    exact ⟨c, x, y, e, rfl, hb, canvas.same_refl c, [], by simp, by intro h; omega⟩
  | succ n ih =>
    intro c x y e m hb hcl hw1 hWH hn hx hy hxend hm hyend hinv
    obtain ⟨he, helo, hehi⟩ := hinv (by omega)
    have hncast : ((n + 1 : Nat) : Int) = (n : Int) + 1 := by push_cast; ring
    rw [hncast] at hn hxend he
    have hn0 : (0 : Int) ≤ n := Int.ofNat_nonneg n
    -- the plot of the current point
    have hplot : ∃ c1, (if steep then c.plot_pen_pixel (u32 y) (u32 x)
          else c.plot_pen_pixel (u32 x) (u32 y)) = .ok c1 ∧ c1.m_bitmap.wf ∧ c.same c1 ∧
        c1.trace = c.trace ++ [(if steep then (y.toNat, x.toNat) else (x.toNat, y.toNat))] := by
      cases steep with
      | true =>
        simp only [if_true] at hWH ⊢
        exact canvas.plot_pen_pixel_int c hb hw1 y x (by omega) (by omega) (Or.inl hcl)
      | false =>
        simp only [Bool.false_eq_true, if_false] at hWH ⊢
        exact canvas.plot_pen_pixel_int c hb hw1 x y (by omega) (by omega) (Or.inl hcl)
    obtain ⟨c1, hp1, hb1, hs1, ht1⟩ := hplot
    have hcl1 : c1.m_clipped = true := by rw [hs1.2.2.2.2.2.2.2.2.2.2.2, hcl]
    have hw11 : c1.m_pen_width = 1 := by rw [hs1.2.2.1, hw1]
    have hWH1 : (if steep then (W = c1.m_bitmap.m_height ∧ H = c1.m_bitmap.m_width)
        else (W = c1.m_bitmap.m_width ∧ H = c1.m_bitmap.m_height)) := by
      rw [hs1.1, hs1.2.1]; exact hWH
    -- the next x
    have hx1 : i32 (x + sx) = x + sx := i32_eq _ (by omega) (by omega)
    have hxr : 0 ≤ x + sx ∧ x + sx < W := by
      rcases hsx with h | h <;> subst h <;> simp only [mul_one, mul_neg] at hxend <;> omega
    have hxend1 : (x + sx) + (n : Int) * sx = xend := by rw [← hxend]; ring
    have h2dy : i32 (2 * dy) = 2 * dy := i32_eq _ (by omega) (by omega)
    by_cases hpos : 0 ≤ e
    · -- the error term is non-negative: one step along the minor axis
      have hm1 : 1 ≤ m := by
        by_contra hc
        have hm0 : m = 0 := by omega
        subst hm0
        have : 0 ≤ dy * (n : Int) := mul_nonneg hdy0 hn0
        have e3 : (n : Int) + 1 - 1 = n := by ring
        rw [e3] at he
        simp only [mul_zero] at he
        omega
      have hwh := bresenham_while_once fuel dx sy y e hpos (by omega) hdx hsy (by omega)
      have hyr : 0 ≤ y + sy ∧ y + sy < H := by
        rcases hsy with h | h <;> subst h <;> simp only [mul_one, mul_neg] at hyend <;> omega
      have hyend1 : (y + sy) + (m - 1) * sy = yend := by rw [← hyend]; ring
      have he1 : i32 (e - 2 * dx + 2 * dy) = e - 2 * dx + 2 * dy :=
        i32_eq _ (by omega) (by omega)
      obtain ⟨c2, x2, y2, e2, hr, hb2, hs2, l, hl, -⟩ :=
        ih c1 (x + sx) (y + sy) (e - 2 * dx + 2 * dy) (m - 1) hb1 hcl1 hw11 hWH1 (by omega)
          hxr hyr hxend1 (by omega) hyend1
          (by
            intro _
            refine ⟨?_, by omega, by omega⟩
            rw [he]; ring)
      refine ⟨c2, x2, y2, e2, ?_, hb2, canvas.same_trans hs1 hs2,
        (if steep then (y.toNat, x.toNat) else (x.toNat, y.toNat)) :: l, ?_, ?_⟩
      · simp only [canvas.bresenham_for, hp1, hwh, hx1, h2dy, he1]
        exact hr
      · rw [hl, ht1]; simp
      · intro _; simp
    · -- the error term is negative: no step along the minor axis
      have hneg : e < 0 := by omega
      have hwh := bresenham_while_neg (fuel + 1) dx sy y e hneg
      have he1 : i32 (e + 2 * dy) = e + 2 * dy := i32_eq _ (by omega) (by omega)
      obtain ⟨c2, x2, y2, e2, hr, hb2, hs2, l, hl, -⟩ :=
        ih c1 (x + sx) y (e + 2 * dy) m hb1 hcl1 hw11 hWH1 (by omega)
          hxr hy hxend1 hm hyend
          (by
            intro _
            refine ⟨?_, by omega, by omega⟩
            rw [he]; ring)
      refine ⟨c2, x2, y2, e2, ?_, hb2, canvas.same_trans hs1 hs2,
        (if steep then (y.toNat, x.toNat) else (x.toNat, y.toNat)) :: l, ?_, ?_⟩
      · simp only [canvas.bresenham_for, hp1, hwh, hx1, h2dy, he1]
        exact hr
      · rw [hl, ht1]; simp
      · intro _; simp
theorem bitmap.wf_bounds (b : bitmap) (hb : b.wf) (x y : Nat) (hx : x < b.m_width)
    (hy : y < b.m_height) : b.m_width < 1073741824 ∧ b.m_height < 1073741824 := by
  obtain ⟨h1, h2, h3, h4⟩ := hb
  constructor <;> nlinarith

theorem canvas.ComputeOutCode_inside (c : canvas) (x y : Nat) (hx : x < 4294967296)
    (hy : y < 4294967296)
    (hc : c.m_clip_minx ≤ x ∧ x ≤ c.m_clip_maxx ∧ c.m_clip_miny ≤ y ∧ y ≤ c.m_clip_maxy) :
    c.ComputeOutCode (x : Int) (y : Int) = 0 := by
  have a1 : ¬ x < c.m_clip_minx := by omega
  have a2 : ¬ x > c.m_clip_maxx := by omega
  have a3 : ¬ y < c.m_clip_miny := by omega
  have a4 : ¬ y > c.m_clip_maxy := by omega
  simp only [canvas.ComputeOutCode, u32_natCast x hx, u32_natCast y hy, a1, a2, a3, a4,
    if_false, INSIDE]

theorem canvas.ClipLine_accept (c : canvas) (fuel : Nat) (x1 y1 x2 y2 : Int)
    (h1 : c.ComputeOutCode x1 y1 = 0) (h2 : c.ComputeOutCode x2 y2 = 0) :
    c.ClipLine (fuel + 1) x1 y1 x2 y2 = .ok (true, x1, y1, x2, y2) := by
  simp [canvas.ClipLine, canvas.ClipLine_loop, h1, h2]

theorem abs_step (a b : Int) : a + |b - a| * (if b - a > 0 then 1 else -1) = b := by
  rcases abs_cases (b - a) with ⟨h, h2⟩ | ⟨h, h2⟩
  · rw [h]
    split_ifs with h3
    · ring
    · have : b - a = 0 := by omega
      rw [this]; omega
  · rw [h]
    have h3 : ¬ (b - a > 0) := by omega
    rw [if_neg h3]; ring

theorem canvas.ComputeOutCode_lt (c : canvas) (x y : Int) : c.ComputeOutCode x y < 16 := by
  unfold canvas.ComputeOutCode INSIDE LEFT RIGHT BOTTOM TOP
  split_ifs <;> decide

theorem outcode_or_ne_zero (a b : Nat) (ha : a < 16) (hb : b < 16) (h : a &&& b ≠ 0) :
    a ||| b ≠ 0 := by
  revert h
  interval_cases a <;> interval_cases b <;> decide

/-- A segment whose two endpoints have out-codes, as `ComputeOutCode` returns
them, with a common bit is dropped by `line_segment`: the call (started with the clip flag false, as it is
at every top-level call) returns the canvas, buffer included, exactly as it
was, whatever the pen width. -/
theorem line_segment_trivial_reject (c : canvas) (fuel : Nat) (x1 y1 x2 y2 : Int)
    (hflag : c.m_clipped = false)
    (hcode : c.ComputeOutCode x1 y1 &&& c.ComputeOutCode x2 y2 ≠ 0) :
    c.line_segment (fuel + 1) x1 y1 x2 y2 = Except.ok c := by
  have hor := outcode_or_ne_zero _ _ (c.ComputeOutCode_lt x1 y1) (c.ComputeOutCode_lt x2 y2) hcode
  have hclip : c.ClipLine (fuel + 1) x1 y1 x2 y2 = Except.ok (false, x1, y1, x2, y2) := by
    simp only [canvas.ClipLine, canvas.ClipLine_loop, hor, hcode, if_false, ne_eq,
      not_false_eq_true, if_true]
  simp only [canvas.line_segment, hflag, hclip]
  cases c
  simp_all

theorem line_segment_trivial_reject_witness :
    (((canvas.new (bitmap.new 10 10)).setclip 2 2 7 7).pen_width 3).line_segment (0 + 1)
      0 0 1 9 = Except.ok (((canvas.new (bitmap.new 10 10)).setclip 2 2 7 7).pen_width 3) :=
  line_segment_trivial_reject _ 0 0 0 1 9 (by decide) (by decide)

theorem bresenham_while_mono (fuel : Nat) : ∀ (dx sy y1 e : Int) (r : Int × Int),
    bresenham_while fuel dx sy y1 e = .ok r → bresenham_while (fuel + 1) dx sy y1 e = .ok r := by
  induction fuel with
  | zero =>
    intro dx sy y1 e r h
    by_cases he : e ≥ 0
    · simp [bresenham_while, he] at h
    · simp only [bresenham_while, he, if_false] at h ⊢
      exact h
  | succ n ih =>
    intro dx sy y1 e r h
    by_cases he : e ≥ 0
    · rw [bresenham_while] at h ⊢
      simp only [he, if_true] at h ⊢
      exact ih _ _ _ _ _ h
    · rw [bresenham_while] at h ⊢
      simp only [he, if_false] at h ⊢
      exact h

theorem canvas.ClipLine_loop_mono (c : canvas) (fuel : Nat) :
    ∀ (x0 y0 x1 y1 : Int) (o0 o1 : Nat) (r : Bool × Int × Int × Int × Int),
      c.ClipLine_loop fuel x0 y0 x1 y1 o0 o1 = .ok r →
      c.ClipLine_loop (fuel + 1) x0 y0 x1 y1 o0 o1 = .ok r := by
  induction fuel with
  | zero => intro x0 y0 x1 y1 o0 o1 r h; simp [canvas.ClipLine_loop] at h
  | succ n ih =>
    intro x0 y0 x1 y1 o0 o1 r h
    rw [canvas.ClipLine_loop] at h ⊢
    by_cases h1 : (o0 ||| o1) = 0
    · rw [if_pos h1] at h ⊢; exact h
    by_cases h2 : (o0 &&& o1) ≠ 0
    · rw [if_neg h1, if_pos h2] at h ⊢; exact h
    rw [if_neg h1, if_neg h2] at h ⊢
    dsimp only at h ⊢
    generalize (if o0 ≠ 0 then o0 else o1) = oc at h ⊢
    cases hpt : c.ClipLine_point oc x0 y0 x1 y1 with
    | error f => rw [hpt] at h; exact absurd h (by simp)
    | ok q =>
      obtain ⟨x, y⟩ := q
      rw [hpt] at h
      dsimp only at h ⊢
      by_cases h3 : oc = o0
      · rw [if_pos h3] at h ⊢; exact ih _ _ _ _ _ _ _ h
      · rw [if_neg h3] at h ⊢; exact ih _ _ _ _ _ _ _ h

theorem canvas.bresenham_for_mono (fuel : Nat) (steep : Bool) (dx dy sx sy : Int) (n : Nat) :
    ∀ (c : canvas) (x1 y1 e : Int) (r : canvas × Int × Int × Int),
      canvas.bresenham_for fuel steep dx dy sx sy n c x1 y1 e = .ok r →
      canvas.bresenham_for (fuel + 1) steep dx dy sx sy n c x1 y1 e = .ok r := by
  induction n with
  | zero => intro c x1 y1 e r h; exact h
  | succ n ih =>
    intro c x1 y1 e r h
    rw [canvas.bresenham_for] at h ⊢
    revert h
    split
    · intro h; exact h
    · rename_i c1 hc1
      cases hw : bresenham_while fuel dx sy y1 e with
      | error f => simp
      | ok p =>
        rw [bresenham_while_mono fuel dx sy y1 e p hw]
        intro h
        exact ih _ _ _ _ _ h

theorem canvas.line_segment_mono (c : canvas) (fuel : Nat) (x1 y1 x2 y2 : Int) (r : canvas)
    (h : c.line_segment fuel x1 y1 x2 y2 = .ok r) :
    c.line_segment (fuel + 1) x1 y1 x2 y2 = .ok r := by
  unfold canvas.line_segment at h ⊢
  cases hcl : c.m_clipped with
  | true =>
    simp only [hcl, Bool.not_true, Bool.false_eq_true, if_false] at h ⊢
    split at h
    · exact absurd h (by simp)
    · rename_i heq
      rw [canvas.bresenham_for_mono _ _ _ _ _ _ _ _ _ _ _ _ heq]
      exact h
  | false =>
    simp only [hcl, Bool.not_false, if_true] at h ⊢
    cases hk : c.ClipLine fuel x1 y1 x2 y2 with
    | error f => rw [hk] at h; exact absurd h (by simp)
    | ok q =>
      have hk2 : c.ClipLine (fuel + 1) x1 y1 x2 y2 = .ok q :=
        canvas.ClipLine_loop_mono c fuel _ _ _ _ _ _ _ hk
      obtain ⟨acc, a1, b1, a2, b2⟩ := q
      rw [hk] at h
      rw [hk2]
      cases acc with
      | false => simpa using h
      | true =>
        simp only [Bool.not_true, Bool.false_eq_true, if_false] at h ⊢
        split at h
        · exact absurd h (by simp)
        · rename_i heq
          rw [canvas.bresenham_for_mono _ _ _ _ _ _ _ _ _ _ _ _ heq]
          exact h

theorem canvas.line_segment_fuel (c : canvas) (fuel k : Nat) (x1 y1 x2 y2 : Int) (r : canvas)
    (h : c.line_segment fuel x1 y1 x2 y2 = .ok r) :
    c.line_segment (fuel + k) x1 y1 x2 y2 = .ok r := by
  induction k with
  | zero => exact h
  | succ k ih => exact canvas.line_segment_mono c (fuel + k) x1 y1 x2 y2 r ih
theorem canvas.blend_same {c c2 : canvas} (h : c.same c2) (s : Nat × Nat × Nat × Nat) :
    c2.blend s = c.blend s := by
  obtain ⟨-, -, -, h4, h5, h6, h7, -⟩ := h
  simp only [canvas.blend, h4, h5, h6, h7]

theorem canvas.plot_points_spec (pts : List (Nat × Nat)) :
    ∀ (c : canvas), c.m_bitmap.wf → c.m_clipped = true →
      (∀ p ∈ pts, p.1 < c.m_bitmap.m_width ∧ p.2 < c.m_bitmap.m_height) → pts.Nodup →
      ∃ c2, c.plot_points pts = .ok c2 ∧ c2.m_bitmap.wf ∧ c.same c2 ∧
        c2.trace = c.trace ++ pts ∧
        ∀ x y, x < c.m_bitmap.m_width → y < c.m_bitmap.m_height →
          c2.m_bitmap.get_pixel x y =
            if (x, y) ∈ pts then (c.m_bitmap.get_pixel x y).map c.blend
            else c.m_bitmap.get_pixel x y := by
  induction pts with
  | nil =>
    intro c hb _ _ _
    exact ⟨c, rfl, hb, canvas.same_refl c, by simp, by intro x y _ _; simp⟩
  | cons p ps ih =>
    intro c hb hcl hin hnd
    obtain ⟨px, py⟩ := p
    obtain ⟨hp1, hp2⟩ := hin (px, py) (List.mem_cons_self _ _)
    obtain ⟨c1, sr, sg, sb, sa, e1, hb1, hs1, ht1, hg0, hg1, hfr⟩ :=
      canvas.plot_pixel_spec c hb px py hp1 hp2 (Or.inl hcl)
    have hnd2 := List.nodup_cons.mp hnd
    obtain ⟨c2, e2, hb2, hs2, ht2, hpix⟩ := ih c1 hb1
      (by rw [hs1.2.2.2.2.2.2.2.2.2.2.2, hcl])
      (by intro q hq; rw [hs1.1, hs1.2.1]; exact hin q (List.mem_cons_of_mem _ hq)) hnd2.2
    refine ⟨c2, ?_, hb2, canvas.same_trans hs1 hs2, ?_, ?_⟩
    · simp only [canvas.plot_points, e1]; exact e2
    · rw [ht2, ht1]; simp
    · intro x y hx hy
      rw [hpix x y (by rw [hs1.1]; exact hx) (by rw [hs1.2.1]; exact hy)]
      by_cases hxy : (x, y) = (px, py)
      · have hx' : x = px := (Prod.mk.inj hxy).1
        have hy' : y = py := (Prod.mk.inj hxy).2
        subst hx' hy'
        rw [if_neg hnd2.1, if_pos (List.mem_cons_self _ _), hg1, hg0]
        rfl
      · have hmem : ((x, y) ∈ (px, py) :: ps) ↔ ((x, y) ∈ ps) := by
          simp only [List.mem_cons]
          constructor
          · rintro (h | h)
            · exact absurd h hxy
            · exact h
          · intro h; exact Or.inr h
        rw [hfr x y hx hy hxy]
        by_cases hm : (x, y) ∈ ps
        · rw [if_pos hm, if_pos (hmem.mpr hm)]
          cases c.m_bitmap.get_pixel x y with
          | error f => rfl
          | ok s => simp only [Except.map, canvas.blend_same hs1]
        · rw [if_neg hm, if_neg (fun h => hm (hmem.mp h))]
theorem bitmap.set_pixel_dims (b b2 : bitmap) (x y r g bl a : Nat)
    (h : b.set_pixel x y r g bl a = .ok b2) :
    b2.m_width = b.m_width ∧ b2.m_height = b.m_height := by
  unfold bitmap.set_pixel at h
  dsimp only at h
  split_ifs at h
  injection h with h
  rw [← h]
  exact ⟨rfl, rfl⟩

/-- Whatever the point, `plot_pixel` changes nothing but pixel contents and trace. -/
theorem canvas.plot_pixel_same (c c2 : canvas) (x y : Nat)
    (h : c.plot_pixel x y = .ok c2) : c.same c2 := by
  unfold canvas.plot_pixel at h
  split_ifs at h
  · injection h with h; rw [← h]; exact canvas.same_refl c
  · split at h
    · exact absurd h (by simp)
    · dsimp only at h
      split at h
      · exact absurd h (by simp)
      · rename_i b2 hb2
        injection h with h
        rw [← h]
        obtain ⟨d1, d2⟩ := bitmap.set_pixel_dims _ _ _ _ _ _ _ _ hb2
        exact ⟨d1, d2, rfl, rfl, rfl, rfl, rfl, rfl, rfl, rfl, rfl, rfl⟩

theorem canvas.plot_pixel_pen_width (c c2 : canvas) (x y : Nat)
    (h : c.plot_pixel x y = .ok c2) : c2.m_pen_width = c.m_pen_width :=
  (canvas.plot_pixel_same c c2 x y h).2.2.1

theorem canvas.plot_points_append (l1 : List (Nat × Nat)) :
    ∀ (c : canvas) (l2 : List (Nat × Nat)),
      c.plot_points (l1 ++ l2) =
        match c.plot_points l1 with
        | .error f => .error f
        | .ok c1 => c1.plot_points l2 := by
  induction l1 with
  | nil => intro c l2; rfl
  | cons p ps ih =>
    intro c l2
    simp only [List.cons_append, canvas.plot_points]
    cases c.plot_pixel p.1 p.2 with
    | error f => rfl
    | ok c1 => exact ih c1 l2

theorem canvas.plot_points_pen_width (l : List (Nat × Nat)) :
    ∀ (c c2 : canvas), c.plot_points l = .ok c2 → c2.m_pen_width = c.m_pen_width := by
  induction l with
  | nil => intro c c2 h; injection h with h; rw [h]
  | cons p ps ih =>
    intro c c2 h
    simp only [canvas.plot_points] at h
    cases h1 : c.plot_pixel p.1 p.2 with
    | error f => rw [h1] at h; exact absurd h (by simp)
    | ok c1 =>
      rw [h1] at h
      rw [ih c1 c2 h, canvas.plot_pixel_pen_width c c1 _ _ h1]

/-- With pen width 1 the stepper of `line_segment` is one `plot_pixel` per
point of `bresenham_points`. -/
theorem canvas.bresenham_for_points (fuel : Nat) (steep : Bool) (dx dy sx sy : Int) (n : Nat) :
    ∀ (c : canvas) (x1 y1 e : Int) (pts : List (Nat × Nat)), c.m_pen_width = 1 →
      canvas.bresenham_points fuel steep dx dy sx sy n x1 y1 e = .ok pts →
      (canvas.bresenham_for fuel steep dx dy sx sy n c x1 y1 e).map Prod.fst
        = c.plot_points pts := by
  induction n with
  | zero =>
    intro c x1 y1 e pts _ h
    simp only [canvas.bresenham_points] at h
    injection h with h
    subst h
    rfl
  | succ n ih =>
    intro c x1 y1 e pts hw h
    simp only [canvas.bresenham_points] at h
    cases hwh : bresenham_while fuel dx sy y1 e with
    | error f => rw [hwh] at h; exact absurd h (by simp)
    | ok q =>
      obtain ⟨y1n, en⟩ := q
      rw [hwh] at h
      dsimp only at h
      cases hrec : canvas.bresenham_points fuel steep dx dy sx sy n (i32 (x1 + sx)) y1n
          (i32 (en + i32 (2 * dy))) with
      | error f => rw [hrec] at h; exact absurd h (by simp)
      | ok l =>
        rw [hrec] at h
        injection h with h
        subst h
        simp only [canvas.bresenham_for, canvas.plot_points]
        have hpp : (if steep then c.plot_pen_pixel (u32 y1) (u32 x1)
            else c.plot_pen_pixel (u32 x1) (u32 y1)) =
            c.plot_pixel (if steep then (u32 y1, u32 x1) else (u32 x1, u32 y1)).1
              (if steep then (u32 y1, u32 x1) else (u32 x1, u32 y1)).2 := by
          cases steep <;> simp [canvas.plot_pen_pixel_one _ _ _ hw]
        rw [hpp]
        cases hpl : c.plot_pixel (if steep then (u32 y1, u32 x1) else (u32 x1, u32 y1)).1
            (if steep then (u32 y1, u32 x1) else (u32 x1, u32 y1)).2 with
        | error f => rfl
        | ok c1 =>
          simp only [hwh]
          exact ih c1 _ _ _ l (by rw [canvas.plot_pixel_pen_width c c1 _ _ hpl, hw]) hrec

/-- With the clip flag false and pen width 1, an accepted segment is drawn as
one `plot_pixel` per point of `segment_points`, with the flag set meanwhile. -/
theorem canvas.line_segment_accept (c : canvas) (fuel : Nat) (x1 y1 x2 y2 a1 b1 a2 b2 : Int)
    (pts : List (Nat × Nat)) (hflag : c.m_clipped = false) (hw1 : c.m_pen_width = 1)
    (hclip : c.ClipLine fuel x1 y1 x2 y2 = .ok (true, a1, b1, a2, b2))
    (hseg : canvas.segment_points fuel a1 b1 a2 b2 = .ok pts) :
    c.line_segment fuel x1 y1 x2 y2 =
      (canvas.plot_points { c with m_clipped := true } pts).map
        fun c => { c with m_clipped := false } := by
  unfold canvas.segment_points at hseg
  unfold canvas.line_segment
  simp only [hflag, hclip, Bool.not_false, if_true, Bool.not_true, Bool.false_eq_true,
    if_false] at hseg ⊢
  split at hseg
  · exact absurd hseg (by simp)
  · rename_i l hl
    injection hseg with hseg
    subst hseg
    have hw1c : ({ c with m_clipped := true } : canvas).m_pen_width = 1 := hw1
    have key := canvas.bresenham_for_points _ _ _ _ _ _ _ { c with m_clipped := true } _ _ _ l
      hw1c hl
    rw [canvas.plot_points_append]
    rw [← key]
    split
    · rename_i f hf
      rw [hf]; rfl
    · rename_i c3 x3 y3 e3 hf
      rw [hf]
      simp only [Except.map, canvas.plot_points]
      have hw3 : c3.m_pen_width = 1 := by
        have h0 : c3.plot_points [] = .ok c3 := rfl
        have : (canvas.plot_points { c with m_clipped := true } l) = .ok c3 := by
          rw [← key, hf]; rfl
        rw [canvas.plot_points_pen_width l _ _ this]; exact hw1
      rw [canvas.plot_pen_pixel_one _ _ _ hw3]
      cases c3.plot_pixel (u32 a2) (u32 b2) with
      | error f => rfl
      | ok c4 => rfl

theorem canvas.ComputeOutCode_congr (c d : canvas) (h1 : d.m_clip_minx = c.m_clip_minx)
    (h2 : d.m_clip_miny = c.m_clip_miny) (h3 : d.m_clip_maxx = c.m_clip_maxx)
    (h4 : d.m_clip_maxy = c.m_clip_maxy) (x y : Int) :
    d.ComputeOutCode x y = c.ComputeOutCode x y := by
  simp only [canvas.ComputeOutCode, h1, h2, h3, h4]

theorem canvas.ClipLine_point_congr (c d : canvas) (h1 : d.m_clip_minx = c.m_clip_minx)
    (h2 : d.m_clip_miny = c.m_clip_miny) (h3 : d.m_clip_maxx = c.m_clip_maxx)
    (h4 : d.m_clip_maxy = c.m_clip_maxy) (o : Nat) (x0 y0 x1 y1 : Int) :
    d.ClipLine_point o x0 y0 x1 y1 = c.ClipLine_point o x0 y0 x1 y1 := by
  simp only [canvas.ClipLine_point, h1, h2, h3, h4]

/-- `ClipLine` reads nothing of the canvas but the clip rectangle. -/
theorem canvas.ClipLine_congr (c d : canvas) (h1 : d.m_clip_minx = c.m_clip_minx)
    (h2 : d.m_clip_miny = c.m_clip_miny) (h3 : d.m_clip_maxx = c.m_clip_maxx)
    (h4 : d.m_clip_maxy = c.m_clip_maxy) (fuel : Nat) (x0 y0 x1 y1 : Int) :
    d.ClipLine fuel x0 y0 x1 y1 = c.ClipLine fuel x0 y0 x1 y1 := by
  have loop : ∀ (fuel : Nat) (x0 y0 x1 y1 : Int) (o0 o1 : Nat),
      d.ClipLine_loop fuel x0 y0 x1 y1 o0 o1 = c.ClipLine_loop fuel x0 y0 x1 y1 o0 o1 := by
    intro fuel
    induction fuel with
    | zero => intro x0 y0 x1 y1 o0 o1; rfl
    | succ n ih =>
      intro x0 y0 x1 y1 o0 o1
      simp only [canvas.ClipLine_loop, canvas.ClipLine_point_congr c d h1 h2 h3 h4,
        canvas.ComputeOutCode_congr c d h1 h2 h3 h4, ih]
  simp only [canvas.ClipLine, loop, canvas.ComputeOutCode_congr c d h1 h2 h3 h4]

/-- The canvas of the two concrete scenarios: a 10x10 bitmap cleared to 0. -/
theorem scene_bitmap :
    ((bitmap.new 10 10).clear 0).wf ∧ ((bitmap.new 10 10).clear 0).m_width = 10 ∧
    ((bitmap.new 10 10).clear 0).m_height = 10 ∧
    ∀ x y, x < 10 → y < 10 → ((bitmap.new 10 10).clear 0).get_pixel x y = .ok (0, 0, 0, 0) := by
  obtain ⟨hwf, hw, hh⟩ := bitmap.new_wf 10 10 (by decide) (by decide) (by decide)
  obtain ⟨h1, h2, h3, h4⟩ := bitmap.clear_wf (bitmap.new 10 10) hwf 0
  refine ⟨h1, by rw [h2, hw], by rw [h3, hh], ?_⟩
  intro x y hx hy
  exact h4 x y (by rw [hw]; exact hx) (by rw [hh]; exact hy)

/-- The horizontal line of the first scenario, pixel by pixel. -/
theorem scene_horizontal (fuel : Nat) :
    ∃ c2, ((canvas.new ((bitmap.new 10 10).clear 0)).pen_color 255 0 0 255).line_segment
        (fuel + 1) 0 0 9 0 = .ok c2 ∧
      ∀ x y, x < 10 → y < 10 →
        c2.m_bitmap.get_pixel x y = .ok (if y = 0 then (254, 0, 0, 255) else (0, 0, 0, 0)) := by
  obtain ⟨hwf, hw, hh, hpix⟩ := scene_bitmap
  have hclip : ((canvas.new ((bitmap.new 10 10).clear 0)).pen_color 255 0 0 255).ClipLine 1
      0 0 9 0 = .ok (true, 0, 0, 9, 0) := by
    rw [canvas.ClipLine_congr (canvas.new (bitmap.new 10 10))
      ((canvas.new ((bitmap.new 10 10).clear 0)).pen_color 255 0 0 255) rfl rfl rfl rfl]
    decide
  have hseg : canvas.segment_points 1 0 0 9 0 = .ok
      [(0, 0), (1, 0), (2, 0), (3, 0), (4, 0), (5, 0), (6, 0), (7, 0), (8, 0), (9, 0)] := by
    decide
  have hline := canvas.line_segment_accept
    ((canvas.new ((bitmap.new 10 10).clear 0)).pen_color 255 0 0 255) 1 0 0 9 0 0 0 9 0 _
    rfl rfl hclip hseg
  obtain ⟨c3, e3, hb3, hs3, ht3, hp3⟩ := canvas.plot_points_spec
    [(0, 0), (1, 0), (2, 0), (3, 0), (4, 0), (5, 0), (6, 0), (7, 0), (8, 0), (9, 0)]
    { (canvas.new ((bitmap.new 10 10).clear 0)).pen_color 255 0 0 255 with m_clipped := true }
    hwf rfl
    (by
      intro p hp
      show p.1 < ((bitmap.new 10 10).clear 0).m_width ∧ p.2 < ((bitmap.new 10 10).clear 0).m_height
      rw [hw, hh]
      simp only [List.mem_cons, List.mem_singleton, List.not_mem_nil, or_false] at hp
      rcases hp with h | h | h | h | h | h | h | h | h | h <;> subst h <;> decide)
    (by decide)
  refine ⟨{ c3 with m_clipped := false }, ?_, ?_⟩
  · have := canvas.line_segment_fuel _ 1 fuel 0 0 9 0 { c3 with m_clipped := false }
      (by rw [hline, e3]; rfl)
    rw [Nat.add_comm]; exact this
  · intro x y hx hy
    show c3.m_bitmap.get_pixel x y = _
    have hx' : x < ((bitmap.new 10 10).clear 0).m_width := by rw [hw]; exact hx
    have hy' : y < ((bitmap.new 10 10).clear 0).m_height := by rw [hh]; exact hy
    rw [hp3 x y hx' hy']
    show (if _ then Except.map _ (((bitmap.new 10 10).clear 0).get_pixel x y)
      else ((bitmap.new 10 10).clear 0).get_pixel x y) = _
    rw [hpix x y hx hy]
    by_cases h0 : y = 0
    · subst h0
      have hm : (x, 0) ∈ [(0, 0), (1, 0), (2, 0), (3, 0), (4, 0), (5, 0), (6, 0), (7, 0),
          (8, 0), (9, 0)] := by
        interval_cases x <;> decide
      rw [if_pos hm]
      rfl
    · have hm : ¬ (x, y) ∈ [(0, 0), (1, 0), (2, 0), (3, 0), (4, 0), (5, 0), (6, 0), (7, 0),
          (8, 0), (9, 0)] := by
        simp only [List.mem_cons, List.mem_singleton, Prod.mk.injEq, List.not_mem_nil, or_false]
        omega
      rw [if_neg hm, if_neg h0]
theorem blend_zero (p a : Nat) (hp : p < 256) (ha : a < 256) :
    ((p * a + 0 * (255 - a)) >>> 8) % 256 = (p * a) >>> 8 := by
  rw [Nat.zero_mul, Nat.add_zero, shift8_eq]
  apply Nat.mod_eq_of_lt
  have : p * a < 256 * 256 := Nat.mul_lt_mul'' hp ha
  omega

/-- The clipped diagonal of the second scenario, pixel by pixel, for any pen. -/
theorem scene_diagonal (r g b a fuel : Nat) (hr : r < 256) (hg : g < 256) (hb : b < 256)
    (ha : a < 256) :
    ∃ c2, (((canvas.new ((bitmap.new 10 10).clear 0)).pen_color r g b a).setclip 2 2 7 7).line_segment
        (fuel + 3) 0 0 9 9 = .ok c2 ∧
      ∀ x y, x < 10 → y < 10 →
        c2.m_bitmap.get_pixel x y = .ok
          (if x = y ∧ 2 ≤ x ∧ x ≤ 7 then ((r * a) >>> 8, (g * a) >>> 8, (b * a) >>> 8, a)
           else (0, 0, 0, 0)) := by
  obtain ⟨hwf, hw, hh, hpix⟩ := scene_bitmap
  have hclip : (((canvas.new ((bitmap.new 10 10).clear 0)).pen_color r g b a).setclip
      2 2 7 7).ClipLine 3 0 0 9 9 = .ok (true, 2, 2, 7, 7) := by
    rw [canvas.ClipLine_congr ((canvas.new (bitmap.new 10 10)).setclip 2 2 7 7)
      (((canvas.new ((bitmap.new 10 10).clear 0)).pen_color r g b a).setclip 2 2 7 7)
      (by simp only [canvas.setclip]) (by simp only [canvas.setclip])
      (by simp only [canvas.setclip]) (by simp only [canvas.setclip])]
    decide
  have hseg : canvas.segment_points 3 2 2 7 7 = .ok
      [(2, 2), (3, 3), (4, 4), (5, 5), (6, 6), (7, 7)] := by
    decide
  have hline := canvas.line_segment_accept
    (((canvas.new ((bitmap.new 10 10).clear 0)).pen_color r g b a).setclip 2 2 7 7)
    3 0 0 9 9 2 2 7 7 _ rfl rfl hclip hseg
  obtain ⟨c3, e3, hb3, hs3, ht3, hp3⟩ := canvas.plot_points_spec
    [(2, 2), (3, 3), (4, 4), (5, 5), (6, 6), (7, 7)]
    { ((canvas.new ((bitmap.new 10 10).clear 0)).pen_color r g b a).setclip 2 2 7 7 with
      m_clipped := true }
    hwf rfl
    (by
      intro p hp
      show p.1 < ((bitmap.new 10 10).clear 0).m_width ∧ p.2 < ((bitmap.new 10 10).clear 0).m_height
      rw [hw, hh]
      simp only [List.mem_cons, List.mem_singleton, List.not_mem_nil, or_false] at hp
      rcases hp with h | h | h | h | h | h <;> subst h <;> decide)
    (by decide)
  refine ⟨{ c3 with m_clipped := false }, ?_, ?_⟩
  · have := canvas.line_segment_fuel _ 3 fuel 0 0 9 9 { c3 with m_clipped := false }
      (by rw [hline, e3]; rfl)
    rw [Nat.add_comm]; exact this
  · intro x y hx hy
    show c3.m_bitmap.get_pixel x y = _
    have hx' : x < ((bitmap.new 10 10).clear 0).m_width := by rw [hw]; exact hx
    have hy' : y < ((bitmap.new 10 10).clear 0).m_height := by rw [hh]; exact hy
    rw [hp3 x y hx' hy']
    show (if _ then Except.map _ (((bitmap.new 10 10).clear 0).get_pixel x y)
      else ((bitmap.new 10 10).clear 0).get_pixel x y) = _
    rw [hpix x y hx hy]
    have hmem : ((x, y) ∈ [(2, 2), (3, 3), (4, 4), (5, 5), (6, 6), (7, 7)]) ↔
        (x = y ∧ 2 ≤ x ∧ x ≤ 7) := by
      simp only [List.mem_cons, List.mem_singleton, Prod.mk.injEq, List.not_mem_nil, or_false]
      omega
    by_cases hd : x = y ∧ 2 ≤ x ∧ x ≤ 7
    · rw [if_pos (hmem.mpr hd), if_pos hd]
      simp only [Except.map, canvas.blend, canvas.setclip, canvas.pen_color,
        Nat.mod_eq_of_lt hr, Nat.mod_eq_of_lt hg, Nat.mod_eq_of_lt hb, Nat.mod_eq_of_lt ha,
        blend_zero r a hr ha, blend_zero g a hg ha, blend_zero b a hb ha]
    · rw [if_neg (fun h => hd (hmem.mp h)), if_neg hd]

/-- C7 (as stated) fails: after the line from (0,0) to (9,0) with pen
(255,0,0,255) the pixel (0,0) is (254,0,0,255), not (255,0,0,255). -/
theorem horizontal_line_first_pixel :
    (((canvas.new ((bitmap.new 10 10).clear 0)).pen_color 255 0 0 255).line_segment 1 0 0 9 0 >>=
        fun c2 => c2.m_bitmap.get_pixel 0 0) = Except.ok (254, 0, 0, 255) := by
  obtain ⟨c2, h1, h2⟩ := scene_horizontal 0
  rw [h1]
  exact h2 0 0 (by decide) (by decide)

/-- C7 (amended): on a 10x10 bitmap cleared to (0,0,0,0), with a canvas at
default clip, pen width 1 and pen colour (255,0,0,255), `line_segment(0,0,9,0)`
returns and leaves every pixel `(x,0)`, `x` in 0..9, equal to (254,0,0,255) and
every pixel in rows 1..9 equal to (0,0,0,0). -/
theorem horizontal_line_scenario (fuel : Nat) :
    ∃ c2, ((canvas.new ((bitmap.new 10 10).clear 0)).pen_color 255 0 0 255).line_segment
        (fuel + 1) 0 0 9 0 = Except.ok c2 ∧
      ∀ x y : Fin 10, c2.m_bitmap.get_pixel x y =
        Except.ok (if y.val = 0 then (254, 0, 0, 255) else (0, 0, 0, 0)) := by
  obtain ⟨c2, h1, h2⟩ := scene_horizontal fuel
  exact ⟨c2, h1, fun x y => h2 x y x.isLt y.isLt⟩

/-- C8 (as stated) fails: with the pen of the scenario, (255,0,0,255), the
clipped diagonal sets pixel (2,2) to (254,0,0,255), which is not the pen colour. -/
theorem clipped_diagonal_pixel_254 :
    ((((canvas.new ((bitmap.new 10 10).clear 0)).pen_color 255 0 0 255).setclip 2 2 7 7).line_segment
        3 0 0 9 9 >>= fun c2 => c2.m_bitmap.get_pixel 2 2) = Except.ok (254, 0, 0, 255) := by
  obtain ⟨c2, h1, h2⟩ := scene_diagonal 255 0 0 255 0 (by decide) (by decide) (by decide)
    (by decide)
  rw [h1]
  exact h2 2 2 (by decide) (by decide)

/-- C8 (amended): on a 10x10 bitmap cleared to 0, after `setclip(2,2,7,7)`,
`line_segment(0,0,9,9)` with pen width 1 and any pen colour `(r,g,b,a)` returns
and changes exactly the diagonal pixels (2,2)..(7,7), each to the blend
`((r*a) >> 8, (g*a) >> 8, (b*a) >> 8, a)` of the pen over 0; every other pixel,
in particular (0,0) and (9,9), keeps its prior value (0,0,0,0). -/
theorem clipped_diagonal_scenario (r g b a fuel : Nat) (hr : r < 256) (hg : g < 256)
    (hb : b < 256) (ha : a < 256) :
    ∃ c2, (((canvas.new ((bitmap.new 10 10).clear 0)).pen_color r g b a).setclip 2 2 7 7).line_segment
        (fuel + 3) 0 0 9 9 = Except.ok c2 ∧
      ∀ x y : Fin 10, c2.m_bitmap.get_pixel x y = Except.ok
        (if x.val = y.val ∧ 2 ≤ x.val ∧ x.val ≤ 7 then
          ((r * a) >>> 8, (g * a) >>> 8, (b * a) >>> 8, a)
         else (0, 0, 0, 0)) := by
  obtain ⟨c2, h1, h2⟩ := scene_diagonal r g b a fuel hr hg hb ha
  exact ⟨c2, h1, fun x y => h2 x y x.isLt y.isLt⟩

theorem clipped_diagonal_scenario_witness :
    ∃ c2, (((canvas.new ((bitmap.new 10 10).clear 0)).pen_color 255 0 0 255).setclip 2 2 7 7).line_segment
        (0 + 3) 0 0 9 9 = Except.ok c2 ∧
      ∀ x y : Fin 10, c2.m_bitmap.get_pixel x y = Except.ok
        (if x.val = y.val ∧ 2 ≤ x.val ∧ x.val ≤ 7 then
          ((255 * 255) >>> 8, (0 * 255) >>> 8, (0 * 255) >>> 8, 255)
         else (0, 0, 0, 0)) :=
  clipped_diagonal_scenario 255 0 0 255 0 (by decide) (by decide) (by decide) (by decide)

/-- Writing the pen colour fields leaves `sameFrame`. -/
theorem canvas.sameFrame_pen (c : canvas) (r g b a : Nat) :
    c.sameFrame { c with m_pen_red := r, m_pen_green := g, m_pen_blue := b, m_pen_alpha := a } :=
  ⟨rfl, rfl, rfl, rfl, rfl, rfl⟩

theorem canvas.sameFrame_trans {a b c : canvas} (h1 : a.sameFrame b) (h2 : b.sameFrame c) :
    a.sameFrame c := by
  obtain ⟨p1, p2, p3, p4, p5, p6⟩ := h1
  obtain ⟨q1, q2, q3, q4, q5, q6⟩ := h2
  exact ⟨q1.trans p1, q2.trans p2, q3.trans p3, q4.trans p4, q5.trans p5, q6.trans p6⟩

theorem canvas.sameFrame_of_same {a b : canvas} (h : a.same b) : a.sameFrame b := by
  obtain ⟨-, -, p3, -, -, -, -, p8, p9, p10, p11, p12⟩ := h
  exact ⟨p3, p8, p9, p10, p11, p12⟩

theorem canvas.blit_row_frame (src : bitmap) (dstx dsty y : Int) (n : Nat) :
    ∀ (x : Int) (c c2 : canvas), canvas.blit_row src dstx dsty y n x c = .ok c2 →
      c.sameFrame c2 := by
  induction n with
  | zero =>
    intro x c c2 h
    simp only [canvas.blit_row] at h
    injection h with h
    rw [← h]
    exact ⟨rfl, rfl, rfl, rfl, rfl, rfl⟩
  | succ n ih =>
    intro x c c2 h
    simp only [canvas.blit_row] at h
    split at h
    · exact absurd h (by simp)
    · rename_i r g b a hsrc
      split at h
      · exact absurd h (by simp)
      · rename_i c1 hplot
        exact canvas.sameFrame_trans
          (canvas.sameFrame_trans (canvas.sameFrame_pen c r g b a)
            (canvas.sameFrame_of_same (canvas.plot_pixel_same _ _ _ _ hplot)))
          (ih _ _ _ h)

theorem canvas.blit_rows_frame (src : bitmap) (srcx dstx dsty width : Int) (n : Nat) :
    ∀ (y : Int) (c c2 : canvas), canvas.blit_rows src srcx dstx dsty width n y c = .ok c2 →
      c.sameFrame c2 := by
  induction n with
  | zero =>
    intro y c c2 h
    simp only [canvas.blit_rows] at h
    injection h with h
    rw [← h]
    exact ⟨rfl, rfl, rfl, rfl, rfl, rfl⟩
  | succ n ih =>
    intro y c c2 h
    simp only [canvas.blit_rows] at h
    split at h
    · exact absurd h (by simp)
    · rename_i c1 hrow
      exact canvas.sameFrame_trans (canvas.blit_row_frame _ _ _ _ _ _ _ _ hrow) (ih _ _ _ h)

/-- C10: whenever `blit` returns, for any source bitmap and any arguments, the
pen colour (red, green, blue, alpha), the pen width and the clip rectangle of
the canvas are what they were before the call. -/
theorem blit_preserves_pen (c : canvas) (src : bitmap)
    (srcx srcy dstx dsty width height : Int) (c2 : canvas)
    (h : c.blit src srcx srcy dstx dsty width height = Except.ok c2) :
    c2.m_pen_red = c.m_pen_red ∧ c2.m_pen_green = c.m_pen_green ∧
    c2.m_pen_blue = c.m_pen_blue ∧ c2.m_pen_alpha = c.m_pen_alpha ∧
    c2.m_pen_width = c.m_pen_width ∧
    c2.m_clip_minx = c.m_clip_minx ∧ c2.m_clip_miny = c.m_clip_miny ∧
    c2.m_clip_maxx = c.m_clip_maxx ∧ c2.m_clip_maxy = c.m_clip_maxy := by
  unfold canvas.blit at h
  dsimp only at h
  split at h
  · exact absurd h (by simp)
  · rename_i c1 hrows
    obtain ⟨p1, p2, p3, p4, p5, p6⟩ := canvas.blit_rows_frame _ _ _ _ _ _ _ _ _ hrows
    injection h with h
    rw [← h]
    exact ⟨rfl, rfl, rfl, rfl, p1, p2, p3, p4, p5⟩

theorem blit_preserves_pen_witness :
    ∃ c2, (canvas.new (bitmap.new 1 1)).blit ((bitmap.new 1 1).clear 200) 0 0 0 0 1 1
        = Except.ok c2 ∧
      c2.m_bitmap.get_pixel 0 0 = Except.ok (156, 156, 156, 200) ∧
      c2.m_pen_red = 255 ∧ c2.m_pen_green = 255 ∧ c2.m_pen_blue = 255 ∧ c2.m_pen_alpha = 255 ∧
      c2.m_pen_width = 1 ∧ c2.m_clip_minx = 0 ∧ c2.m_clip_miny = 0 ∧
      c2.m_clip_maxx = 1 ∧ c2.m_clip_maxy = 1 :=
  match h : (canvas.new (bitmap.new 1 1)).blit ((bitmap.new 1 1).clear 200) 0 0 0 0 1 1 with
  | .ok c2 =>
    ⟨c2, rfl,
      (by
        have h2 : ((canvas.new (bitmap.new 1 1)).blit ((bitmap.new 1 1).clear 200) 0 0 0 0 1 1 >>=
            fun c => c.m_bitmap.get_pixel 0 0) = Except.ok (156, 156, 156, 200) := by decide
        rw [h] at h2
        exact h2),
      blit_preserves_pen (canvas.new (bitmap.new 1 1)) ((bitmap.new 1 1).clear 200)
        0 0 0 0 1 1 c2 h⟩
  | .error f =>
    absurd h (by
      have h2 : ((canvas.new (bitmap.new 1 1)).blit ((bitmap.new 1 1).clear 200)
          0 0 0 0 1 1).toBool = true := by decide
      intro h3
      rw [h3] at h2
      exact absurd h2 (by simp [Except.toBool]))

theorem forceNat_eq {α : Type} (n : Nat) (f : Nat → α) : forceNat n f = f n := by
  cases n <;> rfl

theorem forceInt_eq {α : Type} (z : Int) (f : Int → α) : forceInt z f = f z := by
  cases z <;> simp only [forceInt, forceNat_eq]

theorem forceBool_eq {α : Type} (b : Bool) (f : Bool → α) : forceBool b f = f b := by
  cases b <;> rfl

theorem forceFrac_eq {α : Type} (a : Frac) (f : Int → Nat → α) :
    forceFrac a f = f a.num a.den := by
  cases a; simp only [forceFrac, forceInt_eq, forceNat_eq]

theorem ilog2Aux_spec (fuel : Nat) : ∀ n, 1 ≤ n → n ≤ fuel →
    2 ^ ilog2Aux fuel n ≤ n ∧ n < 2 ^ (ilog2Aux fuel n + 1) := by
  induction fuel with
  | zero => intro n h1 h2; omega
  | succ f ih =>
    intro n h1 h2
    by_cases h : n < 2
    · have : n = 1 := by omega
      subst this
      simp [ilog2Aux]
    · simp only [ilog2Aux, h, if_false]
      obtain ⟨a, b⟩ := ih (n / 2) (by omega) (by omega)
      rw [pow_succ, pow_succ]
      rw [pow_succ] at b
      constructor <;> omega

theorem ilog2_spec (n : Nat) (h : 1 ≤ n) : 2 ^ ilog2 n ≤ n ∧ n < 2 ^ (ilog2 n + 1) :=
  ilog2Aux_spec n n h (Nat.le_refl n)

theorem log2_unique (n a b : Nat) (ha : 2 ^ a ≤ n ∧ n < 2 ^ (a + 1))
    (hb : 2 ^ b ≤ n ∧ n < 2 ^ (b + 1)) : a = b := by
  by_contra hne
  rcases Nat.lt_or_gt_of_ne hne with h | h
  · have : 2 ^ (a + 1) ≤ 2 ^ b := Nat.pow_le_pow_right (by decide) h
    omega
  · have : 2 ^ (b + 1) ≤ 2 ^ a := Nat.pow_le_pow_right (by decide) h
    omega

theorem fastLog_eq (n : Nat) : fastLog n = ilog2 n := by
  simp only [fastLog, forceNat_eq]
  split_ifs with h
  · have hn : 1 ≤ n := le_trans (Nat.one_le_two_pow) h.1
    exact log2_unique n _ _ h (ilog2_spec n hn)
  · rfl

theorem roundPosF_eq (n d : Nat) : roundPosF n d = roundPos n d := by
  simp only [roundPosF, roundPos, forceNat_eq, forceInt_eq, forceBool_eq, fastLog_eq]

theorem f32roundF_eq (num : Int) (den : Nat) : f32roundF num den = f32round ⟨num, den⟩ := by
  simp only [f32roundF, f32round, roundPosF_eq]

theorem thrF_eq {α : Type} (r : Nat) (f : Int → Nat → α) :
    thrF r f = f (thr r).num (thr r).den := by
  simp only [thrF, forceFrac_eq, f32roundF_eq, thr, Frac.fadd, Frac.fmul, Frac.ofInt, c08]

theorem thrOKF_eq (r : Nat) : thrOKF r = thrOK r := by
  simp only [thrOKF, thrF_eq, thrOK]

theorem allBelow_spec (f : Nat → Bool) (n : Nat) (h : allBelow f n = true) :
    ∀ r, r < n → f r = true := by
  induction n with
  | zero => intro r hr; omega
  | succ k ih =>
    intro r hr
    simp only [allBelow, Bool.and_eq_true] at h
    rcases Nat.lt_succ_iff_lt_or_eq.mp hr with h1 | h1
    · exact ih h.2 r h1
    · rw [h1]; exact h.1

set_option maxRecDepth 100000 in
theorem thrOKF_below : allBelow thrOKF 2051 = true := by decide!

/-- For every radius up to 2050 the binary32 threshold of `fill_circle` lies
in `[r*r, r*r + 4*r/5 + 1)`. -/
theorem thr_bounds (r : Nat) (hr : r ≤ 2050) :
    0 < (thr r).den ∧ ((r * r : Nat) : Int) * ((thr r).den : Int) ≤ (thr r).num ∧
    (thr r).num < ((r * r + 4 * r / 5 + 1 : Nat) : Int) * ((thr r).den : Int) := by
  have h := allBelow_spec thrOKF 2051 thrOKF_below r (by omega)
  rw [thrOKF_eq] at h
  simp only [thrOK, Bool.and_eq_true, decide_eq_true_eq] at h
  exact ⟨h.1.1, h.1.2, h.2⟩

theorem ilog2_one : ilog2 1 = 0 := by decide

theorem roundPos_small (n : Nat) (h1 : 1 ≤ n) (h2 : n < 16777216) :
    (roundPos n 1).num = (n : Int) * ((roundPos n 1).den : Int) ∧ 0 < (roundPos n 1).den := by
  obtain ⟨ha, hb⟩ := ilog2_spec n h1
  have hL : ilog2 n ≤ 23 := by
    by_contra hc
    have : 2 ^ 24 ≤ 2 ^ ilog2 n := Nat.pow_le_pow_right (by decide) (by omega)
    omega
  unfold roundPos
  rw [ilog2_one]
  generalize ilog2 n = L at *
  simp only [Nat.cast_zero, sub_zero, Int.natCast_nonneg, if_true, Int.toNat_ofNat, Nat.one_mul,
    ha, decide_True]
  by_cases h23 : L = 23
  · subst h23
    simp [Nat.mod_one]
  · have hneg : ¬ (0 ≤ (L : Int) - 23) := by omega
    simp only [hneg, if_false]
    have hD : ∀ N : Nat, N % 1 = 0 := fun N => Nat.mod_one N
    simp only [Nat.mod_one, Nat.div_one, Nat.mul_zero, Nat.lt_one_iff, if_true, Nat.zero_lt_one]
    exact ⟨by push_cast; ring, by positivity⟩

/-- Conversion of an integer below 2^24 to `float` is exact. -/
theorem Frac.ofInt_exact (n : Nat) (h : n < 16777216) :
    (Frac.ofInt (n : Int)).num = (n : Int) * ((Frac.ofInt (n : Int)).den : Int) ∧
      0 < (Frac.ofInt (n : Int)).den := by
  rcases Nat.eq_zero_or_pos n with h0 | h0
  · subst h0
    simp [Frac.ofInt, f32round]
  · have hpos : (0 : Int) < (n : Int) := by exact_mod_cast h0
    have hne : ¬ ((n : Int) = 0) := by omega
    simp only [Frac.ofInt, f32round, hne, if_false, hpos, if_true, Int.toNat_ofNat]
    exact roundPos_small n h0 h

/-- Comparing an exactly converted integer with a `float`. -/
theorem Frac.fle_ofInt (n : Nat) (h : n < 16777216) (t : Frac) :
    Frac.fle (Frac.ofInt (n : Int)) t = decide ((n : Int) * (t.den : Int) ≤ t.num) := by
  obtain ⟨h1, h2⟩ := Frac.ofInt_exact n h
  have hd : (0 : Int) < ((Frac.ofInt (n : Int)).den : Int) := by exact_mod_cast h2
  simp only [Frac.fle, h1]
  congr 1
  apply propext
  constructor
  · intro hle
    have : (n : Int) * (t.den : Int) * ((Frac.ofInt (n : Int)).den : Int)
        ≤ t.num * ((Frac.ofInt (n : Int)).den : Int) := by nlinarith
    exact le_of_mul_le_mul_right this hd
  · intro hle
    have := mul_le_mul_of_nonneg_right hle (le_of_lt hd)
    nlinarith

theorem canvas.passes_same {c c2 : canvas} (h : c.same c2) (x y : Nat) (hp : c.passes x y) :
    c2.passes x y := by
  obtain ⟨-, -, -, -, -, -, -, p8, p9, p10, p11, p12⟩ := h
  unfold canvas.passes at hp ⊢
  rw [p8, p9, p10, p11, p12]
  exact hp

/-- A list of in-range points that pass the clip test is plotted without fault. -/
theorem canvas.plot_points_ok (pts : List (Nat × Nat)) :
    ∀ (c : canvas), c.m_bitmap.wf →
      (∀ p ∈ pts, p.1 < c.m_bitmap.m_width ∧ p.2 < c.m_bitmap.m_height ∧ c.passes p.1 p.2) →
      ∃ c2, c.plot_points pts = .ok c2 ∧ c2.m_bitmap.wf ∧ c.same c2 ∧
        c2.trace = c.trace ++ pts := by
  induction pts with
  | nil =>
    intro c hb _
    exact ⟨c, rfl, hb, canvas.same_refl c, by simp⟩
  | cons p ps ih =>
    intro c hb hin
    obtain ⟨px, py⟩ := p
    obtain ⟨hp1, hp2, hp3⟩ := hin (px, py) (List.mem_cons_self _ _)
    obtain ⟨c1, sr, sg, sb, sa, e1, hb1, hs1, ht1, -⟩ :=
      canvas.plot_pixel_spec c hb px py hp1 hp2 hp3
    obtain ⟨c2, e2, hb2, hs2, ht2⟩ := ih c1 hb1
      (by
        intro q hq
        obtain ⟨q1, q2, q3⟩ := hin q (List.mem_cons_of_mem _ hq)
        rw [hs1.1, hs1.2.1]
        exact ⟨q1, q2, canvas.passes_same hs1 _ _ q3⟩)
    refine ⟨c2, ?_, hb2, canvas.same_trans hs1 hs2, ?_⟩
    · simp only [canvas.plot_points, e1]; exact e2
    · rw [ht2, ht1]; simp

theorem canvas.fill_circle_row_eq (centerx centery r2 : Int) (r2_delta : Frac) (y : Int)
    (n : Nat) : ∀ (x : Int) (c : canvas), c.m_pen_width = 1 →
      canvas.fill_circle_row centerx centery r2 r2_delta y n x c =
        c.plot_points (canvas.fill_circle_row_points centerx centery r2 r2_delta y n x) := by
  induction n with
  | zero => intro x c _; rfl
  | succ n ih =>
    intro x c hw
    simp only [canvas.fill_circle_row, canvas.fill_circle_row_points]
    split_ifs with ht
    · rw [canvas.plot_pen_pixel_one _ _ _ hw]
      simp only [List.singleton_append, canvas.plot_points]
      cases hpl : c.plot_pixel (u32 (i32 (centerx + x))) (u32 (i32 (centery + y))) with
      | error f => rfl
      | ok c1 => exact ih _ c1 (by rw [canvas.plot_pixel_pen_width c c1 _ _ hpl, hw])
    · simp only [List.nil_append]
      exact ih _ c hw

theorem canvas.fill_circle_rows_eq (centerx centery radius r2 : Int) (r2_delta : Frac)
    (n : Nat) : ∀ (y : Int) (c : canvas), c.m_pen_width = 1 →
      canvas.fill_circle_rows centerx centery radius r2 r2_delta n y c =
        c.plot_points (canvas.fill_circle_rows_points centerx centery radius r2 r2_delta n y) := by
  induction n with
  | zero => intro y c _; rfl
  | succ n ih =>
    intro y c hw
    simp only [canvas.fill_circle_rows, canvas.fill_circle_rows_points]
    rw [canvas.plot_points_append, canvas.fill_circle_row_eq _ _ _ _ _ _ _ _ hw]
    cases hrow : c.plot_points (canvas.fill_circle_row_points centerx centery r2 r2_delta y
        (radius - i32 (-radius) + 1).toNat (i32 (-radius))) with
    | error f => rfl
    | ok c1 => exact ih _ c1 (by rw [canvas.plot_points_pen_width _ _ _ hrow, hw])

theorem canvas.fill_circle_row_mem (centerx centery r2 : Int) (r2_delta : Frac) (y : Int)
    (p : Nat × Nat) (n : Nat) : ∀ (x : Int), -2147483648 ≤ x → x + n < 2147483648 →
      (p ∈ canvas.fill_circle_row_points centerx centery r2 r2_delta y n x ↔
        ∃ k : Nat, k < n ∧
          Frac.fle (Frac.ofInt (i32 (i32 ((x + k) * (x + k)) + i32 (y * y))))
            (Frac.fadd (Frac.ofInt r2) r2_delta) = true ∧
          p = (u32 (i32 (centerx + (x + k))), u32 (i32 (centery + y)))) := by
  induction n with
  | zero =>
    intro x _ _
    simp [canvas.fill_circle_row_points]
  | succ n ih =>
    intro x h1 h2
    have hx1 : i32 (x + 1) = x + 1 := i32_eq _ (by omega) (by push_cast at h2; omega)
    simp only [canvas.fill_circle_row_points, List.mem_append, hx1]
    rw [ih (x + 1) (by omega) (by push_cast at h2 ⊢; omega)]
    constructor
    · rintro (h | ⟨k, hk, ht, hp⟩)
      · split_ifs at h with ht
        · refine ⟨0, by omega, ?_, ?_⟩
          · simpa using ht
          · simpa using h
        · simp at h
      · refine ⟨k + 1, by omega, ?_, ?_⟩
        · have e : x + ((k + 1 : Nat) : Int) = x + 1 + (k : Int) := by push_cast; ring
          rw [e]; exact ht
        · have e : x + ((k + 1 : Nat) : Int) = x + 1 + (k : Int) := by push_cast; ring
          rw [e]; exact hp
    · rintro ⟨k, hk, ht, hp⟩
      cases k with
      | zero =>
        left
        simp only [Nat.cast_zero, add_zero] at ht hp
        rw [if_pos ht]
        simp [hp]
      | succ k =>
        right
        have e : x + ((k + 1 : Nat) : Int) = x + 1 + (k : Int) := by push_cast; ring
        rw [e] at ht hp
        exact ⟨k, by omega, ht, hp⟩

theorem canvas.fill_circle_rows_mem (centerx centery radius r2 : Int) (r2_delta : Frac)
    (p : Nat × Nat) (n : Nat) : ∀ (y : Int), -2147483648 ≤ y → y + n < 2147483648 →
      (p ∈ canvas.fill_circle_rows_points centerx centery radius r2 r2_delta n y ↔
        ∃ j : Nat, j < n ∧
          p ∈ canvas.fill_circle_row_points centerx centery r2 r2_delta (y + j)
            (radius - i32 (-radius) + 1).toNat (i32 (-radius))) := by
  induction n with
  | zero =>
    intro y _ _
    simp [canvas.fill_circle_rows_points]
  | succ n ih =>
    intro y h1 h2
    have hy1 : i32 (y + 1) = y + 1 := i32_eq _ (by omega) (by push_cast at h2; omega)
    simp only [canvas.fill_circle_rows_points, List.mem_append, hy1]
    rw [ih (y + 1) (by omega) (by push_cast at h2 ⊢; omega)]
    constructor
    · rintro (h | ⟨j, hj, hp⟩)
      · exact ⟨0, by omega, by simpa using h⟩
      · refine ⟨j + 1, by omega, ?_⟩
        have e : y + ((j + 1 : Nat) : Int) = y + 1 + (j : Int) := by push_cast; ring
        rw [e]; exact hp
    · rintro ⟨j, hj, hp⟩
      cases j with
      | zero =>
        left
        simpa using hp
      | succ j =>
        right
        have e : y + ((j + 1 : Nat) : Int) = y + 1 + (j : Int) := by push_cast; ring
        rw [e] at hp
        exact ⟨j, by omega, hp⟩
theorem radius_bound (W H r : Nat) (hW : 2 * r < W) (hH : 2 * r < H)
    (h : H * (W * 4) < 4294967296) : r < 16384 := by
  by_contra hc
  have h1 : 32769 ≤ W := by omega
  have h2 : 32769 ≤ H := by omega
  have : 32769 * 32769 ≤ H * W := Nat.mul_le_mul h2 h1
  nlinarith

theorem coord_conv (cx r : Nat) (d : Int) (h1 : -(r : Int) ≤ d) (h2 : d ≤ r) (h3 : r ≤ cx)
    (h4 : cx + r < 1073741824) : u32 (i32 ((cx : Int) + d)) = ((cx : Int) + d).toNat := by
  have e : i32 ((cx : Int) + d) = (cx : Int) + d := i32_eq _ (by omega) (by omega)
  rw [e]
  exact u32_eq _ (by omega) (by omega)

theorem sq_sum_conv (r : Nat) (dx dy : Int) (hr : r < 16384) (hx1 : -(r : Int) ≤ dx)
    (hx2 : dx ≤ r) (hy1 : -(r : Int) ≤ dy) (hy2 : dy ≤ r) :
    i32 (i32 (dx * dx) + i32 (dy * dy)) = dx * dx + dy * dy := by
  have hrr : (r : Int) * r < 268435456 := by
    have : r * r < 16384 * 16384 := Nat.mul_lt_mul'' hr hr
    exact_mod_cast this
  have sx : dx * dx ≤ (r : Int) * r := by nlinarith
  have sy : dy * dy ≤ (r : Int) * r := by nlinarith
  have sx0 : 0 ≤ dx * dx := mul_self_nonneg _
  have sy0 : 0 ≤ dy * dy := mul_self_nonneg _
  generalize dx * dx = a at *
  generalize dy * dy = b at *
  generalize (r : Int) * r = q at *
  have e1 : i32 a = a := i32_eq _ (by omega) (by omega)
  have e2 : i32 b = b := i32_eq _ (by omega) (by omega)
  rw [e1, e2]
  exact i32_eq _ (by omega) (by omega)

/-- C11: `blit` does not keep the copied rectangle inside the destination.
With a 2x1 source cleared to 255 and a 1x2 destination at default clip,
`blit(src, 0, 0, 0, 0, 3, 1)` clamps the width to the source (2) and skips the
destination clamp, so it writes the destination pixel (1,0) although the
destination is 1 pixel wide; the bytes written are those of pixel (0,1), in a
row the call should not touch. -/
theorem blit_writes_beyond_destination_width :
    (bitmap.new 1 2).width = 1 ∧
    (bitmap.new 1 2).get_pixel 0 1 = Except.ok (0, 0, 0, 0) ∧
    ((canvas.new (bitmap.new 1 2)).blit ((bitmap.new 2 1).clear 255) 0 0 0 0 3 1 >>=
        fun c2 => pure (c2.trace, c2.m_bitmap.get_pixel 0 1)) =
      Except.ok ([(0, 0), (1, 0)], Except.ok (254, 254, 254, 255)) := by decide

/-- C12: `blit` adds the source offset to the destination coordinate.  With a
2x1 source cleared to 255 and a 3x1 destination, `blit(src, 1, 0, 0, 0, 1, 1)`
should composite source pixel (1,0) onto destination pixel (0,0); the code
plots at `dstx + x` with `x` running from `srcx`, so it writes destination
pixel (1,0) and leaves (0,0) as it was. -/
theorem blit_shifts_destination_by_source_offset :
    ((canvas.new (bitmap.new 3 1)).blit ((bitmap.new 2 1).clear 255) 1 0 0 0 1 1 >>=
        fun c2 => pure c2.trace) = Except.ok [(1, 0)] ∧
    ((canvas.new (bitmap.new 3 1)).blit ((bitmap.new 2 1).clear 255) 1 0 0 0 1 1 >>=
        fun c2 => c2.m_bitmap.get_pixel 0 0) = Except.ok (0, 0, 0, 0) ∧
    ((canvas.new (bitmap.new 3 1)).blit ((bitmap.new 2 1).clear 255) 1 0 0 0 1 1 >>=
        fun c2 => c2.m_bitmap.get_pixel 1 0) = Except.ok (254, 254, 254, 255) := by decide

/-- C13: the default clip rectangle reaches one pixel too far.  On a 2x2 bitmap
the constructor sets the clip maximum to (2,2), so `plot_pixel(2,0)` passes the
clip test and accesses x = 2 = width: it overwrites the bytes of pixel (0,1);
`plot_pixel(0,2)` passes too and accesses the store beyond its end. -/
theorem default_clip_admits_x_equal_width :
    (bitmap.new 2 2).width = 2 ∧ (bitmap.new 2 2).height = 2 ∧
    (canvas.new (bitmap.new 2 2)).m_clip_maxx = 2 ∧
    (bitmap.new 2 2).get_pixel 0 1 = Except.ok (0, 0, 0, 0) ∧
    ((canvas.new (bitmap.new 2 2)).plot_pixel 2 0 >>=
        fun c2 => pure (c2.trace, c2.m_bitmap.get_pixel 0 1)) =
      Except.ok ([(2, 0)], Except.ok (254, 254, 254, 255)) ∧
    ((canvas.new (bitmap.new 2 2)).plot_pixel 0 2 >>= fun c2 => pure c2.trace) =
      Except.error Fault.outOfBounds := by decide

/-- C15: `pen_width(w)` stores `w` exactly when `1 ≤ w ≤ 3` and otherwise
leaves the canvas as it was, so the width read back is the one before the call;
a new canvas has pen width 1, and after any sequence of `pen_width` calls on a
new canvas the stored width is 1, 2 or 3. -/
theorem pen_width_range (c : canvas) (b : bitmap) (w : Nat) (ws : List Nat) :
    (c.pen_width w = if 1 ≤ w ∧ w ≤ 3 then { c with m_pen_width := w } else c) ∧
    ((c.pen_width w).pen_width_get =
      if 1 ≤ w ∧ w ≤ 3 then (w : Int) else c.pen_width_get) ∧
    (canvas.new b).m_pen_width = 1 ∧ (canvas.new b).pen_width_get = 1 ∧
    ((ws.foldl canvas.pen_width (canvas.new b)).m_pen_width = 1 ∨
     (ws.foldl canvas.pen_width (canvas.new b)).m_pen_width = 2 ∨
     (ws.foldl canvas.pen_width (canvas.new b)).m_pen_width = 3) := by
  have key : ∀ (l : List Nat) (d : canvas),
      (d.m_pen_width = 1 ∨ d.m_pen_width = 2 ∨ d.m_pen_width = 3) →
      ((l.foldl canvas.pen_width d).m_pen_width = 1 ∨
       (l.foldl canvas.pen_width d).m_pen_width = 2 ∨
       (l.foldl canvas.pen_width d).m_pen_width = 3) := by
    intro l
    induction l with
    | nil => intro d h; exact h
    | cons a t ih =>
      intro d h
      apply ih
      unfold canvas.pen_width
      split_ifs with h1
      · show a = 1 ∨ a = 2 ∨ a = 3
        omega
      · exact h
  refine ⟨?_, ?_, rfl, i32_eq (1 : Int) (by omega) (by omega), key ws _ (Or.inl rfl)⟩
  · unfold canvas.pen_width
    by_cases h : 1 ≤ w ∧ w ≤ 3
    · rw [if_pos h, if_pos (by omega)]
    · rw [if_neg h, if_neg (by omega)]
  · unfold canvas.pen_width
    by_cases h : 1 ≤ w ∧ w ≤ 3
    · rw [if_pos h, if_pos (by omega)]
      show i32 (w : Int) = w
      exact i32_eq _ (by omega) (by omega)
    · rw [if_neg h, if_neg (by omega)]

/-- C16: `ComputeOutCode` compares the `int` coordinate with the `unsigned`
clip members.  With the clip rectangle (2,2,7,7) the point (-1,3) lies left of
the rectangle (-1 < 2), yet its out-code is RIGHT and the LEFT bit is clear. -/
theorem ComputeOutCode_negative_x :
    ((-1 : Int) < 2) ∧
    ((canvas.new (bitmap.new 10 10)).setclip 2 2 7 7).m_clip_minx = 2 ∧
    ((canvas.new (bitmap.new 10 10)).setclip 2 2 7 7).ComputeOutCode (-1) 3 = RIGHT ∧
    ((canvas.new (bitmap.new 10 10)).setclip 2 2 7 7).ComputeOutCode (-1) 3 &&& LEFT = 0 := by
  decide

/-- Whatever the flag at entry, it is false when `line_segment` returns. -/
theorem canvas.line_segment_flag (c c2 : canvas) (fuel : Nat) (x1 y1 x2 y2 : Int)
    (h : c.line_segment fuel x1 y1 x2 y2 = .ok c2) : c2.m_clipped = false := by
  unfold canvas.line_segment at h
  dsimp only at h
  split at h
  · exact absurd h (by simp)
  · rename_i c1 a1 b1 a2 b2 hcl
    split at h
    · rename_i hflag
      injection h with h
      rw [← h]
      simpa using hflag
    · split at h
      · exact absurd h (by simp)
      · split at h
        · exact absurd h (by simp)
        · injection h with h
          rw [← h]

/-- Whatever the pen width, `plot_pen_pixel` changes nothing but pixel contents
and trace. -/
theorem canvas.plot_pen_pixel_same (c c2 : canvas) (x y : Nat)
    (h : c.plot_pen_pixel x y = .ok c2) : c.same c2 := by
  have step : ∀ (a : canvas) (r : Except Fault canvas) (k : canvas → Except Fault canvas)
      (b : canvas), c.same a → (∀ a2 b2, c.same a2 → k a2 = .ok b2 → c.same b2) →
      ∀ px py, (a.plot_pixel px py >>= k) = .ok b → c.same b := by
    intro a _ k b hs hk px py hb
    cases h1 : a.plot_pixel px py with
    | error f => rw [h1] at hb; exact absurd hb (by simp [bind, Except.bind])
    | ok a2 =>
      rw [h1] at hb
      exact hk a2 b (canvas.same_trans hs (canvas.plot_pixel_same _ _ _ _ h1)) hb
  have last : ∀ px py (a2 b2 : canvas), c.same a2 → a2.plot_pixel px py = .ok b2 → c.same b2 :=
    fun px py a2 b2 hs hb => canvas.same_trans hs (canvas.plot_pixel_same _ _ _ _ hb)
  unfold canvas.plot_pen_pixel at h
  dsimp only at h
  split at h
  · exact canvas.plot_pixel_same _ _ _ _ h
  · refine step c (.ok c) _ c2 (canvas.same_refl c) ?_ _ _ h
    intro a2 b2 hs hb
    refine step a2 (.ok c) _ b2 hs ?_ _ _ hb
    intro a3 b3 hs3 hb3
    refine step a3 (.ok c) _ b3 hs3 ?_ _ _ hb3
    exact last _ _
  · refine step c (.ok c) _ c2 (canvas.same_refl c) ?_ _ _ h
    intro a2 b2 hs hb
    refine step a2 (.ok c) _ b2 hs ?_ _ _ hb
    intro a3 b3 hs3 hb3
    refine step a3 (.ok c) _ b3 hs3 ?_ _ _ hb3
    intro a4 b4 hs4 hb4
    refine step a4 (.ok c) _ b4 hs4 ?_ _ _ hb4
    intro a5 b5 hs5 hb5
    refine step a5 (.ok c) _ b5 hs5 ?_ _ _ hb5
    intro a6 b6 hs6 hb6
    refine step a6 (.ok c) _ b6 hs6 ?_ _ _ hb6
    intro a7 b7 hs7 hb7
    refine step a7 (.ok c) _ b7 hs7 ?_ _ _ hb7
    intro a8 b8 hs8 hb8
    refine step a8 (.ok c) _ b8 hs8 ?_ _ _ hb8
    exact last _ _
  · exact canvas.plot_pixel_same _ _ _ _ h

theorem canvas.circle_plot_same (c c2 : canvas) (cx cy x r : Int)
    (h : c.circle_plot cx cy x r = .ok c2) : c.same c2 := by
  unfold canvas.circle_plot at h
  cases h1 : c.plot_pen_pixel (u32 (i32 (cx + x))) (u32 (i32 (cy + r))) with
  | error f => rw [h1] at h; exact absurd h (by simp [bind, Except.bind])
  | ok a1 =>
    rw [h1] at h
    cases h2 : a1.plot_pen_pixel (u32 (i32 (cx + x))) (u32 (i32 (cy - r))) with
    | error f => simp only [bind, Except.bind, h2] at h; exact absurd h (by simp)
    | ok a2 =>
      cases h3 : a2.plot_pen_pixel (u32 (i32 (cx - x))) (u32 (i32 (cy + r))) with
      | error f => simp only [bind, Except.bind, h2, h3] at h; exact absurd h (by simp)
      | ok a3 =>
        simp only [bind, Except.bind, h2, h3] at h
        exact canvas.same_trans (canvas.plot_pen_pixel_same _ _ _ _ h1)
          (canvas.same_trans (canvas.plot_pen_pixel_same _ _ _ _ h2)
            (canvas.same_trans (canvas.plot_pen_pixel_same _ _ _ _ h3)
              (canvas.plot_pen_pixel_same _ _ _ _ h)))

theorem canvas.circle_loop_same (cx cy : Int) (fuel : Nat) :
    ∀ (c c2 : canvas) (x d r : Int), canvas.circle_loop cx cy fuel c x d r = .ok c2 →
      c.same c2 := by
  induction fuel with
  | zero =>
    intro c c2 x d r h
    unfold canvas.circle_loop at h
    split_ifs at h
    injection h with h
    rw [← h]; exact canvas.same_refl c
  | succ n ih =>
    intro c c2 x d r h
    unfold canvas.circle_loop at h
    split_ifs at h
    · split at h
      · exact absurd h (by simp)
      · rename_i c1 h1
        exact canvas.same_trans (canvas.circle_plot_same _ _ _ _ _ _ h1) (ih _ _ _ _ _ h)
    · injection h with h
      rw [← h]; exact canvas.same_refl c

theorem canvas.fill_circle_row_same (cx cy r2 : Int) (dl : Frac) (y : Int) (n : Nat) :
    ∀ (x : Int) (c c2 : canvas), canvas.fill_circle_row cx cy r2 dl y n x c = .ok c2 →
      c.same c2 := by
  induction n with
  | zero =>
    intro x c c2 h
    unfold canvas.fill_circle_row at h
    injection h with h
    rw [← h]; exact canvas.same_refl c
  | succ n ih =>
    intro x c c2 h
    unfold canvas.fill_circle_row at h
    dsimp only at h
    split at h
    · exact absurd h (by simp)
    · rename_i c1 h1
      refine canvas.same_trans ?_ (ih _ _ _ h)
      split_ifs at h1
      · exact canvas.plot_pen_pixel_same _ _ _ _ h1
      · injection h1 with h1
        rw [← h1]; exact canvas.same_refl c

theorem canvas.fill_circle_rows_same (cx cy radius r2 : Int) (dl : Frac) (n : Nat) :
    ∀ (y : Int) (c c2 : canvas), canvas.fill_circle_rows cx cy radius r2 dl n y c = .ok c2 →
      c.same c2 := by
  induction n with
  | zero =>
    intro y c c2 h
    unfold canvas.fill_circle_rows at h
    injection h with h
    rw [← h]; exact canvas.same_refl c
  | succ n ih =>
    intro y c c2 h
    unfold canvas.fill_circle_rows at h
    split at h
    · exact absurd h (by simp)
    · rename_i c1 h1
      exact canvas.same_trans (canvas.fill_circle_row_same _ _ _ _ _ _ _ _ _ h1) (ih _ _ _ h)

theorem canvas.fill_rectangle_rows_flag (fuel : Nat) (x1 x2 : Int) (n : Nat) :
    ∀ (y : Int) (c c2 : canvas), c.m_clipped = false →
      canvas.fill_rectangle_rows fuel x1 x2 n y c = .ok c2 → c2.m_clipped = false := by
  induction n with
  | zero =>
    intro y c c2 hc h
    unfold canvas.fill_rectangle_rows at h
    injection h with h
    rw [← h]; exact hc
  | succ n ih =>
    intro y c c2 hc h
    unfold canvas.fill_rectangle_rows at h
    split at h
    · exact absurd h (by simp)
    · rename_i c1 h1
      exact ih _ _ _ (canvas.line_segment_flag _ _ _ _ _ _ _ h1) h

/-- Every state the modelled members produce from a new canvas has the flag false. -/
theorem canvas.Reachable_flag (c : canvas) (h : c.Reachable) : c.m_clipped = false := by
  induction h with
  | new b => rfl
  | setclip minx miny maxx maxy _ ih => exact ih
  | pen_color r g b a _ ih => exact ih
  | pen_width w _ ih =>
    unfold canvas.pen_width
    split_ifs
    · exact ih
    · exact ih
  | plot_pixel x y _ h1 ih =>
    rw [(canvas.plot_pixel_same _ _ _ _ h1).2.2.2.2.2.2.2.2.2.2.2]; exact ih
  | plot_pen_pixel x y _ h1 ih =>
    rw [(canvas.plot_pen_pixel_same _ _ _ _ h1).2.2.2.2.2.2.2.2.2.2.2]; exact ih
  | line_segment fuel x1 y1 x2 y2 _ h1 _ => exact canvas.line_segment_flag _ _ _ _ _ _ _ h1
  | rectangle fuel x1 y1 x2 y2 hr0 h1 ih0 =>
    rename_i c0 c3
    unfold canvas.rectangle at h1
    cases e1 : c0.line_segment fuel x1 y1 x2 y1 with
    | error f => rw [e1] at h1; exact absurd h1 (by simp [bind, Except.bind])
    | ok a1 =>
      rw [e1] at h1
      cases e2 : a1.line_segment fuel x2 y1 x2 y2 with
      | error f => simp only [bind, Except.bind, e2] at h1; exact absurd h1 (by simp)
      | ok a2 =>
        cases e3 : a2.line_segment fuel x2 y2 x1 y2 with
        | error f => simp only [bind, Except.bind, e2, e3] at h1; exact absurd h1 (by simp)
        | ok a3 =>
          simp only [bind, Except.bind, e2, e3] at h1
          exact canvas.line_segment_flag _ _ _ _ _ _ _ h1
  | triangle fuel x1 y1 x2 y2 x3 y3 hr0 h1 ih0 =>
    rename_i c0 c3
    unfold canvas.triangle at h1
    cases e1 : c0.line_segment fuel x1 y1 x2 y2 with
    | error f => rw [e1] at h1; exact absurd h1 (by simp [bind, Except.bind])
    | ok a1 =>
      rw [e1] at h1
      cases e2 : a1.line_segment fuel x2 y2 x3 y3 with
      | error f => simp only [bind, Except.bind, e2] at h1; exact absurd h1 (by simp)
      | ok a2 =>
        simp only [bind, Except.bind, e2] at h1
        exact canvas.line_segment_flag _ _ _ _ _ _ _ h1
  | quadix fuel x1 y1 x2 y2 x3 y3 x4 y4 hr0 h1 ih0 =>
    rename_i c0 c3
    unfold canvas.quadix at h1
    cases e1 : c0.line_segment fuel x1 y1 x2 y2 with
    | error f => rw [e1] at h1; exact absurd h1 (by simp [bind, Except.bind])
    | ok a1 =>
      rw [e1] at h1
      cases e2 : a1.line_segment fuel x2 y2 x3 y3 with
      | error f => simp only [bind, Except.bind, e2] at h1; exact absurd h1 (by simp)
      | ok a2 =>
        cases e3 : a2.line_segment fuel x3 y3 x4 y4 with
        | error f => simp only [bind, Except.bind, e2, e3] at h1; exact absurd h1 (by simp)
        | ok a3 =>
          simp only [bind, Except.bind, e2, e3] at h1
          exact canvas.line_segment_flag _ _ _ _ _ _ _ h1
  | circle fuel cx cy r _ h1 ih =>
    rw [(canvas.circle_loop_same _ _ _ _ _ _ _ _ h1).2.2.2.2.2.2.2.2.2.2.2]; exact ih
  | fill_rectangle fuel x1 y1 x2 y2 _ h1 ih =>
    exact canvas.fill_rectangle_rows_flag _ _ _ _ _ _ _ ih h1
  | fill_circle cx cy r _ h1 ih =>
    unfold canvas.fill_circle at h1
    dsimp only at h1
    split_ifs at h1
    rw [(canvas.fill_circle_rows_same _ _ _ _ _ _ _ _ _ h1).2.2.2.2.2.2.2.2.2.2.2]; exact ih
  | blit src srcx srcy dstx dsty width height _ h1 ih =>
    unfold canvas.blit at h1
    dsimp only at h1
    split at h1
    · exact absurd h1 (by simp)
    · rename_i c1 hrows
      obtain ⟨p1, p2, p3, p4, p5, p6⟩ := canvas.blit_rows_frame _ _ _ _ _ _ _ _ _ hrows
      injection h1 with h1
      rw [← h1]
      show c1.m_clipped = false
      rw [p6]; exact ih

/-- C18: whenever `line_segment` returns, the "already clipped" flag is false
(whether the segment was accepted or rejected by clipping, and whatever the
flag was at entry); a new canvas has the flag false, and every state reached
from a new canvas by the members `setclip`, `pen_color`, `pen_width`,
`plot_pixel`, `plot_pen_pixel`, `line_segment`, `rectangle`, `triangle`,
`quadix`, `circle`, `fill_rectangle`, `fill_circle` and `blit` has it false, so
it is false at the entry of each of these operations. -/
theorem clipped_flag_false_after_line_segment (c c2 d : canvas) (fuel : Nat)
    (x1 y1 x2 y2 : Int) (h : c.line_segment fuel x1 y1 x2 y2 = Except.ok c2)
    (hd : d.Reachable) :
    c2.m_clipped = false ∧ d.m_clipped = false :=
  ⟨canvas.line_segment_flag c c2 fuel x1 y1 x2 y2 h, canvas.Reachable_flag d hd⟩

theorem clipped_flag_false_after_line_segment_witness :
    ∃ c2, ((canvas.new (bitmap.new 4 4)).setclip 1 1 2 2).line_segment 3 0 0 3 3 = Except.ok c2 ∧
      c2.trace = [(1, 1), (2, 2)] ∧ c2.Reachable ∧ c2.m_clipped = false ∧ c2.m_clipped = false :=
  match h : ((canvas.new (bitmap.new 4 4)).setclip 1 1 2 2).line_segment 3 0 0 3 3 with
  | .ok c2 =>
    ⟨c2, rfl,
      (by
        have h2 : (((canvas.new (bitmap.new 4 4)).setclip 1 1 2 2).line_segment 3 0 0 3 3 >>=
            fun c => pure c.trace) = Except.ok [(1, 1), (2, 2)] := by decide
        rw [h] at h2
        simpa [bind, Except.bind, pure, Except.pure] using h2),
      canvas.Reachable.line_segment 3 0 0 3 3
        (canvas.Reachable.setclip 1 1 2 2 (canvas.Reachable.new (bitmap.new 4 4))) h,
      clipped_flag_false_after_line_segment ((canvas.new (bitmap.new 4 4)).setclip 1 1 2 2) c2 c2
        3 0 0 3 3 h
        (canvas.Reachable.line_segment 3 0 0 3 3
          (canvas.Reachable.setclip 1 1 2 2 (canvas.Reachable.new (bitmap.new 4 4))) h)⟩
  | .error f =>
    absurd h (by
      have h2 : (((canvas.new (bitmap.new 4 4)).setclip 1 1 2 2).line_segment 3 0 0 3 3).toBool
          = true := by decide
      intro h3
      rw [h3] at h2
      exact absurd h2 (by simp [Except.toBool]))

/-- The loop of `ClipLine` on the clip rectangle (2,2,7,7), entered with the
first point at (2,1431655808) or (0,7) and the second point at (3,0), never
leaves these two states. -/
theorem ClipLine_loop_cycle (n : Nat) :
    ((canvas.new (bitmap.new 10 10)).setclip 2 2 7 7).ClipLine_loop n 2 1431655808 3 0 8 4
      = .error .outOfFuel ∧
    ((canvas.new (bitmap.new 10 10)).setclip 2 2 7 7).ClipLine_loop n 0 7 3 0 1 4
      = .error .outOfFuel := by
  have p1 : ((canvas.new (bitmap.new 10 10)).setclip 2 2 7 7).ClipLine_point 8 2 1431655808 3 0
      = .ok (0, 7) := by decide
  have p2 : ((canvas.new (bitmap.new 10 10)).setclip 2 2 7 7).ClipLine_point 1 0 7 3 0
      = .ok (2, 1431655808) := by decide
  have o1 : ((canvas.new (bitmap.new 10 10)).setclip 2 2 7 7).ComputeOutCode 0 7 = 1 := by
    decide
  have o2 : ((canvas.new (bitmap.new 10 10)).setclip 2 2 7 7).ComputeOutCode 2 1431655808
      = 8 := by decide
  induction n with
  | zero => exact ⟨rfl, rfl⟩
  | succ n ih =>
    constructor
    · rw [canvas.ClipLine_loop]
      rw [if_neg (by decide), if_neg (by decide), if_pos (by decide)]
      simp only [p1, o1, if_true]
      exact ih.2
    · rw [canvas.ClipLine_loop]
      rw [if_neg (by decide), if_neg (by decide), if_pos (by decide)]
      simp only [p2, o2, if_true]
      exact ih.1

/-- C19: `line_segment` does not run to completion for every input.  With the
clip rectangle (2,2,7,7) (min ≤ max on both axes) the segment (0,2)-(3,0) sends
the loop of `ClipLine` into a cycle: the first end point becomes
(2,1431655808), then (0,7), then (2,1431655808) again, because the product
`(y1 - y0) * (m_clip_minx - x0)` is formed in `unsigned int`.  No number of
iterations lets the call return. -/
theorem line_segment_clip_loop_cycles (fuel : Nat) :
    ((canvas.new (bitmap.new 10 10)).setclip 2 2 7 7).line_segment fuel 0 2 3 0
      = Except.error Fault.outOfFuel := by
  have hflag : ((canvas.new (bitmap.new 10 10)).setclip 2 2 7 7).m_clipped = false := rfl
  have hclip : ((canvas.new (bitmap.new 10 10)).setclip 2 2 7 7).ClipLine fuel 0 2 3 0
      = .error .outOfFuel := by
    cases fuel with
    | zero => rfl
    | succ n =>
      have p0 : ((canvas.new (bitmap.new 10 10)).setclip 2 2 7 7).ClipLine_point 1 0 2 3 0
          = .ok (2, 1431655808) := by decide
      have o2 : ((canvas.new (bitmap.new 10 10)).setclip 2 2 7 7).ComputeOutCode 2 1431655808
          = 8 := by decide
      have a1 : ((canvas.new (bitmap.new 10 10)).setclip 2 2 7 7).ComputeOutCode 0 2 = 1 := by
        decide
      have a2 : ((canvas.new (bitmap.new 10 10)).setclip 2 2 7 7).ComputeOutCode 3 0 = 4 := by
        decide
      rw [canvas.ClipLine, a1, a2, canvas.ClipLine_loop]
      rw [if_neg (by decide), if_neg (by decide), if_pos (by decide)]
      simp only [p0, o2, if_true]
      exact (ClipLine_loop_cycle n).1
  unfold canvas.line_segment
  simp only [hflag, hclip, Bool.not_false, if_true]

/-- C14: the footprint of a pen wider than 1 is not clip-tested inside
`line_segment`.  On a 4x4 bitmap with clip rectangle (1,1,2,2) and pen width 2,
`plot_pen_pixel(1,2)` called directly drops the footprint pixel (1,3), which
lies outside the clip rectangle (3 > 2), but `line_segment(1,2,2,2)`, which
plots the same point with the flag set, writes pixel (1,3).  With pen width 3
and the clip rectangle (0,0,3,3) of the whole 4x4 buffer, `line_segment` along
the row 3 reaches outside the store. -/
theorem line_segment_pen_width_2_leaves_clip :
    (((canvas.new (bitmap.new 4 4)).setclip 1 1 2 2).pen_width 2).m_clip_maxy = 2 ∧
    (bitmap.new 4 4).get_pixel 1 3 = Except.ok (0, 0, 0, 0) ∧
    ((((canvas.new (bitmap.new 4 4)).setclip 1 1 2 2).pen_width 2).plot_pen_pixel 1 2 >>=
        fun c2 => c2.m_bitmap.get_pixel 1 3) = Except.ok (0, 0, 0, 0) ∧
    ((((canvas.new (bitmap.new 4 4)).setclip 1 1 2 2).pen_width 2).line_segment 1 1 2 2 2 >>=
        fun c2 => c2.m_bitmap.get_pixel 1 3) = Except.ok (254, 254, 254, 255) ∧
    ((((canvas.new (bitmap.new 4 4)).setclip 0 0 3 3).pen_width 3).line_segment 1 0 3 3 3 >>=
        fun c2 => c2.m_bitmap.get_pixel 0 0) = Except.error Fault.outOfBounds := by
  decide

/-- The stepper of `line_segment`, as a list of points: it yields one point
per step along the dominant axis, the minor coordinate moving by at most the
remaining distance. -/
theorem canvas.bresenham_points_spec (fuel : Nat) (steep : Bool) (dx dy sx sy : Int)
    (xend yend : Int)
    (hdy0 : 0 ≤ dy) (hdyx : dy ≤ dx) (hdx : dx < 1073741824)
    (hsx : sx = 1 ∨ sx = -1) (hsy : sy = 1 ∨ sy = -1)
    (hxe : -1073741824 ≤ xend ∧ xend < 1073741824)
    (hye : -1073741824 ≤ yend ∧ yend < 1073741824) :
    ∀ (n : Nat) (x y e m : Int),
      (n : Int) ≤ dx →
      (-1073741824 ≤ x ∧ x < 1073741824) → (-1073741824 ≤ y ∧ y < 1073741824) →
      x + n * sx = xend → 0 ≤ m → y + m * sy = yend →
      (1 ≤ n → e = 2 * (dx * m) - 2 * (dy * ((n : Int) - 1)) - dx ∧
        2 * dy - 2 * dx ≤ e ∧ e < 2 * dy) →
      ∃ l, canvas.bresenham_points (fuel + 1) steep dx dy sx sy n x y e = .ok l ∧
        l.length = n ∧
        ∀ i : Nat, i < n → ∃ k : Int, 0 ≤ k ∧ k ≤ m ∧
          l[i]? = some (if steep then (u32 (y + k * sy), u32 (x + (i : Int) * sx))
                        else (u32 (x + (i : Int) * sx), u32 (y + k * sy))) := by
  intro n
  induction n with
  | zero =>
    intro x y e m _ _ _ _ _ _ _
    exact ⟨[], rfl, rfl, by intro i hi; omega⟩
  | succ n ih =>
    intro x y e m hn hx hy hxend hm hyend hinv
    obtain ⟨he, helo, hehi⟩ := hinv (by omega)
    have hncast : ((n + 1 : Nat) : Int) = (n : Int) + 1 := by push_cast; ring
    rw [hncast] at hn hxend he
    have hn0 : (0 : Int) ≤ n := Int.ofNat_nonneg n
    have hx1 : i32 (x + sx) = x + sx := i32_eq _ (by omega) (by omega)
    have hxr : -1073741824 ≤ x + sx ∧ x + sx < 1073741824 := by
      rcases hsx with h | h <;> subst h <;> simp only [mul_one, mul_neg] at hxend <;> omega
    have hxend1 : (x + sx) + (n : Int) * sx = xend := by rw [← hxend]; ring
    have h2dy : i32 (2 * dy) = 2 * dy := i32_eq _ (by omega) (by omega)
    have hidx : ∀ i : Nat, (x + sx) + (i : Int) * sx = x + ((i + 1 : Nat) : Int) * sx := by
      intro i; push_cast; ring
    by_cases hpos : 0 ≤ e
    · have hm1 : 1 ≤ m := by
        by_contra hc
        have hm0 : m = 0 := by omega
        subst hm0
        have : 0 ≤ dy * (n : Int) := mul_nonneg hdy0 hn0
        have e3 : (n : Int) + 1 - 1 = n := by ring
        rw [e3] at he
        simp only [mul_zero] at he
        omega
      have hwh := bresenham_while_once fuel dx sy y e hpos (by omega) hdx hsy (by omega)
      have hyr : -1073741824 ≤ y + sy ∧ y + sy < 1073741824 := by
        rcases hsy with h | h <;> subst h <;> simp only [mul_one, mul_neg] at hyend <;> omega
      have hyend1 : (y + sy) + (m - 1) * sy = yend := by rw [← hyend]; ring
      have he1 : i32 (e - 2 * dx + 2 * dy) = e - 2 * dx + 2 * dy :=
        i32_eq _ (by omega) (by omega)
      obtain ⟨l, hr, hlen, hl⟩ :=
        ih (x + sx) (y + sy) (e - 2 * dx + 2 * dy) (m - 1) (by omega)
          hxr hyr hxend1 (by omega) hyend1
          (by
            intro _
            refine ⟨?_, by omega, by omega⟩
            rw [he]; ring)
      refine ⟨(if steep then (u32 y, u32 x) else (u32 x, u32 y)) :: l, ?_, by simp [hlen], ?_⟩
      · simp only [canvas.bresenham_points, hwh, hx1, h2dy, he1, hr]
      · intro i hi
        cases i with
        | zero =>
          refine ⟨0, le_refl _, hm, ?_⟩
          simp
        | succ j =>
          obtain ⟨k, hk0, hk1, hk⟩ := hl j (by omega)
          refine ⟨k + 1, by omega, by omega, ?_⟩
          rw [List.getElem?_cons_succ, hk, hidx j]
          have : y + sy + k * sy = y + (k + 1) * sy := by ring
          rw [this]
    · have hneg : e < 0 := by omega
      have hwh := bresenham_while_neg (fuel + 1) dx sy y e hneg
      have he1 : i32 (e + 2 * dy) = e + 2 * dy := i32_eq _ (by omega) (by omega)
      obtain ⟨l, hr, hlen, hl⟩ :=
        ih (x + sx) y (e + 2 * dy) m (by omega)
          hxr hy hxend1 hm hyend
          (by
            intro _
            refine ⟨?_, by omega, by omega⟩
            rw [he]; ring)
      refine ⟨(if steep then (u32 y, u32 x) else (u32 x, u32 y)) :: l, ?_, by simp [hlen], ?_⟩
      · simp only [canvas.bresenham_points, hwh, hx1, h2dy, he1, hr]
      · intro i hi
        cases i with
        | zero =>
          refine ⟨0, le_refl _, hm, ?_⟩
          simp
        | succ j =>
          obtain ⟨k, hk0, hk1, hk⟩ := hl j (by omega)
          refine ⟨k, hk0, hk1, ?_⟩
          rw [List.getElem?_cons_succ, hk, hidx j]

theorem getElem?_append_singleton {α : Type} (l : List α) (a p : α) (i : Nat)
    (h : (l ++ [a])[i]? = some p) : (i < l.length ∧ l[i]? = some p) ∨ (i = l.length ∧ p = a) := by
  by_cases hi : i < l.length
  · rw [List.getElem?_append_left hi] at h
    exact Or.inl ⟨hi, h⟩
  · have hlen2 : l.length ≤ i := by omega
    rw [List.getElem?_append_right hlen2] at h
    cases hj : i - l.length with
    | zero =>
      rw [hj] at h
      simp only [List.getElem?_cons_zero, Option.some.injEq] at h
      exact Or.inr ⟨by omega, h.symm⟩
    | succ j =>
      rw [hj] at h
      simp at h

/-- The point list of an unclipped segment between two points with coordinates
in `[0, 2^30)`: `max(|dx|,|dy|) + 1` points, the last one the end point, each
inside the bounding box of the end points, the dominant coordinate advancing by
one per point. -/
theorem canvas.segment_points_spec (fuel : Nat) (x1 y1 x2 y2 : Int)
    (hx1 : 0 ≤ x1 ∧ x1 < 1073741824) (hy1 : 0 ≤ y1 ∧ y1 < 1073741824)
    (hx2 : 0 ≤ x2 ∧ x2 < 1073741824) (hy2 : 0 ≤ y2 ∧ y2 < 1073741824) :
    ∃ pts, canvas.segment_points (fuel + 1) x1 y1 x2 y2 = .ok pts ∧
      pts.length = (max |x2 - x1| |y2 - y1|).toNat + 1 ∧
      pts.getLast? = some (x2.toNat, y2.toNat) ∧
      ∀ (i : Nat) (p : Nat × Nat), pts[i]? = some p →
        (min x1 x2 ≤ (p.1 : Int) ∧ (p.1 : Int) ≤ max x1 x2 ∧
          min y1 y2 ≤ (p.2 : Int) ∧ (p.2 : Int) ≤ max y1 y2) ∧
        (if |y2 - y1| > |x2 - x1| then
          (p.2 : Int) = y1 + (i : Int) * (if y2 - y1 > 0 then 1 else -1)
         else (p.1 : Int) = x1 + (i : Int) * (if x2 - x1 > 0 then 1 else -1)) := by
  have hdxi : i32 (x2 - x1) = x2 - x1 := i32_eq _ (by omega) (by omega)
  have hdyi : i32 (y2 - y1) = y2 - y1 := i32_eq _ (by omega) (by omega)
  have hax : |x2 - x1| < 1073741824 ∧ 0 ≤ |x2 - x1| := by
    rcases abs_cases (x2 - x1) with ⟨h, _⟩ | ⟨h, _⟩ <;> rw [h] <;> omega
  have hay : |y2 - y1| < 1073741824 ∧ 0 ≤ |y2 - y1| := by
    rcases abs_cases (y2 - y1) with ⟨h, _⟩ | ⟨h, _⟩ <;> rw [h] <;> omega
  have hdxa : i32 |x2 - x1| = |x2 - x1| := i32_eq _ (by omega) (by omega)
  have hdya : i32 |y2 - y1| = |y2 - y1| := i32_eq _ (by omega) (by omega)
  have hsx : (if x2 - x1 > 0 then (1 : Int) else -1) = 1 ∨
      (if x2 - x1 > 0 then (1 : Int) else -1) = -1 := by split_ifs <;> simp
  have hsy : (if y2 - y1 > 0 then (1 : Int) else -1) = 1 ∨
      (if y2 - y1 > 0 then (1 : Int) else -1) = -1 := by split_ifs <;> simp
  have hxstep : x1 + |x2 - x1| * (if x2 - x1 > 0 then (1 : Int) else -1) = x2 := abs_step _ _
  have hystep : y1 + |y2 - y1| * (if y2 - y1 > 0 then (1 : Int) else -1) = y2 := abs_step _ _
  have ux2 : u32 x2 = x2.toNat := u32_eq _ hx2.1 (by omega)
  have uy2 : u32 y2 = y2.toNat := u32_eq _ hy2.1 (by omega)
  unfold canvas.segment_points
  rw [hdxi, hdyi, hdxa, hdya, ux2, uy2]
  generalize hDX : |x2 - x1| = DX at *
  generalize hDY : |y2 - y1| = DY at *
  generalize hSX : (if x2 - x1 > 0 then (1 : Int) else -1) = SX at *
  generalize hSY : (if y2 - y1 > 0 then (1 : Int) else -1) = SY at *
  -- a point `a + k * s` on the way from `a` to `b = a + D * s` lies between them
  have between : ∀ (a b D s k : Int), (s = 1 ∨ s = -1) → a + D * s = b → 0 ≤ k → k ≤ D →
      0 ≤ a → 0 ≤ b →
      0 ≤ a + k * s ∧ min a b ≤ a + k * s ∧ a + k * s ≤ max a b := by
    intro a b D s k hs hab hk0 hk1 ha hb
    rcases hs with h | h <;> subst h <;> simp only [mul_one, mul_neg] at hab ⊢ <;>
      refine ⟨by omega, ?_, ?_⟩ <;> simp only [min_le_iff, le_max_iff] <;> omega
  by_cases hst : DY > DX
  · have he0 : i32 (i32 (2 * DX) - DY) = 2 * DX - DY := by
      rw [i32_eq (2 * DX) (by omega) (by omega)]; exact i32_eq _ (by omega) (by omega)
    simp only [hst, decide_True, if_true, he0]
    have hn : ((DY.toNat : Nat) : Int) = DY := Int.toNat_of_nonneg hay.2
    have hmax : (max DX DY).toNat = DY.toNat := by rw [max_eq_right (by omega)]
    obtain ⟨l, hr, hlen, hl⟩ :=
      canvas.bresenham_points_spec fuel true DY DX SY SX y2 x2 hax.2 (by omega) hay.1 hsy hsx
        (by omega) (by omega) DY.toNat y1 x1 (2 * DX - DY) DX (by omega) (by omega) (by omega)
        (by rw [hn]; exact hystep) hax.2 hxstep
        (by intro _; rw [hn]; refine ⟨by ring, by omega, by omega⟩)
    refine ⟨l ++ [(x2.toNat, y2.toNat)], by rw [hr], by rw [List.length_append, hlen, hmax]; rfl, by simp, ?_⟩
    intro i p hp
    rcases getElem?_append_singleton l _ p i hp with ⟨hi, hp⟩ | ⟨hi, hp⟩
    · rw [hlen] at hi
      obtain ⟨k, hk0, hk1, hk⟩ := hl i hi
      rw [hk] at hp
      simp only [if_true, Option.some.injEq] at hp
      obtain ⟨b1, b2, b3⟩ := between x1 x2 DX SX k hsx hxstep hk0 hk1 hx1.1 hx2.1
      obtain ⟨d1, d2, d3⟩ := between y1 y2 DY SY i hsy hystep (by omega) (by omega) hy1.1 hy2.1
      have e1 : (p.1 : Int) = x1 + k * SX := by
        rw [← hp]
        show ((u32 (x1 + k * SX) : Nat) : Int) = _
        rw [u32_eq _ b1 (by simp only [le_max_iff] at b3; omega), Int.toNat_of_nonneg b1]
      have e2 : (p.2 : Int) = y1 + (i : Int) * SY := by
        rw [← hp]
        show ((u32 (y1 + (i : Int) * SY) : Nat) : Int) = _
        rw [u32_eq _ d1 (by simp only [le_max_iff] at d3; omega), Int.toNat_of_nonneg d1]
      rw [e1, e2]
      exact ⟨⟨b2, b3, d2, d3⟩, rfl⟩
    · have hiD : (i : Int) = DY := by omega
      rw [hp]
      simp only [Int.toNat_of_nonneg hx2.1, Int.toNat_of_nonneg hy2.1, hiD, hystep]
      refine ⟨⟨?_, ?_, ?_, ?_⟩, trivial⟩ <;> simp
  · have he0 : i32 (i32 (2 * DY) - DX) = 2 * DY - DX := by
      rw [i32_eq (2 * DY) (by omega) (by omega)]; exact i32_eq _ (by omega) (by omega)
    simp only [hst, decide_False, Bool.false_eq_true, if_false, he0]
    have hn : ((DX.toNat : Nat) : Int) = DX := Int.toNat_of_nonneg hax.2
    have hmax : (max DX DY).toNat = DX.toNat := by rw [max_eq_left (by omega)]
    obtain ⟨l, hr, hlen, hl⟩ :=
      canvas.bresenham_points_spec fuel false DX DY SX SY x2 y2 hay.2 (by omega) hax.1 hsx hsy
        (by omega) (by omega) DX.toNat x1 y1 (2 * DY - DX) DY (by omega) (by omega) (by omega)
        (by rw [hn]; exact hxstep) hay.2 hystep
        (by intro _; rw [hn]; refine ⟨by ring, by omega, by omega⟩)
    refine ⟨l ++ [(x2.toNat, y2.toNat)], by rw [hr], by rw [List.length_append, hlen, hmax]; rfl, by simp, ?_⟩
    intro i p hp
    rcases getElem?_append_singleton l _ p i hp with ⟨hi, hp⟩ | ⟨hi, hp⟩
    · rw [hlen] at hi
      obtain ⟨k, hk0, hk1, hk⟩ := hl i hi
      rw [hk] at hp
      simp only [Bool.false_eq_true, if_false, Option.some.injEq] at hp
      obtain ⟨b1, b2, b3⟩ := between y1 y2 DY SY k hsy hystep hk0 hk1 hy1.1 hy2.1
      obtain ⟨d1, d2, d3⟩ := between x1 x2 DX SX i hsx hxstep (by omega) (by omega) hx1.1 hx2.1
      have e1 : (p.2 : Int) = y1 + k * SY := by
        rw [← hp]
        show ((u32 (y1 + k * SY) : Nat) : Int) = _
        rw [u32_eq _ b1 (by simp only [le_max_iff] at b3; omega), Int.toNat_of_nonneg b1]
      have e2 : (p.1 : Int) = x1 + (i : Int) * SX := by
        rw [← hp]
        show ((u32 (x1 + (i : Int) * SX) : Nat) : Int) = _
        rw [u32_eq _ d1 (by simp only [le_max_iff] at d3; omega), Int.toNat_of_nonneg d1]
      rw [e1, e2]
      exact ⟨⟨d2, d3, b2, b3⟩, rfl⟩
    · have hiD : (i : Int) = DX := by omega
      rw [hp]
      simp only [Int.toNat_of_nonneg hx2.1, Int.toNat_of_nonneg hy2.1, hiD, hxstep]
      refine ⟨⟨?_, ?_, ?_, ?_⟩, trivial⟩ <;> simp

/-- A list of in-range points that pass the clip test is plotted without fault;
a pixel that is not in the list keeps its value. -/
theorem canvas.plot_points_frame (pts : List (Nat × Nat)) :
    ∀ (c : canvas), c.m_bitmap.wf →
      (∀ p ∈ pts, p.1 < c.m_bitmap.m_width ∧ p.2 < c.m_bitmap.m_height ∧ c.passes p.1 p.2) →
      ∃ c2, c.plot_points pts = .ok c2 ∧ c2.m_bitmap.wf ∧ c.same c2 ∧
        c2.trace = c.trace ++ pts ∧
        ∀ x y, x < c.m_bitmap.m_width → y < c.m_bitmap.m_height → (x, y) ∉ pts →
          c2.m_bitmap.get_pixel x y = c.m_bitmap.get_pixel x y := by
  induction pts with
  | nil =>
    intro c hb _
    exact ⟨c, rfl, hb, canvas.same_refl c, by simp, fun _ _ _ _ _ => rfl⟩
  | cons p ps ih =>
    intro c hb hin
    obtain ⟨px, py⟩ := p
    obtain ⟨hp1, hp2, hp3⟩ := hin (px, py) (List.mem_cons_self _ _)
    obtain ⟨c1, sr, sg, sb, sa, e1, hb1, hs1, ht1, -, -, hf1⟩ :=
      canvas.plot_pixel_spec c hb px py hp1 hp2 hp3
    obtain ⟨c2, e2, hb2, hs2, ht2, hf2⟩ := ih c1 hb1
      (by
        intro q hq
        obtain ⟨q1, q2, q3⟩ := hin q (List.mem_cons_of_mem _ hq)
        rw [hs1.1, hs1.2.1]
        exact ⟨q1, q2, canvas.passes_same hs1 _ _ q3⟩)
    refine ⟨c2, ?_, hb2, canvas.same_trans hs1 hs2, ?_, ?_⟩
    · simp only [canvas.plot_points, e1]; exact e2
    · rw [ht2, ht1]; simp
    · intro x y hx hy hnot
      rw [hf2 x y (by rw [hs1.1]; exact hx) (by rw [hs1.2.1]; exact hy)
        (fun hm => hnot (List.mem_cons_of_mem _ hm))]
      exact hf1 x y hx hy (fun he => hnot (by rw [he]; exact List.mem_cons_self _ _))

theorem i32_range (z : Int) : -2147483648 ≤ i32 z ∧ i32 z < 2147483648 := by
  unfold i32; omega

theorem intersect_range (p0 q0 p1 q1 : Int) (bound : Nat) (z : Int)
    (h : intersect p0 q0 p1 q1 bound = .ok z) : -2147483648 ≤ z ∧ z < 2147483648 := by
  unfold intersect at h
  dsimp only at h
  split_ifs at h
  unfold Frac.toInt at h
  dsimp only at h
  split_ifs at h with h2
  injection h with h
  rw [← h]; exact h2

theorem canvas.ClipLine_point_range (c : canvas) (outcode : Nat) (x0 y0 x1 y1 x y : Int)
    (h : c.ClipLine_point outcode x0 y0 x1 y1 = .ok (x, y)) :
    (-2147483648 ≤ x ∧ x < 2147483648) ∧ (-2147483648 ≤ y ∧ y < 2147483648) := by
  have key : ∀ (r : Except Fault Int) (f : Int → Int × Int),
      r.map f = .ok (x, y) → ∃ z, r = .ok z ∧ f z = (x, y) := by
    intro r f hr
    cases r with
    | error e => exact absurd hr (by simp [Except.map])
    | ok z => exact ⟨z, rfl, by simpa [Except.map] using hr⟩
  unfold canvas.ClipLine_point at h
  split_ifs at h
  · obtain ⟨z, hz, he⟩ := key _ _ h
    injection he with e1 e2
    rw [← e1, ← e2]
    exact ⟨intersect_range _ _ _ _ _ _ hz, i32_range _⟩
  · obtain ⟨z, hz, he⟩ := key _ _ h
    injection he with e1 e2
    rw [← e1, ← e2]
    exact ⟨intersect_range _ _ _ _ _ _ hz, i32_range _⟩
  · obtain ⟨z, hz, he⟩ := key _ _ h
    injection he with e1 e2
    rw [← e1, ← e2]
    exact ⟨i32_range _, intersect_range _ _ _ _ _ _ hz⟩
  · obtain ⟨z, hz, he⟩ := key _ _ h
    injection he with e1 e2
    rw [← e1, ← e2]
    exact ⟨i32_range _, intersect_range _ _ _ _ _ _ hz⟩

theorem outcode_or_eq_zero (a b : Nat) (ha : a < 16) (hb : b < 16) (h : a ||| b = 0) :
    a = 0 ∧ b = 0 := by
  revert h
  interval_cases a <;> interval_cases b <;> decide

/-- When the loop of `ClipLine` accepts, both returned points are `int` values
with out-code 0. -/
theorem canvas.ClipLine_loop_accepted (c : canvas) (fuel : Nat) :
    ∀ (x0 y0 x1 y1 : Int) (o0 o1 : Nat) (a1 b1 a2 b2 : Int),
      (-2147483648 ≤ x0 ∧ x0 < 2147483648) → (-2147483648 ≤ y0 ∧ y0 < 2147483648) →
      (-2147483648 ≤ x1 ∧ x1 < 2147483648) → (-2147483648 ≤ y1 ∧ y1 < 2147483648) →
      o0 = c.ComputeOutCode x0 y0 → o1 = c.ComputeOutCode x1 y1 →
      c.ClipLine_loop fuel x0 y0 x1 y1 o0 o1 = .ok (true, a1, b1, a2, b2) →
      ((-2147483648 ≤ a1 ∧ a1 < 2147483648) ∧ (-2147483648 ≤ b1 ∧ b1 < 2147483648) ∧
       (-2147483648 ≤ a2 ∧ a2 < 2147483648) ∧ (-2147483648 ≤ b2 ∧ b2 < 2147483648)) ∧
      c.ComputeOutCode a1 b1 = 0 ∧ c.ComputeOutCode a2 b2 = 0 := by
  induction fuel with
  | zero =>
    intro x0 y0 x1 y1 o0 o1 a1 b1 a2 b2 _ _ _ _ _ _ h
    exact absurd h (by simp [canvas.ClipLine_loop])
  | succ n ih =>
    intro x0 y0 x1 y1 o0 o1 a1 b1 a2 b2 r1 r2 r3 r4 e0 e1 h
    rw [canvas.ClipLine_loop] at h
    by_cases h1 : (o0 ||| o1) = 0
    · rw [if_pos h1] at h
      injection h with h
      simp only [Prod.mk.injEq, true_and] at h
      obtain ⟨q1, q2, q3, q4⟩ := h
      subst q1 q2 q3 q4
      obtain ⟨z0, z1⟩ := outcode_or_eq_zero o0 o1 (by rw [e0]; exact c.ComputeOutCode_lt _ _)
        (by rw [e1]; exact c.ComputeOutCode_lt _ _) h1
      exact ⟨⟨r1, r2, r3, r4⟩, by rw [← e0]; exact z0, by rw [← e1]; exact z1⟩
    · rw [if_neg h1] at h
      by_cases h2 : (o0 &&& o1) ≠ 0
      · rw [if_pos h2] at h
        injection h with h
        simp at h
      · rw [if_neg h2] at h
        dsimp only at h
        generalize (if o0 ≠ 0 then o0 else o1) = oc at h
        split at h
        · exact absurd h (by simp)
        · rename_i x y hpt
          obtain ⟨rx, ry⟩ := canvas.ClipLine_point_range _ _ _ _ _ _ _ _ hpt
          split_ifs at h
          · exact ih _ _ _ _ _ _ _ _ _ _ rx ry r3 r4 rfl e1 h
          · exact ih _ _ _ _ _ _ _ _ _ _ r1 r2 rx ry e0 rfl h

theorem canvas.ComputeOutCode_zero (c : canvas) (x y : Int) (h : c.ComputeOutCode x y = 0) :
    c.m_clip_minx ≤ u32 x ∧ u32 x ≤ c.m_clip_maxx ∧
    c.m_clip_miny ≤ u32 y ∧ u32 y ≤ c.m_clip_maxy := by
  unfold canvas.ComputeOutCode INSIDE LEFT RIGHT BOTTOM TOP at h
  dsimp only at h
  split_ifs at h
  omega

/-- A rejected segment leaves the canvas as it was. -/
theorem canvas.line_segment_reject (c : canvas) (fuel : Nat) (x1 y1 x2 y2 a1 b1 a2 b2 : Int)
    (hflag : c.m_clipped = false)
    (hclip : c.ClipLine fuel x1 y1 x2 y2 = .ok (false, a1, b1, a2, b2)) :
    c.line_segment fuel x1 y1 x2 y2 = .ok c := by
  simp only [canvas.line_segment, hflag, hclip]
  cases c
  simp_all

/-- An `int` whose value as `unsigned int` is below 2^30 is non-negative. -/
theorem u32_small (z : Int) (B : Nat) (hz : -2147483648 ≤ z ∧ z < 2147483648)
    (hu : u32 z ≤ B) (hB : B < 1073741824) :
    0 ≤ z ∧ z < 1073741824 ∧ u32 z = z.toNat := by
  have h0 : 0 ≤ z := by
    by_contra hneg
    have : u32 z = (z + 4294967296).toNat := by
      unfold u32
      rw [show z % 4294967296 = z + 4294967296 by omega]
    omega
  have h1 : u32 z = z.toNat := u32_eq _ h0 (by omega)
  exact ⟨h0, by omega, h1⟩

/-- The points of an unclipped segment lie in every box that holds both end
points. -/
theorem canvas.segment_points_box (fuel : Nat) (x1 y1 x2 y2 : Int) (Lx Ux Ly Uy : Nat)
    (hx1 : 0 ≤ x1 ∧ x1 < 1073741824) (hy1 : 0 ≤ y1 ∧ y1 < 1073741824)
    (hx2 : 0 ≤ x2 ∧ x2 < 1073741824) (hy2 : 0 ≤ y2 ∧ y2 < 1073741824)
    (bx1 : (Lx : Int) ≤ x1 ∧ x1 ≤ Ux) (bx2 : (Lx : Int) ≤ x2 ∧ x2 ≤ Ux)
    (by1 : (Ly : Int) ≤ y1 ∧ y1 ≤ Uy) (by2 : (Ly : Int) ≤ y2 ∧ y2 ≤ Uy) :
    ∃ pts, canvas.segment_points (fuel + 1) x1 y1 x2 y2 = .ok pts ∧
      ∀ p ∈ pts, Lx ≤ p.1 ∧ p.1 ≤ Ux ∧ Ly ≤ p.2 ∧ p.2 ≤ Uy := by
  obtain ⟨pts, hseg, -, -, hpts⟩ := canvas.segment_points_spec fuel x1 y1 x2 y2 hx1 hy1 hx2 hy2
  refine ⟨pts, hseg, ?_⟩
  intro p hp
  obtain ⟨i, hi⟩ := List.mem_iff_getElem?.mp hp
  obtain ⟨⟨b1, b2, b3, b4⟩, -⟩ := hpts i p hi
  have c1 : (Lx : Int) ≤ p.1 := le_trans (le_min bx1.1 bx2.1) b1
  have c2 : (p.1 : Int) ≤ Ux := le_trans b2 (max_le bx1.2 bx2.2)
  have c3 : (Ly : Int) ≤ p.2 := le_trans (le_min by1.1 by2.1) b3
  have c4 : (p.2 : Int) ≤ Uy := le_trans b4 (max_le by1.2 by2.2)
  exact ⟨by exact_mod_cast c1, by exact_mod_cast c2, by exact_mod_cast c3,
    by exact_mod_cast c4⟩

/-- With pen width 1, a clip rectangle whose maxima lie inside
the buffer and any segment with `int` end points, whenever `line_segment`
(entered with the flag false) returns, every pixel it has written lies inside
the clip rectangle and every pixel of the buffer outside the clip rectangle has
the value it had before. -/
theorem line_segment_pen_width_1_stays_in_clip (c c2 : canvas) (fuel : Nat)
    (x1 y1 x2 y2 : Int)
    (hb : c.m_bitmap.wf) (hflag : c.m_clipped = false) (hw1 : c.m_pen_width = 1)
    (hcx : c.m_clip_maxx < c.m_bitmap.m_width) (hcy : c.m_clip_maxy < c.m_bitmap.m_height)
    (hx1 : -2147483648 ≤ x1 ∧ x1 < 2147483648) (hy1 : -2147483648 ≤ y1 ∧ y1 < 2147483648)
    (hx2 : -2147483648 ≤ x2 ∧ x2 < 2147483648) (hy2 : -2147483648 ≤ y2 ∧ y2 < 2147483648)
    (h : c.line_segment fuel x1 y1 x2 y2 = Except.ok c2) :
    (∃ pts, c2.trace = c.trace ++ pts ∧
      ∀ p ∈ pts, c.m_clip_minx ≤ p.1 ∧ p.1 ≤ c.m_clip_maxx ∧
        c.m_clip_miny ≤ p.2 ∧ p.2 ≤ c.m_clip_maxy) ∧
    ∀ x y, x < c.m_bitmap.m_width → y < c.m_bitmap.m_height →
      (x < c.m_clip_minx ∨ x > c.m_clip_maxx ∨ y < c.m_clip_miny ∨ y > c.m_clip_maxy) →
      c2.m_bitmap.get_pixel x y = c.m_bitmap.get_pixel x y := by
  cases hcl : c.ClipLine fuel x1 y1 x2 y2 with
  | error f =>
    simp only [canvas.line_segment, hflag, hcl] at h
    exact absurd h (by simp)
  | ok res =>
    obtain ⟨accept, a1, b1, a2, b2⟩ := res
    cases accept with
    | false =>
      rw [canvas.line_segment_reject c fuel x1 y1 x2 y2 a1 b1 a2 b2 hflag hcl] at h
      injection h with h
      subst h
      exact ⟨⟨[], by simp, by intro p hp; simp at hp⟩, fun _ _ _ _ _ => rfl⟩
    | true =>
      cases fuel with
      | zero => exact absurd hcl (by simp [canvas.ClipLine, canvas.ClipLine_loop])
      | succ n =>
        obtain ⟨⟨ra1, rb1, ra2, rb2⟩, z1, z2⟩ := canvas.ClipLine_loop_accepted c (n + 1)
          x1 y1 x2 y2 _ _ a1 b1 a2 b2 hx1 hy1 hx2 hy2 rfl rfl hcl
        obtain ⟨k1, k2, k3, k4⟩ := canvas.ComputeOutCode_zero c a1 b1 z1
        obtain ⟨m1, m2, m3, m4⟩ := canvas.ComputeOutCode_zero c a2 b2 z2
        have hwb : c.m_bitmap.m_width < 1073741824 ∧ c.m_bitmap.m_height < 1073741824 :=
          bitmap.wf_bounds _ hb c.m_clip_maxx c.m_clip_maxy hcx hcy
        obtain ⟨pa1, qa1, ua1⟩ := u32_small a1 c.m_clip_maxx ra1 k2 (by omega)
        obtain ⟨pb1, qb1, ub1⟩ := u32_small b1 c.m_clip_maxy rb1 k4 (by omega)
        obtain ⟨pa2, qa2, ua2⟩ := u32_small a2 c.m_clip_maxx ra2 m2 (by omega)
        obtain ⟨pb2, qb2, ub2⟩ := u32_small b2 c.m_clip_maxy rb2 m4 (by omega)
        rw [ua1] at k1 k2
        rw [ub1] at k3 k4
        rw [ua2] at m1 m2
        rw [ub2] at m3 m4
        obtain ⟨pts, hseg, hin⟩ := canvas.segment_points_box n a1 b1 a2 b2
          c.m_clip_minx c.m_clip_maxx c.m_clip_miny c.m_clip_maxy
          ⟨pa1, qa1⟩ ⟨pb1, qb1⟩ ⟨pa2, qa2⟩ ⟨pb2, qb2⟩
          ⟨by omega, by omega⟩ ⟨by omega, by omega⟩ ⟨by omega, by omega⟩ ⟨by omega, by omega⟩
        have hline := canvas.line_segment_accept c (n + 1) x1 y1 x2 y2 a1 b1 a2 b2 pts hflag hw1
          hcl hseg
        have hcw : ({ c with m_clipped := true } : canvas).m_bitmap.wf := hb
        obtain ⟨c3, hr3, hb3, hs3, ht3, hf3⟩ := canvas.plot_points_frame pts
          { c with m_clipped := true } hcw
          (by
            intro p hp
            obtain ⟨q1, q2, q3, q4⟩ := hin p hp
            refine ⟨?_, ?_, Or.inl rfl⟩
            · show p.1 < c.m_bitmap.m_width
              omega
            · show p.2 < c.m_bitmap.m_height
              omega)
        rw [hline, hr3] at h
        injection h with h
        subst h
        refine ⟨⟨pts, ht3, hin⟩, ?_⟩
        intro x y hx hy hout
        refine hf3 x y hx hy ?_
        intro hmem
        obtain ⟨q1, q2, q3, q4⟩ := hin (x, y) hmem
        simp only at q1 q2 q3 q4
        omega

theorem line_segment_pen_width_1_stays_in_clip_witness :
    ∃ c2, ((canvas.new (bitmap.new 4 4)).setclip 1 1 2 2).line_segment 3 0 0 3 3 = Except.ok c2 ∧
      c2.trace = [(1, 1), (2, 2)] ∧
      ((∃ pts, c2.trace = ((canvas.new (bitmap.new 4 4)).setclip 1 1 2 2).trace ++ pts ∧
        ∀ p ∈ pts, ((canvas.new (bitmap.new 4 4)).setclip 1 1 2 2).m_clip_minx ≤ p.1 ∧
          p.1 ≤ ((canvas.new (bitmap.new 4 4)).setclip 1 1 2 2).m_clip_maxx ∧
          ((canvas.new (bitmap.new 4 4)).setclip 1 1 2 2).m_clip_miny ≤ p.2 ∧
          p.2 ≤ ((canvas.new (bitmap.new 4 4)).setclip 1 1 2 2).m_clip_maxy) ∧
      ∀ x y, x < ((canvas.new (bitmap.new 4 4)).setclip 1 1 2 2).m_bitmap.m_width →
        y < ((canvas.new (bitmap.new 4 4)).setclip 1 1 2 2).m_bitmap.m_height →
        (x < ((canvas.new (bitmap.new 4 4)).setclip 1 1 2 2).m_clip_minx ∨
         x > ((canvas.new (bitmap.new 4 4)).setclip 1 1 2 2).m_clip_maxx ∨
         y < ((canvas.new (bitmap.new 4 4)).setclip 1 1 2 2).m_clip_miny ∨
         y > ((canvas.new (bitmap.new 4 4)).setclip 1 1 2 2).m_clip_maxy) →
        c2.m_bitmap.get_pixel x y =
          ((canvas.new (bitmap.new 4 4)).setclip 1 1 2 2).m_bitmap.get_pixel x y) :=
  match h : ((canvas.new (bitmap.new 4 4)).setclip 1 1 2 2).line_segment 3 0 0 3 3 with
  | .ok c2 =>
    ⟨c2, rfl,
      (by
        have h2 : (((canvas.new (bitmap.new 4 4)).setclip 1 1 2 2).line_segment 3 0 0 3 3 >>=
            fun c => pure c.trace) = Except.ok [(1, 1), (2, 2)] := by decide
        rw [h] at h2
        simpa [bind, Except.bind, pure, Except.pure] using h2),
      line_segment_pen_width_1_stays_in_clip ((canvas.new (bitmap.new 4 4)).setclip 1 1 2 2) c2
        3 0 0 3 3 (by decide) (by decide) (by decide) (by decide) (by decide) (by decide)
        (by decide) (by decide) (by decide) h⟩
  | .error f =>
    absurd h (by
      have h2 : (((canvas.new (bitmap.new 4 4)).setclip 1 1 2 2).line_segment 3 0 0 3 3).toBool
          = true := by decide
      intro h3
      rw [h3] at h2
      exact absurd h2 (by simp [Except.toBool]))

/-- A list of distinct in-range points that pass the clip test is plotted
without fault: each listed pixel becomes the blend of the pen over its former
value, every other pixel keeps its value. -/
theorem canvas.plot_points_content (pts : List (Nat × Nat)) :
    ∀ (c : canvas), c.m_bitmap.wf →
      (∀ p ∈ pts, p.1 < c.m_bitmap.m_width ∧ p.2 < c.m_bitmap.m_height ∧ c.passes p.1 p.2) →
      pts.Nodup →
      ∃ c2, c.plot_points pts = .ok c2 ∧ c2.m_bitmap.wf ∧ c.same c2 ∧
        c2.trace = c.trace ++ pts ∧
        ∀ x y, x < c.m_bitmap.m_width → y < c.m_bitmap.m_height →
          c2.m_bitmap.get_pixel x y =
            if (x, y) ∈ pts then (c.m_bitmap.get_pixel x y).map c.blend
            else c.m_bitmap.get_pixel x y := by
  induction pts with
  | nil =>
    intro c hb _ _
    exact ⟨c, rfl, hb, canvas.same_refl c, by simp, by intro x y _ _; simp⟩
  | cons p ps ih =>
    intro c hb hin hnd
    obtain ⟨px, py⟩ := p
    obtain ⟨hp1, hp2, hp3⟩ := hin (px, py) (List.mem_cons_self _ _)
    obtain ⟨c1, sr, sg, sb, sa, e1, hb1, hs1, ht1, hg0, hg1, hfr⟩ :=
      canvas.plot_pixel_spec c hb px py hp1 hp2 hp3
    have hnd2 := List.nodup_cons.mp hnd
    obtain ⟨c2, e2, hb2, hs2, ht2, hpix⟩ := ih c1 hb1
      (by
        intro q hq
        obtain ⟨q1, q2, q3⟩ := hin q (List.mem_cons_of_mem _ hq)
        rw [hs1.1, hs1.2.1]
        exact ⟨q1, q2, canvas.passes_same hs1 _ _ q3⟩) hnd2.2
    refine ⟨c2, ?_, hb2, canvas.same_trans hs1 hs2, ?_, ?_⟩
    · simp only [canvas.plot_points, e1]; exact e2
    · rw [ht2, ht1]; simp
    · intro x y hx hy
      rw [hpix x y (by rw [hs1.1]; exact hx) (by rw [hs1.2.1]; exact hy)]
      by_cases hxy : (x, y) = (px, py)
      · have hx' : x = px := (Prod.mk.inj hxy).1
        have hy' : y = py := (Prod.mk.inj hxy).2
        subst hx' hy'
        rw [if_neg hnd2.1, if_pos (List.mem_cons_self _ _), hg1, hg0]
        rfl
      · have hmem : ((x, y) ∈ (px, py) :: ps) ↔ ((x, y) ∈ ps) := by
          simp only [List.mem_cons]
          constructor
          · rintro (h | h)
            · exact absurd h hxy
            · exact h
          · intro h; exact Or.inr h
        rw [hfr x y hx hy hxy]
        by_cases hm : (x, y) ∈ ps
        · rw [if_pos hm, if_pos (hmem.mpr hm)]
          cases c.m_bitmap.get_pixel x y with
          | error f => rfl
          | ok s => simp only [Except.map, canvas.blend_same hs1]
        · rw [if_neg hm, if_neg (fun h => hm (hmem.mp h))]

/-- The first point of a non-empty run of the stepper is the current point. -/
theorem canvas.bresenham_points_head (fuel : Nat) (steep : Bool) (dx dy sx sy : Int) (n : Nat)
    (x y e : Int) (l : List (Nat × Nat))
    (h : canvas.bresenham_points fuel steep dx dy sx sy (n + 1) x y e = .ok l) :
    l[0]? = some (if steep then (u32 y, u32 x) else (u32 x, u32 y)) := by
  unfold canvas.bresenham_points at h
  split at h
  · exact absurd h (by simp)
  · split at h
    · exact absurd h (by simp)
    · injection h with h
      rw [← h]
      simp

/-- A list whose entries carry pairwise different keys, by position, has no
duplicates. -/
theorem nodup_of_index_key {α : Type} (l : List α) (f : α → Int) (s a : Int)
    (hs : s = 1 ∨ s = -1)
    (h : ∀ (i : Nat) (p : α), l[i]? = some p → f p = a + (i : Int) * s) : l.Nodup := by
  rw [List.nodup_iff_getElem?_ne_getElem?]
  intro i j hij hj heq
  have hi : i < l.length := lt_trans hij hj
  have e1 := h i l[i] (List.getElem?_eq_getElem hi)
  have e2 := h j l[i] (by rw [← heq]; exact List.getElem?_eq_getElem hi)
  rw [e1] at e2
  rcases hs with h1 | h1 <;> subst h1 <;> omega

/-- The first point of an unclipped segment is its start point. -/
theorem canvas.segment_points_first (fuel : Nat) (x1 y1 x2 y2 : Int) (pts : List (Nat × Nat))
    (hx1 : 0 ≤ x1 ∧ x1 < 1073741824) (hy1 : 0 ≤ y1 ∧ y1 < 1073741824)
    (hx2 : 0 ≤ x2 ∧ x2 < 1073741824) (hy2 : 0 ≤ y2 ∧ y2 < 1073741824)
    (h : canvas.segment_points fuel x1 y1 x2 y2 = .ok pts) :
    pts[0]? = some (x1.toNat, y1.toNat) := by
  have hdxi : i32 (x2 - x1) = x2 - x1 := i32_eq _ (by omega) (by omega)
  have hdyi : i32 (y2 - y1) = y2 - y1 := i32_eq _ (by omega) (by omega)
  have hax : |x2 - x1| < 1073741824 ∧ 0 ≤ |x2 - x1| := by
    rcases abs_cases (x2 - x1) with ⟨h, _⟩ | ⟨h, _⟩ <;> rw [h] <;> omega
  have hay : |y2 - y1| < 1073741824 ∧ 0 ≤ |y2 - y1| := by
    rcases abs_cases (y2 - y1) with ⟨h, _⟩ | ⟨h, _⟩ <;> rw [h] <;> omega
  have hdxa : i32 |x2 - x1| = |x2 - x1| := i32_eq _ (by omega) (by omega)
  have hdya : i32 |y2 - y1| = |y2 - y1| := i32_eq _ (by omega) (by omega)
  have hxz : |x2 - x1| = 0 → x1 = x2 := by
    intro h; have := abs_eq_zero.mp h; omega
  have hyz : |y2 - y1| = 0 → y1 = y2 := by
    intro h; have := abs_eq_zero.mp h; omega
  have ux1 : u32 x1 = x1.toNat := u32_eq _ hx1.1 (by omega)
  have uy1 : u32 y1 = y1.toNat := u32_eq _ hy1.1 (by omega)
  have ux2 : u32 x2 = x2.toNat := u32_eq _ hx2.1 (by omega)
  have uy2 : u32 y2 = y2.toNat := u32_eq _ hy2.1 (by omega)
  unfold canvas.segment_points at h
  rw [hdxi, hdyi, hdxa, hdya, ux2, uy2] at h
  generalize hDX : |x2 - x1| = DX at *
  generalize hDY : |y2 - y1| = DY at *
  by_cases hst : DY > DX
  · simp only [hst, decide_True, if_true] at h
    split at h
    · exact absurd h (by simp)
    · rename_i l hl
      injection h with h
      subst h
      obtain ⟨k, hk⟩ : ∃ k, DY.toNat = k + 1 := ⟨DY.toNat - 1, by omega⟩
      rw [hk] at hl
      have h0 := canvas.bresenham_points_head _ _ _ _ _ _ _ _ _ _ _ hl
      have hlen : 0 < l.length := by
        cases l with
        | nil => simp at h0
        | cons a t => simp
      rw [List.getElem?_append_left hlen, h0]
      simp only [if_true, ux1, uy1]
  · simp only [hst, decide_False, Bool.false_eq_true, if_false] at h
    split at h
    · exact absurd h (by simp)
    · rename_i l hl
      injection h with h
      subst h
      by_cases hz : DX.toNat = 0
      · rw [hz] at hl
        simp only [canvas.bresenham_points] at hl
        injection hl with hl
        subst hl
        have e1 := hxz (by omega)
        have e2 := hyz (by omega)
        subst e1 e2
        simp
      · obtain ⟨k, hk⟩ : ∃ k, DX.toNat = k + 1 := ⟨DX.toNat - 1, by omega⟩
        rw [hk] at hl
        have h0 := canvas.bresenham_points_head _ _ _ _ _ _ _ _ _ _ _ hl
        have hlen : 0 < l.length := by
          cases l with
          | nil => simp at h0
          | cons a t => simp
        rw [List.getElem?_append_left hlen, h0]
        simp only [Bool.false_eq_true, if_false, ux1, uy1]

/-- An unclipped segment inside the buffer, drawn with pen width 1 from the
flag-false state: `line_segment` returns; the plotted points are the `n + 1`
distinct points of the stepper, from `(x1,y1)` to `(x2,y2)`; each of them
becomes the blend of the pen over its former value and no other pixel changes. -/
theorem canvas.line_segment_unclipped (c : canvas) (fuel : Nat) (x1 y1 x2 y2 : Nat)
    (hb : c.m_bitmap.wf) (hflag : c.m_clipped = false) (hw1 : c.m_pen_width = 1)
    (hp1 : x1 < c.m_bitmap.m_width ∧ y1 < c.m_bitmap.m_height)
    (hp2 : x2 < c.m_bitmap.m_width ∧ y2 < c.m_bitmap.m_height)
    (hc1 : c.m_clip_minx ≤ x1 ∧ x1 ≤ c.m_clip_maxx ∧ c.m_clip_miny ≤ y1 ∧ y1 ≤ c.m_clip_maxy)
    (hc2 : c.m_clip_minx ≤ x2 ∧ x2 ≤ c.m_clip_maxx ∧ c.m_clip_miny ≤ y2 ∧ y2 ≤ c.m_clip_maxy) :
    ∃ c2 pts, c.line_segment (fuel + 1) x1 y1 x2 y2 = .ok c2 ∧
      c2.trace = c.trace ++ pts ∧
      pts.length = (max |(x2 : Int) - x1| |(y2 : Int) - y1|).toNat + 1 ∧
      pts[0]? = some (x1, y1) ∧
      pts.getLast? = some (x2, y2) ∧
      pts.Nodup ∧
      (∀ (i : Nat) (p : Nat × Nat), pts[i]? = some p →
        (min (x1 : Int) x2 ≤ p.1 ∧ (p.1 : Int) ≤ max (x1 : Int) x2 ∧
          min (y1 : Int) y2 ≤ p.2 ∧ (p.2 : Int) ≤ max (y1 : Int) y2) ∧
        (if |(y2 : Int) - y1| > |(x2 : Int) - x1| then
          (p.2 : Int) = y1 + (i : Int) * (if (y2 : Int) - y1 > 0 then 1 else -1)
         else (p.1 : Int) = x1 + (i : Int) * (if (x2 : Int) - x1 > 0 then 1 else -1))) ∧
      ∀ x y, x < c.m_bitmap.m_width → y < c.m_bitmap.m_height →
        c2.m_bitmap.get_pixel x y =
          if (x, y) ∈ pts then (c.m_bitmap.get_pixel x y).map c.blend
          else c.m_bitmap.get_pixel x y := by
  obtain ⟨hwb, hhb⟩ := bitmap.wf_bounds _ hb x1 y1 hp1.1 hp1.2
  have ho1 := canvas.ComputeOutCode_inside c x1 y1 (by omega) (by omega) hc1
  have ho2 := canvas.ComputeOutCode_inside c x2 y2 (by omega) (by omega) hc2
  have hclip := canvas.ClipLine_accept c fuel x1 y1 x2 y2 ho1 ho2
  obtain ⟨pts, hseg, hlen, hlast, hpts⟩ := canvas.segment_points_spec fuel x1 y1 x2 y2
    (by omega) (by omega) (by omega) (by omega)
  have hfirst := canvas.segment_points_first (fuel + 1) x1 y1 x2 y2 pts
    (by omega) (by omega) (by omega) (by omega) hseg
  have hnd : pts.Nodup := by
    by_cases hst : |(y2 : Int) - y1| > |(x2 : Int) - x1|
    · exact nodup_of_index_key pts (fun p => (p.2 : Int))
        (if (y2 : Int) - y1 > 0 then 1 else -1) (y1 : Int) (by split_ifs <;> simp)
        (fun i p hp => by
          have := (hpts i p hp).2
          rw [if_pos hst] at this
          exact this)
    · exact nodup_of_index_key pts (fun p => (p.1 : Int))
        (if (x2 : Int) - x1 > 0 then 1 else -1) (x1 : Int) (by split_ifs <;> simp)
        (fun i p hp => by
          have := (hpts i p hp).2
          rw [if_neg hst] at this
          exact this)
  have hline := canvas.line_segment_accept c (fuel + 1) x1 y1 x2 y2 x1 y1 x2 y2 pts hflag hw1
    hclip hseg
  have hcw : ({ c with m_clipped := true } : canvas).m_bitmap.wf := hb
  obtain ⟨c3, hr3, hb3, hs3, ht3, hpix⟩ := canvas.plot_points_content pts
    { c with m_clipped := true } hcw
    (by
      intro p hp
      obtain ⟨i, hi⟩ := List.mem_iff_getElem?.mp hp
      obtain ⟨⟨b1, b2, b3, b4⟩, -⟩ := hpts i p hi
      have w1 : (p.1 : Int) < (c.m_bitmap.m_width : Int) :=
        lt_of_le_of_lt b2 (max_lt (by exact_mod_cast hp1.1) (by exact_mod_cast hp2.1))
      have w2 : (p.2 : Int) < (c.m_bitmap.m_height : Int) :=
        lt_of_le_of_lt b4 (max_lt (by exact_mod_cast hp1.2) (by exact_mod_cast hp2.2))
      exact ⟨by exact_mod_cast w1, by exact_mod_cast w2, Or.inl rfl⟩) hnd
  refine ⟨{ c3 with m_clipped := false }, pts, ?_, ht3, hlen, ?_, ?_, hnd, hpts, hpix⟩
  · rw [hline, hr3]; rfl
  · rw [hfirst]; simp
  · rw [hlast]; simp

/-- Rounding to binary32 never moves a value below a representable number that
it is not below: if `A = a * 2^s` with `a ≤ 2^24` and `A ≤ n / d`, then
`A ≤ roundPos n d`. -/
theorem roundPos_ge (n d A s : Nat) (hd : 0 < d) (hn : 1 ≤ n) (hA : A * d ≤ n)
    (hs : 2 ^ s ∣ A) (hA2 : A ≤ 2 ^ (24 + s)) :
    (A : Int) * ((roundPos n d).den : Int) ≤ (roundPos n d).num ∧ 0 < (roundPos n d).den := by
  obtain ⟨n1, n2⟩ := ilog2_spec n hn
  obtain ⟨d1, d2⟩ := ilog2_spec d hd
  unfold roundPos
  dsimp only
  generalize he0 : ((ilog2 n : Int) - (ilog2 d : Int)) = e0
  generalize he : ((if (if 0 ≤ e0 then decide (d * 2 ^ e0.toNat ≤ n)
      else decide (d ≤ n * 2 ^ (-e0).toNat)) = true then e0 else e0 - 1) - 23) = t
  have hexp : 0 ≤ t → d * 2 ^ (t.toNat + 23) ≤ n := by
    intro ht
    by_cases hge : (if 0 ≤ e0 then decide (d * 2 ^ e0.toNat ≤ n)
        else decide (d ≤ n * 2 ^ (-e0).toNat)) = true
    · rw [if_pos hge] at he
      have h0 : 0 ≤ e0 := by omega
      rw [if_pos h0] at hge
      have hle := of_decide_eq_true hge
      have : t.toNat + 23 = e0.toNat := by omega
      rw [this]; exact hle
    · rw [if_neg hge] at he
      have hk : ilog2 d + 1 + (t.toNat + 23) = ilog2 n := by omega
      have h1 : d * 2 ^ (t.toNat + 23) ≤ 2 ^ (ilog2 d + 1) * 2 ^ (t.toNat + 23) :=
        Nat.mul_le_mul_right _ (le_of_lt d2)
      rw [← pow_add, hk] at h1
      exact le_trans h1 n1
  clear he he0 n1 n2 d1 d2
  by_cases ht : 0 ≤ t
  · simp only [ht, if_true]
    have hD : 0 < d * 2 ^ t.toNat := Nat.mul_pos hd (by positivity)
    generalize hm : (if 2 * (n % (d * 2 ^ t.toNat)) < d * 2 ^ t.toNat then n / (d * 2 ^ t.toNat)
      else if d * 2 ^ t.toNat < 2 * (n % (d * 2 ^ t.toNat)) then n / (d * 2 ^ t.toNat) + 1
      else if n / (d * 2 ^ t.toNat) % 2 = 0 then n / (d * 2 ^ t.toNat)
      else n / (d * 2 ^ t.toNat) + 1) = m
    have hmq : n / (d * 2 ^ t.toNat) ≤ m := by
      rw [← hm]; split_ifs <;> omega
    have hgoal : A ≤ n / (d * 2 ^ t.toNat) * 2 ^ t.toNat := by
      by_cases hst : t.toNat ≤ s
      · -- `2^T` divides `A`
        obtain ⟨a, ha⟩ : 2 ^ t.toNat ∣ A := dvd_trans (pow_dvd_pow 2 hst) hs
        have h1 : a * (d * 2 ^ t.toNat) ≤ n := by
          have : a * (d * 2 ^ t.toNat) = A * d := by rw [ha]; ring
          rw [this]; exact hA
        have h2 : a ≤ n / (d * 2 ^ t.toNat) := (Nat.le_div_iff_mul_le hD).mpr h1
        rw [ha, mul_comm]
        exact Nat.mul_le_mul_right _ h2
      · have h1 : 2 ^ 23 * (d * 2 ^ t.toNat) ≤ n := by
          have := hexp ht
          have e : 2 ^ 23 * (d * 2 ^ t.toNat) = d * 2 ^ (t.toNat + 23) := by
            rw [pow_add]; ring
          rw [e]; exact this
        have h2 : 2 ^ 23 ≤ n / (d * 2 ^ t.toNat) := (Nat.le_div_iff_mul_le hD).mpr h1
        have h3 : 2 ^ (24 + s) ≤ 2 ^ (23 + t.toNat) :=
          Nat.pow_le_pow_right (by decide) (by omega)
        have h4 : 2 ^ (23 + t.toNat) = 2 ^ 23 * 2 ^ t.toNat := pow_add 2 23 t.toNat
        calc A ≤ 2 ^ (24 + s) := hA2
          _ ≤ 2 ^ (23 + t.toNat) := h3
          _ = 2 ^ 23 * 2 ^ t.toNat := h4
          _ ≤ n / (d * 2 ^ t.toNat) * 2 ^ t.toNat := Nat.mul_le_mul_right _ h2
    have hfin : A ≤ m * 2 ^ t.toNat := le_trans hgoal (Nat.mul_le_mul_right _ hmq)
    refine ⟨?_, by decide⟩
    simp only [Nat.cast_one, mul_one]
    exact_mod_cast hfin
  · simp only [ht, if_false]
    generalize hm : (if 2 * (n * 2 ^ (-t).toNat % d) < d then n * 2 ^ (-t).toNat / d
      else if d < 2 * (n * 2 ^ (-t).toNat % d) then n * 2 ^ (-t).toNat / d + 1
      else if n * 2 ^ (-t).toNat / d % 2 = 0 then n * 2 ^ (-t).toNat / d
      else n * 2 ^ (-t).toNat / d + 1) = m
    have hmq : n * 2 ^ (-t).toNat / d ≤ m := by
      rw [← hm]; split_ifs <;> omega
    have h1 : A * 2 ^ (-t).toNat * d ≤ n * 2 ^ (-t).toNat := by
      have : A * 2 ^ (-t).toNat * d = A * d * 2 ^ (-t).toNat := by ring
      rw [this]; exact Nat.mul_le_mul_right _ hA
    have h2 : A * 2 ^ (-t).toNat ≤ n * 2 ^ (-t).toNat / d := (Nat.le_div_iff_mul_le hd).mpr h1
    refine ⟨?_, by positivity⟩
    exact_mod_cast le_trans h2 hmq

/-- Rounding a non-negative fraction gives a non-negative fraction with a
positive denominator. -/
theorem roundPos_nonneg (n d : Nat) :
    0 ≤ (roundPos n d).num ∧ 0 < (roundPos n d).den := by
  unfold roundPos
  dsimp only
  generalize ((ilog2 n : Int) - (ilog2 d : Int)) = e0
  generalize ((if (if 0 ≤ e0 then decide (d * 2 ^ e0.toNat ≤ n)
      else decide (d ≤ n * 2 ^ (-e0).toNat)) = true then e0 else e0 - 1) - 23) = t
  by_cases ht : 0 ≤ t
  · simp only [ht, if_true]
    exact ⟨Int.natCast_nonneg _, by decide⟩
  · simp only [ht, if_false]
    exact ⟨Int.natCast_nonneg _, by positivity⟩

theorem f32round_nonneg (a : Frac) (h : 0 ≤ a.num) :
    0 ≤ (f32round a).num ∧ 0 < (f32round a).den := by
  unfold f32round
  split_ifs with h1 h2
  · exact ⟨le_refl _, by decide⟩
  · exact roundPos_nonneg _ _
  · omega

/-- The binary32 value of a positive integer is `A = a * 2^s` with `a ≤ 2^24`. -/
theorem roundPos_int_repr (n : Nat) (hn : 1 ≤ n) :
    ∃ A s : Nat, (roundPos n 1).num = (A : Int) * ((roundPos n 1).den : Int) ∧
      0 < (roundPos n 1).den ∧ 2 ^ s ∣ A ∧ A ≤ 2 ^ (24 + s) := by
  by_cases hsmall : n < 16777216
  · obtain ⟨h1, h2⟩ := roundPos_small n hn hsmall
    exact ⟨n, 0, h1, h2, by simp, by
      have : (2 : Nat) ^ (24 + 0) = 16777216 := by norm_num
      omega⟩
  · obtain ⟨ha, hb⟩ := ilog2_spec n hn
    have hL : 24 ≤ ilog2 n := by
      by_contra hc
      have : 2 ^ (ilog2 n + 1) ≤ 2 ^ 24 := Nat.pow_le_pow_right (by decide) (by omega)
      omega
    unfold roundPos
    rw [ilog2_one]
    generalize ilog2 n = L at *
    have ht : (0 : Int) ≤ (L : Int) - 23 := by omega
    have hT : ((L : Int) - 23).toNat = L - 23 := by omega
    simp only [Nat.cast_zero, sub_zero, Int.natCast_nonneg, if_true, Int.toNat_ofNat,
      Nat.one_mul, ha, decide_True, ht, hT]
    generalize hm : (if 2 * (n % 2 ^ (L - 23)) < 2 ^ (L - 23) then n / 2 ^ (L - 23)
      else if 2 ^ (L - 23) < 2 * (n % 2 ^ (L - 23)) then n / 2 ^ (L - 23) + 1
      else if n / 2 ^ (L - 23) % 2 = 0 then n / 2 ^ (L - 23)
      else n / 2 ^ (L - 23) + 1) = m
    have hq : n / 2 ^ (L - 23) < 2 ^ 24 := by
      rw [Nat.div_lt_iff_lt_mul (by positivity)]
      have : 2 ^ 24 * 2 ^ (L - 23) = 2 ^ (L + 1) := by
        rw [← pow_add]; congr 1; omega
      rw [this]; exact hb
    have hmq : m ≤ 2 ^ 24 := by
      rw [← hm]; split_ifs <;> omega
    refine ⟨m * 2 ^ (L - 23), L - 23, by simp, by decide, Dvd.intro_left m rfl, ?_⟩
    rw [pow_add]
    exact Nat.mul_le_mul_right _ hmq

/-- The binary32 threshold of `fill_circle` is never below the binary32 value
of `r*r`, for any radius. -/
theorem thr_ge (r : Nat) (hr : 1 ≤ r) :
    0 ≤ (thr r).num ∧ 0 < (thr r).den ∧
    Frac.fle (Frac.ofInt ((r : Int) * (r : Int))) (thr r) = true := by
  have hrr : 1 ≤ r * r := Nat.mul_pos hr hr
  have hpos : (0 : Int) < (r : Int) * (r : Int) := by exact_mod_cast hrr
  -- the value of `r*r`
  have hA : Frac.ofInt ((r : Int) * (r : Int)) = roundPos (r * r) 1 := by
    unfold Frac.ofInt f32round
    have hne : ¬ ((r : Int) * (r : Int) = 0) := by omega
    simp only [hne, if_false, hpos, if_true]
    congr 1
  obtain ⟨A, s, a1, a2, a3, a4⟩ := roundPos_int_repr (r * r) hrr
  -- the value of `r * 0.8f`
  have hr0 : 0 ≤ (Frac.ofInt (r : Int)).num ∧ 0 < (Frac.ofInt (r : Int)).den :=
    f32round_nonneg ⟨(r : Int), 1⟩ (by simp)
  obtain ⟨dl1, dl2⟩ : 0 ≤ (Frac.fmul (Frac.ofInt (r : Int)) c08).num ∧
      0 < (Frac.fmul (Frac.ofInt (r : Int)) c08).den := by
    unfold Frac.fmul
    apply f32round_nonneg
    show 0 ≤ (Frac.ofInt (r : Int)).num * c08.num
    exact mul_nonneg hr0.1 (by decide)
  unfold thr
  rw [hA]
  generalize Frac.fmul (Frac.ofInt (r : Int)) c08 = Dl at dl1 dl2 ⊢
  generalize hR : roundPos (r * r) 1 = R at a1 a2
  obtain ⟨Rn, Rd⟩ := R
  obtain ⟨Dn, Dd⟩ := Dl
  simp only at a1 a2 dl1 dl2
  subst a1
  have hDd : (0 : Int) < (Dd : Int) := by exact_mod_cast dl2
  have hRd : (0 : Int) < (Rd : Int) := by exact_mod_cast a2
  -- the sum, before rounding
  have hnum : 0 < (A : Int) * Rd * Dd + Dn * Rd ∨ (A : Int) * Rd * Dd + Dn * Rd = 0 := by
    have : 0 ≤ (A : Int) * Rd * Dd + Dn * Rd := by positivity
    omega
  unfold Frac.fadd
  simp only
  rcases hnum with hp | hz
  · have hne : ¬ ((A : Int) * Rd * Dd + Dn * Rd = 0) := by omega
    unfold f32round
    simp only [hne, if_false, hp, if_true]
    have hval : (((A : Int) * Rd * Dd + Dn * Rd).toNat : Int) = (A : Int) * Rd * Dd + Dn * Rd :=
      Int.toNat_of_nonneg (le_of_lt hp)
    obtain ⟨g1, g2⟩ := roundPos_ge ((A : Int) * Rd * Dd + Dn * Rd).toNat (Rd * Dd) A s
      (Nat.mul_pos a2 dl2) (by omega)
      (by
        have : ((A * (Rd * Dd) : Nat) : Int) ≤ (((A : Int) * Rd * Dd + Dn * Rd).toNat : Int) := by
          rw [hval]; push_cast
          have : 0 ≤ Dn * (Rd : Int) := mul_nonneg dl1 (le_of_lt hRd)
          nlinarith
        exact_mod_cast this) a3 a4
    generalize roundPos ((A : Int) * Rd * Dd + Dn * Rd).toNat (Rd * Dd) = T at g1 g2 ⊢
    have g0 : 0 ≤ T.num := le_trans (by positivity) g1
    refine ⟨g0, g2, ?_⟩
    unfold Frac.fle
    simp only [decide_eq_true_eq]
    calc (A : Int) * Rd * T.den = (A : Int) * T.den * Rd := by ring
      _ ≤ T.num * Rd := mul_le_mul_of_nonneg_right g1 (le_of_lt hRd)
  · have hA0 : (A : Int) * Rd * Dd = 0 := by
      have h1 : 0 ≤ (A : Int) * Rd * Dd := by positivity
      have h2 : 0 ≤ Dn * (Rd : Int) := mul_nonneg dl1 (le_of_lt hRd)
      omega
    unfold f32round
    simp only [hz, if_true]
    refine ⟨le_refl _, by decide, ?_⟩
    unfold Frac.fle
    simp only [decide_eq_true_eq, Nat.cast_one, mul_one, zero_mul]
    have : (A : Int) * Rd = 0 := by
      rcases mul_eq_zero.mp hA0 with h | h
      · exact h
      · omega
    omega

theorem u32_i32_nonneg (z : Int) (h1 : 0 ≤ z) (h2 : z < 2147483648) :
    u32 (i32 z) = z.toNat := by
  rw [i32_eq z (by omega) h2]
  exact u32_eq _ h1 (by omega)

/-- The points of one row of `fill_circle` have increasing `x` and the row's `y`. -/
theorem canvas.fill_circle_row_sorted (centerx centery r2 : Int) (r2_delta : Frac) (y : Int)
    (hy : 0 ≤ centery + y ∧ centery + y < 2147483648) (n : Nat) :
    ∀ (x : Int), -2147483648 ≤ x → 0 ≤ centerx + x → centerx + x + n < 2147483648 →
      x + n < 2147483648 →
      List.Pairwise (fun p q : Nat × Nat => p.1 < q.1)
        (canvas.fill_circle_row_points centerx centery r2 r2_delta y n x) ∧
      ∀ p ∈ canvas.fill_circle_row_points centerx centery r2 r2_delta y n x,
        (centerx + x).toNat ≤ p.1 ∧ p.2 = (centery + y).toNat := by
  induction n with
  | zero =>
    intro x _ _ _ _
    simp [canvas.fill_circle_row_points]
  | succ n ih =>
    intro x h0 h1 h2 h3
    push_cast at h2 h3
    have hx1 : i32 (x + 1) = x + 1 := i32_eq _ (by omega) (by omega)
    obtain ⟨ih1, ih2⟩ := ih (x + 1) (by omega) (by omega) (by omega) (by omega)
    have e1 : u32 (i32 (centerx + x)) = (centerx + x).toNat :=
      u32_i32_nonneg _ h1 (by omega)
    have e2 : u32 (i32 (centery + y)) = (centery + y).toNat := u32_i32_nonneg _ hy.1 hy.2
    simp only [canvas.fill_circle_row_points, hx1, e1, e2]
    constructor
    · rw [List.pairwise_append]
      refine ⟨by split_ifs <;> simp, ih1, ?_⟩
      intro a ha b hb
      have hb1 := (ih2 b hb).1
      split_ifs at ha
      · simp only [List.mem_singleton] at ha
        rw [ha]
        show (centerx + x).toNat < b.1
        omega
      · simp at ha
    · intro p hp
      rcases List.mem_append.mp hp with h | h
      · split_ifs at h
        · simp only [List.mem_singleton] at h
          rw [h]
          exact ⟨le_refl _, rfl⟩
        · simp at h
      · obtain ⟨q1, q2⟩ := ih2 p h
        exact ⟨by omega, q2⟩

/-- The points `fill_circle` plots are pairwise different. -/
theorem canvas.fill_circle_rows_nodup (centerx centery radius r2 : Int) (r2_delta : Frac)
    (hr : 0 ≤ radius ∧ radius < 1073741824)
    (hcx : radius ≤ centerx ∧ centerx + radius < 1073741824) (n : Nat) :
    ∀ (y : Int), -2147483648 ≤ y → 0 ≤ centery + y → centery + y + n < 2147483648 →
      y + n < 2147483648 →
      (canvas.fill_circle_rows_points centerx centery radius r2 r2_delta n y).Nodup ∧
      ∀ p ∈ canvas.fill_circle_rows_points centerx centery radius r2 r2_delta n y,
        (centery + y).toNat ≤ p.2 := by
  have e1 : i32 (-radius) = -radius := i32_eq _ (by omega) (by omega)
  have e2 : (radius - -radius + 1).toNat = (2 * radius + 1).toNat := by congr 1; ring
  induction n with
  | zero =>
    intro y _ _ _ _
    simp [canvas.fill_circle_rows_points]
  | succ n ih =>
    intro y h0 h1 h2 h3
    push_cast at h2 h3
    have hy1 : i32 (y + 1) = y + 1 := i32_eq _ (by omega) (by omega)
    obtain ⟨ih1, ih2⟩ := ih (y + 1) (by omega) (by omega) (by omega) (by omega)
    obtain ⟨r1, r2'⟩ := canvas.fill_circle_row_sorted centerx centery r2 r2_delta y
      ⟨h1, by omega⟩ (2 * radius + 1).toNat (-radius) (by omega) (by omega)
      (by
        have : (((2 * radius + 1).toNat : Nat) : Int) = 2 * radius + 1 :=
          Int.toNat_of_nonneg (by omega)
        omega)
      (by
        have : (((2 * radius + 1).toNat : Nat) : Int) = 2 * radius + 1 :=
          Int.toNat_of_nonneg (by omega)
        omega)
    simp only [canvas.fill_circle_rows_points, hy1, e1, e2]
    constructor
    · refine List.Nodup.append ?_ ih1 ?_
      · exact r1.imp (fun h => by
          intro he
          rw [he] at h
          exact lt_irrefl _ h)
      · intro a ha hb
        have q1 := (r2' a ha).2
        have q2 := ih2 a hb
        omega
    · intro p hp
      rcases List.mem_append.mp hp with h | h
      · have := (r2' p h).2
        omega
      · have := ih2 p h
        omega

/-- What `fill_circle` does to the buffer when the bounding square of the disc
lies inside the clip rectangle and the buffer: the call returns, the pixels at
the offsets that pass the binary32 test against `thr r` become the blend of the
pen over their former value, and every other pixel keeps its value. -/
theorem canvas.fill_circle_content (c : canvas) (cx cy r : Nat) (hb : c.m_bitmap.wf)
    (hw1 : c.m_pen_width = 1)
    (hsq : r ≤ cx ∧ cx + r < c.m_bitmap.m_width ∧ r ≤ cy ∧ cy + r < c.m_bitmap.m_height)
    (hclip : c.m_clip_minx + r ≤ cx ∧ cx + r ≤ c.m_clip_maxx ∧
      c.m_clip_miny + r ≤ cy ∧ cy + r ≤ c.m_clip_maxy) :
    ∃ c2 l, c.fill_circle cx cy r = .ok c2 ∧ c2.trace = c.trace ++ l ∧
      (∀ p, p ∈ l ↔ ∃ dx dy : Int, -(r : Int) ≤ dx ∧ dx ≤ r ∧ -(r : Int) ≤ dy ∧ dy ≤ r ∧
        Frac.fle (Frac.ofInt (dx * dx + dy * dy)) (thr r) = true ∧
        p = (((cx : Int) + dx).toNat, ((cy : Int) + dy).toNat)) ∧
      ∀ x y, x < c.m_bitmap.m_width → y < c.m_bitmap.m_height →
        c2.m_bitmap.get_pixel x y =
          if (x, y) ∈ l then (c.m_bitmap.get_pixel x y).map c.blend
          else c.m_bitmap.get_pixel x y := by
  have hr : r < 16384 := radius_bound _ _ r (by omega) (by omega) hb.2.2.2
  obtain ⟨hWb, hHb⟩ := bitmap.wf_bounds c.m_bitmap hb cx cy (by omega) (by omega)
  have hrr : (r : Int) * r < 268435456 := by
    have : r * r < 16384 * 16384 := Nat.mul_lt_mul'' hr hr
    exact_mod_cast this
  have hrr0 : (0 : Int) ≤ (r : Int) * r := by positivity
  have e1 : i32 ((r : Int) * r) = (r : Int) * r := i32_eq _ (by omega) (by omega)
  have e2 : i32 (-(r : Int)) = -(r : Int) := i32_eq _ (by omega) (by omega)
  have e3 : ((r : Int) - -(r : Int) + 1).toNat = 2 * r + 1 := by omega
  have hne : ¬ ((r : Int) = 2147483647) := by omega
  have hthr : Frac.fadd (Frac.ofInt ((r : Int) * r)) (Frac.fmul (Frac.ofInt (r : Int)) c08)
      = thr r := rfl
  have hfc : c.fill_circle cx cy r = c.plot_points
      (canvas.fill_circle_rows_points cx cy r ((r : Int) * r)
        (Frac.fmul (Frac.ofInt (r : Int)) c08) (2 * r + 1) (-(r : Int))) := by
    simp only [canvas.fill_circle, hne, if_false, e1, e2, e3]
    exact canvas.fill_circle_rows_eq _ _ _ _ _ _ _ _ hw1
  -- membership, in terms of the offsets
  have hmem : ∀ p, p ∈ canvas.fill_circle_rows_points cx cy r ((r : Int) * r)
        (Frac.fmul (Frac.ofInt (r : Int)) c08) (2 * r + 1) (-(r : Int)) ↔
      ∃ dx dy : Int, -(r : Int) ≤ dx ∧ dx ≤ r ∧ -(r : Int) ≤ dy ∧ dy ≤ r ∧
        Frac.fle (Frac.ofInt (dx * dx + dy * dy)) (thr r) = true ∧
        p = (((cx : Int) + dx).toNat, ((cy : Int) + dy).toNat) := by
    intro p
    rw [canvas.fill_circle_rows_mem _ _ _ _ _ _ _ _ (by omega) (by push_cast; omega)]
    simp only [e2, e3]
    constructor
    · rintro ⟨j, hj, hrow⟩
      rw [canvas.fill_circle_row_mem _ _ _ _ _ _ _ _ (by omega) (by push_cast; omega)] at hrow
      obtain ⟨k, hk, ht, hp⟩ := hrow
      have hx1 : -(r : Int) ≤ -(r : Int) + k := by omega
      have hx2 : -(r : Int) + k ≤ r := by omega
      have hy1 : -(r : Int) ≤ -(r : Int) + j := by omega
      have hy2 : -(r : Int) + j ≤ r := by omega
      rw [sq_sum_conv r _ _ hr hx1 hx2 hy1 hy2, hthr] at ht
      rw [coord_conv cx r _ hx1 hx2 hsq.1 (by omega),
        coord_conv cy r _ hy1 hy2 hsq.2.2.1 (by omega)] at hp
      exact ⟨_, _, hx1, hx2, hy1, hy2, ht, hp⟩
    · rintro ⟨dx, dy, hx1, hx2, hy1, hy2, ht, hp⟩
      refine ⟨(dy + r).toNat, by omega, ?_⟩
      rw [canvas.fill_circle_row_mem _ _ _ _ _ _ _ _ (by omega) (by push_cast; omega)]
      refine ⟨(dx + r).toNat, by omega, ?_, ?_⟩
      · have ex : -(r : Int) + ((dx + r).toNat : Int) = dx := by omega
        have ey : -(r : Int) + ((dy + r).toNat : Int) = dy := by omega
        rw [ex, ey, sq_sum_conv r _ _ hr hx1 hx2 hy1 hy2, hthr]
        exact ht
      · have ex : -(r : Int) + ((dx + r).toNat : Int) = dx := by omega
        have ey : -(r : Int) + ((dy + r).toNat : Int) = dy := by omega
        rw [ex, ey, coord_conv cx r _ hx1 hx2 hsq.1 (by omega),
          coord_conv cy r _ hy1 hy2 hsq.2.2.1 (by omega)]
        exact hp
  obtain ⟨hnd, -⟩ := canvas.fill_circle_rows_nodup (cx : Int) (cy : Int) (r : Int)
    ((r : Int) * r) (Frac.fmul (Frac.ofInt (r : Int)) c08) ⟨by omega, by omega⟩
    ⟨by omega, by omega⟩ (2 * r + 1) (-(r : Int)) (by omega) (by omega)
    (by push_cast; omega) (by push_cast; omega)
  obtain ⟨c2, e, -, -, ht, hpix⟩ := canvas.plot_points_content _ c hb
    (by
      intro p hp
      obtain ⟨dx, dy, hx1, hx2, hy1, hy2, -, hpe⟩ := (hmem p).mp hp
      rw [hpe]
      refine ⟨by show ((cx : Int) + dx).toNat < _; omega,
        by show ((cy : Int) + dy).toNat < _; omega, Or.inr ?_⟩
      show c.m_clip_minx ≤ ((cx : Int) + dx).toNat ∧ ((cx : Int) + dx).toNat ≤ c.m_clip_maxx ∧
        c.m_clip_miny ≤ ((cy : Int) + dy).toNat ∧ ((cy : Int) + dy).toNat ≤ c.m_clip_maxy
      omega) hnd
  exact ⟨c2, _, by rw [hfc, e], ht, hmem, hpix⟩

/-- C5: with the clip flag false (as at every top-level call), pen width 1 and
a bitmap whose store holds all its pixels, `line_segment` between two points
that both lie inside the clip rectangle (bounds included) and inside the buffer
returns, and both `(x1,y1)` and `(x2,y2)` are plotted: they are among the
pixels written, and in the buffer after the call each of the two pixels holds
the blend of the pen over the value it had before the call. -/
theorem line_segment_plots_endpoints (c : canvas) (fuel : Nat) (x1 y1 x2 y2 : Nat)
    (hb : c.m_bitmap.wf) (hflag : c.m_clipped = false) (hw1 : c.m_pen_width = 1)
    (hp1 : x1 < c.m_bitmap.m_width ∧ y1 < c.m_bitmap.m_height)
    (hp2 : x2 < c.m_bitmap.m_width ∧ y2 < c.m_bitmap.m_height)
    (hc1 : c.m_clip_minx ≤ x1 ∧ x1 ≤ c.m_clip_maxx ∧ c.m_clip_miny ≤ y1 ∧ y1 ≤ c.m_clip_maxy)
    (hc2 : c.m_clip_minx ≤ x2 ∧ x2 ≤ c.m_clip_maxx ∧ c.m_clip_miny ≤ y2 ∧ y2 ≤ c.m_clip_maxy) :
    ∃ c2 l, c.line_segment (fuel + 1) x1 y1 x2 y2 = Except.ok c2 ∧
      c2.trace = c.trace ++ l ∧ (x1, y1) ∈ l ∧ (x2, y2) ∈ l ∧
      c2.m_bitmap.get_pixel x1 y1 = (c.m_bitmap.get_pixel x1 y1).map c.blend ∧
      c2.m_bitmap.get_pixel x2 y2 = (c.m_bitmap.get_pixel x2 y2).map c.blend := by
  obtain ⟨c2, pts, h1, h2, -, hfirst, hlast, -, -, hpix⟩ :=
    canvas.line_segment_unclipped c fuel x1 y1 x2 y2 hb hflag hw1 hp1 hp2 hc1 hc2
  have m1 : (x1, y1) ∈ pts := List.mem_iff_getElem?.mpr ⟨0, hfirst⟩
  have m2 : (x2, y2) ∈ pts := List.mem_of_mem_getLast? hlast
  refine ⟨c2, pts, h1, h2, m1, m2, ?_, ?_⟩
  · rw [hpix x1 y1 hp1.1 hp1.2, if_pos m1]
  · rw [hpix x2 y2 hp2.1 hp2.2, if_pos m2]

theorem line_segment_plots_endpoints_witness :
    ∃ c2 l, ((canvas.new ((bitmap.new 4 4).clear 100)).pen_color 10 20 30 128).line_segment
        (0 + 1) (0 : Nat) (1 : Nat) (3 : Nat) (2 : Nat) = Except.ok c2 ∧
      c2.trace = ((canvas.new ((bitmap.new 4 4).clear 100)).pen_color 10 20 30 128).trace ++ l ∧
      (0, 1) ∈ l ∧ (3, 2) ∈ l ∧
      c2.m_bitmap.get_pixel 0 1 = Except.ok (54, 59, 64, 128) ∧
      c2.m_bitmap.get_pixel 3 2 = Except.ok (54, 59, 64, 128) := by
  obtain ⟨c2, l, h1, h2, h3, h4, h5, h6⟩ := line_segment_plots_endpoints
    ((canvas.new ((bitmap.new 4 4).clear 100)).pen_color 10 20 30 128) 0 0 1 3 2
    (by decide) (by decide) (by decide) (by decide) (by decide) (by decide) (by decide)
  refine ⟨c2, l, h1, h2, h3, h4, ?_, ?_⟩
  · rw [h5]; decide
  · rw [h6]; decide

/-- C17 (as stated) fails when the clip rectangle reaches beyond the buffer: on
a 4x4 bitmap both end points of (0,4)-(3,4) lie inside the default clip
rectangle (0,0,4,4), and both end points of (0,5)-(3,5) lie inside the clip
rectangle set by `setclip(0,0,9,9)`, so the segments are accepted unclipped,
but the first pixel access is outside the store: the call plots nothing and
does not return a result. -/
theorem line_segment_accepted_outside_buffer :
    (canvas.new (bitmap.new 4 4)).ClipLine 1 0 4 3 4 = Except.ok (true, 0, 4, 3, 4) ∧
    (canvas.new (bitmap.new 4 4)).line_segment 1 0 4 3 4 = Except.error Fault.outOfBounds ∧
    ((canvas.new (bitmap.new 4 4)).setclip 0 0 9 9).ClipLine 1 0 5 3 5
      = Except.ok (true, 0, 5, 3, 5) ∧
    ((canvas.new (bitmap.new 4 4)).setclip 0 0 9 9).line_segment 1 0 5 3 5
      = Except.error Fault.outOfBounds := by decide

/-- C17 (amended): for a segment whose end points both lie inside the clip
rectangle and inside the buffer (of a bitmap whose store holds all its pixels),
drawn with pen width 1 from the flag-false state, `line_segment` returns and
plots exactly `n + 1` distinct points, `n = max(|x2-x1|, |y2-y1|)`: the point of
index `i` has dominant-axis coordinate `start + i` or `start - i` (the `n + 1`
consecutive integers from the start to the end coordinate), every point lies
between the end points on both axes, the first point is `(x1,y1)` and the last
is `(x2,y2)`.  In the buffer each of these pixels holds the blend of the pen
over its former value (it is written once) and every other pixel is unchanged. -/
theorem line_segment_one_point_per_step (c : canvas) (fuel : Nat) (x1 y1 x2 y2 : Nat)
    (hb : c.m_bitmap.wf) (hflag : c.m_clipped = false) (hw1 : c.m_pen_width = 1)
    (hp1 : x1 < c.m_bitmap.m_width ∧ y1 < c.m_bitmap.m_height)
    (hp2 : x2 < c.m_bitmap.m_width ∧ y2 < c.m_bitmap.m_height)
    (hc1 : c.m_clip_minx ≤ x1 ∧ x1 ≤ c.m_clip_maxx ∧ c.m_clip_miny ≤ y1 ∧ y1 ≤ c.m_clip_maxy)
    (hc2 : c.m_clip_minx ≤ x2 ∧ x2 ≤ c.m_clip_maxx ∧ c.m_clip_miny ≤ y2 ∧ y2 ≤ c.m_clip_maxy) :
    ∃ c2 pts, c.line_segment (fuel + 1) x1 y1 x2 y2 = Except.ok c2 ∧
      c2.trace = c.trace ++ pts ∧
      pts.length = (max |(x2 : Int) - x1| |(y2 : Int) - y1|).toNat + 1 ∧
      pts[0]? = some (x1, y1) ∧
      pts.getLast? = some (x2, y2) ∧
      pts.Nodup ∧
      (∀ (i : Nat) (p : Nat × Nat), pts[i]? = some p →
        (min (x1 : Int) x2 ≤ p.1 ∧ (p.1 : Int) ≤ max (x1 : Int) x2 ∧
          min (y1 : Int) y2 ≤ p.2 ∧ (p.2 : Int) ≤ max (y1 : Int) y2) ∧
        (if |(y2 : Int) - y1| > |(x2 : Int) - x1| then
          (p.2 : Int) = y1 + (i : Int) * (if (y2 : Int) - y1 > 0 then 1 else -1)
         else (p.1 : Int) = x1 + (i : Int) * (if (x2 : Int) - x1 > 0 then 1 else -1))) ∧
      ∀ x y, x < c.m_bitmap.m_width → y < c.m_bitmap.m_height →
        c2.m_bitmap.get_pixel x y =
          if (x, y) ∈ pts then (c.m_bitmap.get_pixel x y).map c.blend
          else c.m_bitmap.get_pixel x y :=
  canvas.line_segment_unclipped c fuel x1 y1 x2 y2 hb hflag hw1 hp1 hp2 hc1 hc2

theorem line_segment_one_point_per_step_witness :
    ∃ (c2 : canvas) (pts : List (Nat × Nat)), ((canvas.new ((bitmap.new 4 4).clear 100)).pen_color 10 20 30 128).line_segment
        (0 + 1) (0 : Nat) (1 : Nat) (3 : Nat) (2 : Nat) = Except.ok c2 ∧
      pts.length = 4 ∧ pts[0]? = some (0, 1) ∧ pts.getLast? = some (3, 2) ∧ pts.Nodup ∧
      (∀ (i : Nat) (p : Nat × Nat), pts[i]? = some p →
        (p.1 : Int) = i ∧ 1 ≤ p.2 ∧ p.2 ≤ 2) ∧
      ∀ x y, x < 4 → y < 4 →
        c2.m_bitmap.get_pixel x y =
          if (x, y) ∈ pts then Except.ok (54, 59, 64, 128)
          else Except.ok (100, 100, 100, 100) := by
  obtain ⟨hwf, hw, hh, hget⟩ := bitmap.clear_wf (bitmap.new 4 4) (by decide) 100
  obtain ⟨c2, pts, h1, -, h3, h4, h5, h6, h7, h8⟩ := line_segment_one_point_per_step
    ((canvas.new ((bitmap.new 4 4).clear 100)).pen_color 10 20 30 128) 0 0 1 3 2
    (by decide) (by decide) (by decide) (by decide) (by decide) (by decide) (by decide)
  refine ⟨c2, pts, h1, ?_, h4, h5, h6, ?_, ?_⟩
  · rw [h3]; decide
  · intro i p hp
    obtain ⟨⟨-, -, b3, b4⟩, d⟩ := h7 i p hp
    have hns : ¬ (|((2 : Nat) : Int) - (1 : Nat)| > |((3 : Nat) : Int) - (0 : Nat)|) := by
      decide
    rw [if_neg hns] at d
    simp only [Nat.cast_ofNat, Nat.cast_one, CharP.cast_eq_zero, sub_zero, Nat.ofNat_pos,
      if_true, mul_one, zero_add] at d
    simp only [Nat.cast_ofNat, Nat.cast_one, min_le_iff, le_max_iff] at b3 b4
    exact ⟨d, by omega, by omega⟩
  · intro x y hx hy
    have e := h8 x y hx hy
    have g : ((canvas.new ((bitmap.new 4 4).clear 100)).pen_color 10 20 30 128).m_bitmap.get_pixel
        x y = Except.ok (100, 100, 100, 100) := hget x y hx hy
    rw [g] at e
    rw [e]
    rfl

/-- C6: a segment with both end points beyond the same side of the clip
rectangle is not always dropped.  With the clip rectangle (2,2,7,7) both end
points of (-1,3)-(0,3) lie left of the rectangle; `ComputeOutCode` gives RIGHT
for (-1,3) (the `int` is compared as `unsigned`) and LEFT for (0,3), the
out-codes share no bit, `ClipLine` accepts the segment as (7,3)-(2,3) and
`line_segment` writes the six pixels (7,3)..(2,3). -/
theorem line_segment_left_of_clip_is_drawn :
    ((-1 : Int) < 2 ∧ (0 : Int) < 2) ∧
    ((canvas.new (bitmap.new 10 10)).setclip 2 2 7 7).ComputeOutCode (-1) 3 = RIGHT ∧
    ((canvas.new (bitmap.new 10 10)).setclip 2 2 7 7).ComputeOutCode 0 3 = LEFT ∧
    ((canvas.new (bitmap.new 10 10)).setclip 2 2 7 7).ClipLine 3 (-1) 3 0 3
      = Except.ok (true, 7, 3, 2, 3) ∧
    (((canvas.new (bitmap.new 10 10)).setclip 2 2 7 7).line_segment 3 (-1) 3 0 3 >>=
        fun c2 => pure c2.trace) = Except.ok [(7, 3), (6, 3), (5, 3), (4, 3), (3, 3), (2, 3)] ∧
    (bitmap.new 10 10).get_pixel 7 3 = Except.ok (0, 0, 0, 0) ∧
    (((canvas.new (bitmap.new 10 10)).setclip 2 2 7 7).line_segment 3 (-1) 3 0 3 >>=
        fun c2 => c2.m_bitmap.get_pixel 7 3) = Except.ok (254, 254, 254, 255) := by
  set_option maxRecDepth 100000 in decide

/-- C9 (as stated) fails: with radius 2051 and the bounding square inside clip
and buffer, `fill_circle` writes the pixel at offset (771,1901), which turns
from (0,0,0,0) into (254,254,254,255), although `771^2 + 1901^2 = 4208242`
exceeds `2051^2 + 0.8*2051 = 4208241.8`: the threshold is rounded to the
binary32 value 4208242. -/
theorem fill_circle_radius_2051 :
    ∃ c2, (canvas.new ((bitmap.new 4103 4103).clear 0)).fill_circle 2051 2051 2051
        = Except.ok c2 ∧
      (2051 + 771, 2051 + 1901) ∈ c2.trace ∧
      ((bitmap.new 4103 4103).clear 0).get_pixel (2051 + 771) (2051 + 1901)
        = Except.ok (0, 0, 0, 0) ∧
      c2.m_bitmap.get_pixel (2051 + 771) (2051 + 1901) = Except.ok (254, 254, 254, 255) ∧
      5 * (771 * 771 + 1901 * 1901 - 2051 * 2051) > 4 * 2051 := by
  obtain ⟨hwf0, hw0, hh0⟩ := bitmap.new_wf 4103 4103 (by decide) (by decide) (by decide)
  obtain ⟨hwf, hw1, hh1, hget⟩ := bitmap.clear_wf (bitmap.new 4103 4103) hwf0 0
  rw [hw0] at hw1 hget
  rw [hh0] at hh1 hget
  have hW : (canvas.new ((bitmap.new 4103 4103).clear 0)).m_bitmap.m_width = 4103 := hw1
  have hH : (canvas.new ((bitmap.new 4103 4103).clear 0)).m_bitmap.m_height = 4103 := hh1
  have hsq : 2051 ≤ 2051 ∧
      2051 + 2051 < (canvas.new ((bitmap.new 4103 4103).clear 0)).m_bitmap.m_width ∧
      2051 ≤ 2051 ∧
      2051 + 2051 < (canvas.new ((bitmap.new 4103 4103).clear 0)).m_bitmap.m_height := by
    rw [hW, hH]; decide
  have hclip : (canvas.new ((bitmap.new 4103 4103).clear 0)).m_clip_minx + 2051 ≤ 2051 ∧
      2051 + 2051 ≤ (canvas.new ((bitmap.new 4103 4103).clear 0)).m_clip_maxx ∧
      (canvas.new ((bitmap.new 4103 4103).clear 0)).m_clip_miny + 2051 ≤ 2051 ∧
      2051 + 2051 ≤ (canvas.new ((bitmap.new 4103 4103).clear 0)).m_clip_maxy := by
    refine ⟨by decide, ?_, by decide, ?_⟩
    · show 2051 + 2051 ≤ ((bitmap.new 4103 4103).clear 0).m_width
      rw [hw1]; decide
    · show 2051 + 2051 ≤ ((bitmap.new 4103 4103).clear 0).m_height
      rw [hh1]; decide
  obtain ⟨c2, l, h1, h2, h3, h4⟩ := canvas.fill_circle_content
    (canvas.new ((bitmap.new 4103 4103).clear 0)) 2051 2051 2051 hwf rfl hsq hclip
  have hm : (2051 + 771, 2051 + 1901) ∈ l := by
    rw [h3]
    exact ⟨771, 1901, by decide, by decide, by decide, by decide, by decide, by decide⟩
  have hg := hget (2051 + 771) (2051 + 1901) (by decide) (by decide)
  have hg2 : (canvas.new ((bitmap.new 4103 4103).clear 0)).m_bitmap.get_pixel (2051 + 771)
      (2051 + 1901) = Except.ok (0, 0, 0, 0) := hg
  refine ⟨c2, h1, ?_, hg, ?_, by decide⟩
  · rw [h2]; exact List.mem_append_right _ hm
  · rw [h4 _ _ (by rw [hW]; decide) (by rw [hH]; decide), if_pos hm, hg2]
    rfl

/-- C9 (amended): for every centre `(cx,cy)` and radius `r > 0`, with pen width
1, a bitmap whose store holds all its pixels and the whole bounding square
inside clip and buffer, `fill_circle(cx,cy,r)` returns and plots `(cx,cy)`,
`(cx+r,cy)` and `(cx-r,cy)`: each of the three pixels is written and holds the
blend of the pen over its former value.  For `r ≤ 2050` it plots no pixel
`(cx+dx,cy+dy)` with `5*(dx^2+dy^2-r^2) > 4*r`: every such pixel of the buffer
keeps its value. -/
theorem fill_circle_centre_and_reach (c : canvas) (cx cy r : Nat) (hb : c.m_bitmap.wf)
    (hw1 : c.m_pen_width = 1) (hr0 : 0 < r)
    (hsq : r ≤ cx ∧ cx + r < c.m_bitmap.m_width ∧ r ≤ cy ∧ cy + r < c.m_bitmap.m_height)
    (hclip : c.m_clip_minx + r ≤ cx ∧ cx + r ≤ c.m_clip_maxx ∧
      c.m_clip_miny + r ≤ cy ∧ cy + r ≤ c.m_clip_maxy) :
    ∃ c2 l, c.fill_circle cx cy r = Except.ok c2 ∧ c2.trace = c.trace ++ l ∧
      (cx, cy) ∈ l ∧ (cx + r, cy) ∈ l ∧ (cx - r, cy) ∈ l ∧
      c2.m_bitmap.get_pixel cx cy = (c.m_bitmap.get_pixel cx cy).map c.blend ∧
      c2.m_bitmap.get_pixel (cx + r) cy = (c.m_bitmap.get_pixel (cx + r) cy).map c.blend ∧
      c2.m_bitmap.get_pixel (cx - r) cy = (c.m_bitmap.get_pixel (cx - r) cy).map c.blend ∧
      (r ≤ 2050 →
        (∀ p ∈ l, 5 * (((p.1 : Int) - cx) * ((p.1 : Int) - cx) +
          ((p.2 : Int) - cy) * ((p.2 : Int) - cy) - (r : Int) * r) ≤ 4 * (r : Int)) ∧
        ∀ x y, x < c.m_bitmap.m_width → y < c.m_bitmap.m_height →
          5 * (((x : Int) - cx) * ((x : Int) - cx) +
            ((y : Int) - cy) * ((y : Int) - cy) - (r : Int) * r) > 4 * (r : Int) →
          c2.m_bitmap.get_pixel x y = c.m_bitmap.get_pixel x y) := by
  obtain ⟨c2, l, h1, h2, h3, h4⟩ := canvas.fill_circle_content c cx cy r hb hw1 hsq hclip
  obtain ⟨g1, g2, g3⟩ := thr_ge r hr0
  have m1 : (cx, cy) ∈ l := by
    rw [h3]
    refine ⟨0, 0, by omega, by omega, by omega, by omega, ?_, by simp⟩
    have e : (0 : Int) * 0 + 0 * 0 = ((0 : Nat) : Int) := by simp
    rw [e, Frac.fle_ofInt 0 (by decide)]
    simpa using g1
  have m2 : (cx + r, cy) ∈ l := by
    rw [h3]
    refine ⟨r, 0, by omega, by omega, by omega, by omega, ?_, ?_⟩
    · have e : (r : Int) * r + 0 * 0 = (r : Int) * r := by ring
      rw [e]; exact g3
    · have e1 : ((cx : Int) + r).toNat = cx + r := by omega
      have e2 : ((cy : Int) + 0).toNat = cy := by omega
      rw [e1, e2]
  have m3 : (cx - r, cy) ∈ l := by
    rw [h3]
    refine ⟨-(r : Int), 0, by omega, by omega, by omega, by omega, ?_, ?_⟩
    · have e : -(r : Int) * -(r : Int) + 0 * 0 = (r : Int) * r := by ring
      rw [e]; exact g3
    · have e1 : ((cx : Int) + -(r : Int)).toNat = cx - r := by omega
      have e2 : ((cy : Int) + 0).toNat = cy := by omega
      rw [e1, e2]
  refine ⟨c2, l, h1, h2, m1, m2, m3, ?_, ?_, ?_, ?_⟩
  · rw [h4 cx cy (by omega) (by omega), if_pos m1]
  · rw [h4 (cx + r) cy (by omega) (by omega), if_pos m2]
  · rw [h4 (cx - r) cy (by omega) (by omega), if_pos m3]
  · intro hr
    obtain ⟨t1, t2, t3⟩ := thr_bounds r hr
    have hden : (0 : Int) < ((thr r).den : Int) := by exact_mod_cast t1
    have hrr : r * r ≤ 2050 * 2050 := Nat.mul_le_mul hr hr
    have hin : ∀ p ∈ l, 5 * (((p.1 : Int) - cx) * ((p.1 : Int) - cx) +
        ((p.2 : Int) - cy) * ((p.2 : Int) - cy) - (r : Int) * r) ≤ 4 * (r : Int) := by
      intro p hp
      obtain ⟨dx, dy, hx1, hx2, hy1, hy2, ht, hpe⟩ := (h3 p).mp hp
      have sx : dx * dx ≤ (r : Int) * r := by nlinarith
      have sy : dy * dy ≤ (r : Int) * r := by nlinarith
      have sx0 : 0 ≤ dx * dx := mul_self_nonneg _
      have sy0 : 0 ≤ dy * dy := mul_self_nonneg _
      have hrrI : (r : Int) * r ≤ 4202500 := by exact_mod_cast hrr
      have hN : ((dx * dx + dy * dy).toNat : Int) = dx * dx + dy * dy :=
        Int.toNat_of_nonneg (by omega)
      rw [← hN, Frac.fle_ofInt _ (by omega)] at ht
      have ht' := of_decide_eq_true ht
      rw [hN] at ht'
      have hlt : (dx * dx + dy * dy) * ((thr r).den : Int) <
          ((r * r + 4 * r / 5 + 1 : Nat) : Int) * ((thr r).den : Int) := lt_of_le_of_lt ht' t3
      have hlt2 : dx * dx + dy * dy < ((r * r + 4 * r / 5 + 1 : Nat) : Int) :=
        lt_of_mul_lt_mul_right hlt (le_of_lt hden)
      have e1 : (p.1 : Int) - cx = dx := by rw [hpe]; simp only; omega
      have e2 : (p.2 : Int) - cy = dy := by rw [hpe]; simp only; omega
      rw [e1, e2]
      push_cast at hlt2
      omega
    refine ⟨hin, ?_⟩
    intro x y hx hy hfar
    rw [h4 x y hx hy, if_neg]
    intro hmem
    have := hin (x, y) hmem
    simp only at this
    omega

theorem fill_circle_centre_and_reach_witness :
    ∃ c2, ((canvas.new ((bitmap.new 5 5).clear 100)).pen_color 10 20 30 128).fill_circle
        (2 : Nat) (2 : Nat) (2 : Nat) = Except.ok c2 ∧
      c2.m_bitmap.get_pixel 2 2 = Except.ok (54, 59, 64, 128) ∧
      c2.m_bitmap.get_pixel 4 2 = Except.ok (54, 59, 64, 128) ∧
      c2.m_bitmap.get_pixel 0 2 = Except.ok (54, 59, 64, 128) ∧
      c2.m_bitmap.get_pixel 0 0 = Except.ok (100, 100, 100, 100) := by
  obtain ⟨c2, l, h1, -, -, -, -, h6, h7, h8, h9⟩ := fill_circle_centre_and_reach
    ((canvas.new ((bitmap.new 5 5).clear 100)).pen_color 10 20 30 128) 2 2 2
    (by decide) (by decide) (by decide) (by decide) (by decide)
  refine ⟨c2, h1, ?_, ?_, ?_, ?_⟩
  · rw [h6]; decide
  · rw [h7]; decide
  · rw [h8]; decide
  · rw [(h9 (by decide)).2 0 0 (by decide) (by decide) (by decide)]; decide

end rgbabitmap
